import Mathlib

/-!
HQC sparse-dense multiplication in GF(2)[X]/(X^n - 1).

A shallow embedding of `src/fields/gf2x.c` (`swap`, `reduce`, `fast_convolution_mult`,
`vect_mul`, `safe_mul`) together with proofs about it.  Conventions of the embedding:

* C arrays are `List Nat`; a read `t[i]` is `t.getD i 0`, a write `t[i] = v` is
  `t.set i v`.  Machine integers are `Nat`, reduced `% 2^64` (or `% 65536`) wherever
  the C operation can overflow the type.
* An out-parameter becomes a returned value; the seed expander state is threaded
  explicitly and returned next to the result.
* The `(uint16_t *)` view of a `uint64_t` buffer is the little-endian one (`as_u16`,
  `as_u64`), as on the targets of the repository.
* Loops `for (i = 0; i < n; i++)` are folds over `List.range n`.
-/

namespace HQC

/-! ## Configuration constants -/

/-- The build-time constants of `common/parameters.h` that `gf2x.c` uses. -/
structure Params where
  PARAM_N : Nat
  PARAM_OMEGA : Nat
  PARAM_OMEGA_E : Nat
deriving DecidableEq

/-- Number of slots of the shift table (`#define TABLE 16`). -/
def TABLE : Nat := 16

/-- Width of a machine word (`#define WORD 64`). -/
def WORD : Nat := 64

/-- Modelled from the spec: the macro `VEC_N_SIZE_64` of `common/parameters.h`,
the word length `ceil(n/64)` of a dense polynomial. -/
def VEC_N_SIZE_64 (p : Params) : Nat := (p.PARAM_N + 63) / 64

/-- Modelled from the spec: the macro `RED_MASK` of `common/parameters.h`,
the mask `2^(n mod 64) - 1` of the used bits of the top word. -/
def RED_MASK (p : Params) : Nat := 2 ^ (p.PARAM_N % 64) - 1

/-! ## The seed expander -/

/-- Modelled from the spec: the state of the seed expander (`lib/shake_prng`),
an opaque deterministic byte source.  It is a byte stream with a cursor. -/
structure seedexpander_state where
  stream : Nat → Nat
  pos : Nat

/-- Modelled from the spec: `seedexpander(ctx, out, len)` returns the next `len`
bytes of the stream and advances the state. -/
def seedexpander (ctx : seedexpander_state) (len : Nat) : List Nat × seedexpander_state :=
  ((List.range len).map (fun k => ctx.stream (ctx.pos + k) % 256), ⟨ctx.stream, ctx.pos + len⟩)

/-- The `uint16_t` array that a byte buffer holds (`(uint8_t *) permutation_table`),
little-endian. -/
def cast_u16 (bytes : List Nat) : List Nat :=
  (List.range (bytes.length / 2)).map (fun i => bytes.getD (2 * i) 0 + 256 * bytes.getD (2 * i + 1) 0)

/-! ## swap -/

/-- The function `swap(tab + base, elt1, elt2)`: exchanges `tab[base + elt1]` and
`tab[base + elt2]`. -/
def swap (tab : List Nat) (base elt1 elt2 : Nat) : List Nat :=
  let tmp := tab.getD (base + elt1) 0
  let tab1 := tab.set (base + elt1) (tab.getD (base + elt2) 0)
  tab1.set (base + elt2) tmp

/-! ## reduce -/

/-- The function `reduce(o, a)`: the fold of the double-length buffer `a` modulo
`X^n - 1`, followed by the mask of the top word. -/
def reduce (p : Params) (a : List Nat) : List Nat :=
  let o := (List.range (VEC_N_SIZE_64 p)).foldl (fun o i =>
    let r := a.getD (i + VEC_N_SIZE_64 p - 1) 0 >>> (p.PARAM_N &&& 0x3F)
    let carry := (a.getD (i + VEC_N_SIZE_64 p) 0 <<< (64 - (p.PARAM_N &&& 0x3F))) % 2 ^ 64
    o.set i (a.getD i 0 ^^^ r ^^^ carry)) (List.replicate (VEC_N_SIZE_64 p) 0)
  o.set (VEC_N_SIZE_64 p - 1) (o.getD (VEC_N_SIZE_64 p - 1) 0 &&& RED_MASK p)

/-! ## fast_convolution_mult -/

/-- Lines 81-89: `permuted_table` after the identity fill and the swap pass driven
by the 16 random values `permutation_table`. -/
def shuffle_table (permutation_table : List Nat) : List Nat :=
  let permuted_table := (List.range TABLE).foldl (fun t i => t.set i (i % 65536))
    (List.replicate TABLE 0)
  (List.range (TABLE - 1)).foldl
    (fun t i => swap t i 0 (permutation_table.getD i 0 % (TABLE - i))) permuted_table

/-- Lines 91-97: slot `permuted_table[0]` of the table receives `a2` and a
trailing zero word. -/
def table_first (p : Params) (permuted_table a2 : List Nat) : List Nat :=
  let table := List.replicate (TABLE * (VEC_N_SIZE_64 p + 1)) 0
  let pt := permuted_table.getD 0 0 * (VEC_N_SIZE_64 p + 1)
  let table1 := (List.range (VEC_N_SIZE_64 p)).foldl
    (fun t i => t.set (pt + i) (a2.getD i 0)) table
  table1.set (pt + VEC_N_SIZE_64 p) 0

/-- Lines 100-109, the body of the loop over `i`: slot `permuted_table[i]`
receives `a2 << i`, the carry out of each word going into the next one. -/
def table_row (p : Params) (permuted_table a2 table : List Nat) (i : Nat) : List Nat :=
  let idx := permuted_table.getD i 0 * (VEC_N_SIZE_64 p + 1)
  let st := (List.range (VEC_N_SIZE_64 p)).foldl
    (fun (st : List Nat × Nat) j =>
      (st.1.set (idx + j) (((a2.getD j 0 <<< i) % 2 ^ 64) ^^^ st.2),
       a2.getD j 0 >>> (WORD - i)))
    (table, 0)
  st.1.set (idx + VEC_N_SIZE_64 p) st.2

/-- Lines 91-110: the populated shift table. -/
def build_table (p : Params) (permuted_table a2 : List Nat) : List Nat :=
  (List.range' 1 (TABLE - 1)).foldl (fun t i => table_row p permuted_table a2 t i)
    (table_first p permuted_table a2)

/-- Lines 112-120: `permuted_sparse_vect` (an array of `PARAM_OMEGA_E` entries)
after the identity fill of its first `weight` entries and the swap pass.  The
loop bound `weight - 1` is a signed value. -/
def shuffle_sparse (p : Params) (weight : Nat) (permutation_sparse_vect : List Nat) : List Nat :=
  let permuted_sparse_vect := (List.range weight).foldl (fun t i => t.set i (i % 65536))
    (List.replicate p.PARAM_OMEGA_E 0)
  (List.range ((weight : Int) - 1).toNat).foldl
    (fun t i => swap t i 0 (permutation_sparse_vect.getD i 0 % (weight - i)))
    permuted_sparse_vect

/-- The `uint16_t` view of a buffer of 64-bit words (`(uint16_t *) o`). -/
def as_u16 (ws : List Nat) : List Nat :=
  (List.range (4 * ws.length)).map (fun q => (ws.getD (q / 4) 0 >>> (16 * (q % 4))) % 65536)

/-- The 64-bit words of a buffer given by its `uint16_t` view. -/
def as_u64 (hs : List Nat) : List Nat :=
  (List.range (hs.length / 4)).map (fun i =>
    hs.getD (4 * i) 0 ||| (hs.getD (4 * i + 1) 0 <<< 16) |||
      (hs.getD (4 * i + 2) 0 <<< 32) ||| (hs.getD (4 * i + 3) 0 <<< 48))

/-- The 64-bit value `tmp` assembled from four consecutive half-words
`res_16[0..3]` (lines 132-133), `res_16` pointing at index `q`. -/
def load64 (r : List Nat) (q : Nat) : Nat :=
  r.getD q 0 ||| (r.getD (q + 1) 0 <<< 16) ||| (r.getD (q + 2) 0 <<< 32) |||
    (r.getD (q + 3) 0 <<< 48)

/-- The call `memcpy(res_16, &tmp, 8)` (line 135): the four half-words of `x` are
stored at `res_16[0..3]`, `res_16` pointing at index `q`. -/
def store64 (r : List Nat) (q x : Nat) : List Nat :=
  (((r.set q (x % 65536)).set (q + 1) ((x >>> 16) % 65536)).set (q + 2)
      ((x >>> 32) % 65536)).set (q + 3) ((x >>> 48) % 65536)

/-- Lines 131-137: the `VEC_N_SIZE_64 + 1` words of the table slot starting at
`pt` are XORed into the output at the 16-bit offset `s`. -/
def xor_row (p : Params) (table : List Nat) (pt : Nat) (res_16 : List Nat) (s : Nat) : List Nat :=
  (List.range (VEC_N_SIZE_64 p + 1)).foldl (fun r j =>
    let tmp := load64 r (s + 4 * j)
    let tmp1 := tmp ^^^ table.getD (pt + j) 0
    store64 r (s + 4 * j) tmp1) res_16

/-- Lines 122-138: the accumulation loop over the `weight` terms, on the
`uint16_t` view of the output. -/
def accumulate (p : Params) (table permuted_table permuted_sparse_vect a1 : List Nat)
    (weight : Nat) (res_16 : List Nat) : List Nat :=
  (List.range weight).foldl (fun r i =>
    let dec := a1.getD (permuted_sparse_vect.getD i 0) 0 &&& 0xf
    let s := a1.getD (permuted_sparse_vect.getD i 0) 0 >>> 4
    xor_row p table (permuted_table.getD dec 0 * (VEC_N_SIZE_64 p + 1)) r s) res_16

/-- The function `fast_convolution_mult(o, a1, a2, weight, ctx)`: returns the
new content of `o` and the advanced seed expander. -/
def fast_convolution_mult (p : Params) (o a1 a2 : List Nat) (weight : Nat)
    (ctx : seedexpander_state) : List Nat × seedexpander_state :=
  let r1 := seedexpander ctx (TABLE <<< 1)
  let permuted_table := shuffle_table (cast_u16 r1.1)
  let table := build_table p permuted_table a2
  let r2 := seedexpander r1.2 (weight <<< 1)
  let permuted_sparse_vect := shuffle_sparse p weight (cast_u16 r2.1)
  (as_u64 (accumulate p table permuted_table permuted_sparse_vect a1 weight (as_u16 o)), r2.2)

/-! ## vect_mul and safe_mul -/

/-- The function `vect_mul(o, a1, a2, weight, ctx)`. -/
def vect_mul (p : Params) (a1 a2 : List Nat) (weight : Nat) (ctx : seedexpander_state) :
    List Nat × seedexpander_state :=
  let tmp := List.replicate ((VEC_N_SIZE_64 p <<< 1) + 1) 0
  let r := fast_convolution_mult p tmp a1 a2 weight ctx
  (reduce p r.1, r.2)

/-- Modelled from the spec: `vect_add(o, v1, v2, size)` of `common/vector.c`, the
word-wise XOR of two vectors. -/
def vect_add (v1 v2 : List Nat) (size : Nat) : List Nat :=
  (List.range size).map (fun i => v1.getD i 0 ^^^ v2.getD i 0)

/-- The call `memcpy(dst + doff, src + soff, count * sizeof(elt))`. -/
def memcpy (dst : List Nat) (doff : Nat) (src : List Nat) (soff count : Nat) : List Nat :=
  (List.range count).foldl (fun d i => d.set (doff + i) (src.getD (soff + i) 0)) dst

/-- The zero-padded lower half of the sparse operand (line 191). -/
def sparse_lo (p : Params) (a1 : List Nat) : List Nat :=
  memcpy (List.replicate p.PARAM_OMEGA 0) 0 a1 0 (p.PARAM_OMEGA / 2)

/-- The zero-padded upper half of the sparse operand (line 192). -/
def sparse_hi (p : Params) (a1 : List Nat) : List Nat :=
  memcpy (List.replicate p.PARAM_OMEGA 0) (p.PARAM_OMEGA / 2) a1 (p.PARAM_OMEGA / 2)
    (p.PARAM_OMEGA - p.PARAM_OMEGA / 2)

/-- The zero-padded lower half of the dense operand (line 194). -/
def dense_lo (p : Params) (a2 : List Nat) : List Nat :=
  memcpy (List.replicate (VEC_N_SIZE_64 p) 0) 0 a2 0 (VEC_N_SIZE_64 p / 2)

/-- The zero-padded upper half of the dense operand (line 195). -/
def dense_hi (p : Params) (a2 : List Nat) : List Nat :=
  memcpy (List.replicate (VEC_N_SIZE_64 p) 0) (VEC_N_SIZE_64 p / 2) a2 (VEC_N_SIZE_64 p / 2)
    (VEC_N_SIZE_64 p - VEC_N_SIZE_64 p / 2)

/-- The outputs of `safe_mul`. -/
structure Shares where
  o : List Nat
  mask : List Nat
deriving DecidableEq

/-- The function `safe_mul(o, mask, a1, a2, weight, ctx)`.  The argument `mask0`
is the dense vector that `vect_set_random_fixed_weight` writes into `mask`
(line 188) from a seed expander seeded by the global `shake_prng`; these three
collaborators are outside `gf2x.c`, so their result is an input here. -/
def safe_mul (p : Params) (mask0 a1 a2 : List Nat) (weight : Nat) (ctx : seedexpander_state) :
    Shares × seedexpander_state :=
  let _unused := weight
  let r1 := vect_mul p (sparse_hi p a1) (dense_lo p a2) p.PARAM_OMEGA ctx
  let r2 := vect_mul p (sparse_lo p a1) (dense_hi p a2) p.PARAM_OMEGA r1.2
  let o1 := vect_add mask0 r1.1 (VEC_N_SIZE_64 p)
  let o2 := vect_add o1 r2.1 (VEC_N_SIZE_64 p)
  let r3 := vect_mul p (sparse_hi p a1) (dense_hi p a2) p.PARAM_OMEGA r2.2
  let r4 := vect_mul p (sparse_lo p a1) (dense_lo p a2) p.PARAM_OMEGA r3.2
  let mask1 := vect_add mask0 r3.1 (VEC_N_SIZE_64 p)
  let o3 := vect_add o2 r4.1 (VEC_N_SIZE_64 p)
  (⟨o3, mask1⟩, r4.2)

/-! ## Bit-level view of buffers -/

/-- Bit `k` of a buffer of 64-bit words (little-endian bit numbering). -/
def bit64 (ws : List Nat) (k : Nat) : Bool := (ws.getD (k / 64) 0).testBit (k % 64)

/-- Bit `k` of a buffer of 16-bit half-words. -/
def bit16 (hs : List Nat) (k : Nat) : Bool := (hs.getD (k / 16) 0).testBit (k % 16)

/-- The carry entering word `j` of the row of shift `i`. -/
def row_carry (a2 : List Nat) (i j : Nat) : Nat :=
  if j = 0 then 0 else a2.getD (j - 1) 0 >>> (WORD - i)

/-- Word `j` of the row of shift `i` (`1 ≤ i`), as the loop of lines 104-109 computes it. -/
def row_word (p : Params) (a2 : List Nat) (i j : Nat) : Nat :=
  if j < VEC_N_SIZE_64 p then ((a2.getD j 0 <<< i) % 2 ^ 64) ^^^ row_carry a2 i j
  else row_carry a2 i (VEC_N_SIZE_64 p)

/-- Bit `m` of word `j` of the dense operand shifted left by `d` bits. -/
def shifted_bit (a2 : List Nat) (d j m : Nat) : Bool :=
  decide (m < 64) && decide (d ≤ 64 * j + m) && bit64 a2 (64 * j + m - d)

/-- Bit `k` of the dense operand multiplied by `X^e` (no reduction). -/
def term_bit (a2 : List Nat) (e k : Nat) : Bool := decide (e ≤ k) && bit64 a2 (k - e)

/-- XOR of the Boolean values `f i` over the entries `i` of a list. -/
def xor_fold (f : Nat → Bool) (l : List Nat) : Bool := l.foldl (fun acc i => acc ^^ f i) false

/-- Bit `k` of the un-reduced product of the sparse operand by the dense one. -/
def conv_bit (a1 a2 : List Nat) (weight k : Nat) : Bool :=
  xor_fold (fun i => term_bit a2 (a1.getD i 0) k) (List.range weight)

/-- The value `a[i] ^ r ^ carry` that the loop of `reduce` stores in `o[i]`. -/
def fold_word (p : Params) (a : List Nat) (i : Nat) : Nat :=
  a.getD i 0 ^^^ (a.getD (i + VEC_N_SIZE_64 p - 1) 0 >>> (p.PARAM_N &&& 0x3F)) ^^^
    ((a.getD (i + VEC_N_SIZE_64 p) 0 <<< (64 - (p.PARAM_N &&& 0x3F))) % 2 ^ 64)

/-! ## Reference semantics -/

/-- The polynomial (as a natural number, bit `k` = coefficient of `X^k`) that a
buffer of 64-bit words represents. -/
def val64 (ws : List Nat) : Nat := ws.foldr (fun w acc => w + 2 ^ 64 * acc) 0

/-- The `W`-word representation of a polynomial. -/
def to_words (W x : Nat) : List Nat := (List.range W).map (fun i => (x >>> (64 * i)) % 2 ^ 64)

/-- Reference: the `n`-bit value `x` cyclically rotated left by `e` positions. -/
def rotl (n e x : Nat) : Nat := ((x <<< e) ||| (x >>> (n - e))) % 2 ^ n

/-- Reference: the XOR over `i < weight` of the dense polynomial `x` rotated left by
`a1[i]` positions modulo `n`, that is `(sum_i X^(a1[i])) * x mod (X^n - 1)`. -/
def sparse_mul_ref (n : Nat) (a1 : List Nat) (weight x : Nat) : Nat :=
  (List.range weight).foldl (fun acc i => acc ^^^ rotl n (a1.getD i 0) x) 0

/-- Reference reduction modulo `X^n - 1`, bit by bit: every coefficient `X^q`
(`q < len`) of `x` is added to the coefficient `X^(q mod n)` of the result. -/
def reduce_ref (n len x : Nat) : Nat :=
  (List.range len).foldl (fun acc q => if x.testBit q then acc ^^^ 2 ^ (q % n) else acc) 0

/-! ## Caller contract -/

/-- A dense polynomial in canonical form: `VEC_N_SIZE_64` words of 64 bits, every
bit at position `>= PARAM_N` zero. -/
def is_canonical (p : Params) (v : List Nat) : Prop :=
  v.length = VEC_N_SIZE_64 p ∧ (∀ w ∈ v, w < 2 ^ 64) ∧ val64 v < 2 ^ p.PARAM_N

instance (p : Params) (v : List Nat) : Decidable (is_canonical p v) := by
  unfold is_canonical
  infer_instance

/-- A sparse polynomial within the caller contract of `vect_mul`: `weight` fits the
permutation buffers (and its type `uint16_t`), every exponent lies in `[0, PARAM_N)`. -/
def sparse_ok (p : Params) (a1 : List Nat) (weight : Nat) : Prop :=
  weight ≤ p.PARAM_OMEGA_E ∧ weight < 65536 ∧ ∀ i, i < weight → a1.getD i 0 < p.PARAM_N

instance (p : Params) (a1 : List Nat) (weight : Nat) : Decidable (sparse_ok p a1 weight) := by
  unfold sparse_ok
  infer_instance

/-- A toy ring of degree 17 (one word), the scenario of the fixed-vector test. -/
def toy17 : Params := ⟨17, 2, 2⟩

/-- A toy ring of degree 70 (two words) with an odd sparse weight. -/
def toy70 : Params := ⟨70, 3, 4⟩

/-- A sample seed expander state. -/
def sample_ctx : seedexpander_state := ⟨fun k => (k * 7919 + 13) % 251, 0⟩

/-- Another sample seed expander state. -/
def sample_ctx2 : seedexpander_state := ⟨fun k => (k * k + 5 * k + 1) % 256, 3⟩

/-! ## Un-reduced product and table slots -/

/-- Reference: the un-reduced product, the XOR over `i < weight` of the dense
polynomial `x` shifted left by `a1[i]` bits (no bit is dropped). -/
def conv_ref (a1 : List Nat) (weight x : Nat) : Nat :=
  (List.range weight).foldl (fun acc i => acc ^^^ (x <<< a1.getD i 0)) 0

/-- The `VEC_N_SIZE_64 + 1` words of the table slot number `slot`, that is
`table[slot * (VEC_N_SIZE_64 + 1) ..]`. -/
def table_slot (p : Params) (table : List Nat) (slot : Nat) : List Nat :=
  (List.range (VEC_N_SIZE_64 p + 1)).map
    (fun j => table.getD (slot * (VEC_N_SIZE_64 p + 1) + j) 0)

/-! ## Array indices used by `fast_convolution_mult` and `reduce` -/

/-- The arrays indexed by `fast_convolution_mult` (`a1`, `a2`, the `uint16_t` view
`res_16` of `o`, and its five local arrays) and by `reduce` (`a` and `o`). -/
inductive Buffer where
  | permuted_table
  | permutation_table
  | table
  | permuted_sparse_vect
  | permutation_sparse_vect
  | a1
  | a2
  | res_16
  | reduce_a
  | reduce_o
deriving DecidableEq

/-- Number of elements of each array, as declared in `fast_convolution_mult` and
`vect_mul`; the caller's `a1` holds `weight` exponents and `a2` holds `VEC_N_SIZE_64`
words. -/
def capacity (p : Params) (weight : Nat) : Buffer → Nat
  | Buffer.permuted_table => TABLE
  | Buffer.permutation_table => TABLE
  | Buffer.table => TABLE * (VEC_N_SIZE_64 p + 1)
  | Buffer.permuted_sparse_vect => p.PARAM_OMEGA_E
  | Buffer.permutation_sparse_vect => p.PARAM_OMEGA_E
  | Buffer.a1 => weight
  | Buffer.a2 => VEC_N_SIZE_64 p
  | Buffer.res_16 => 4 * ((VEC_N_SIZE_64 p <<< 1) + 1)
  | Buffer.reduce_a => (VEC_N_SIZE_64 p <<< 1) + 1
  | Buffer.reduce_o => VEC_N_SIZE_64 p

/-- Lines 81-83 and 112-114: the identity fill writes `tab[i]` for `i < count`. -/
def fill_indices (tab : Buffer) (count : Nat) : List (Buffer × Nat) :=
  (List.range count).map (fun i => (tab, i))

/-- Lines 85 and 116: `seedexpander` writes `len` bytes into a `uint16_t` array, byte
`k` falling into element `k / 2`. -/
def expander_indices (tab : Buffer) (len : Nat) : List (Buffer × Nat) :=
  (List.range len).map (fun k => (tab, k / 2))

/-- Lines 87-89: each iteration reads `permutation_table[i]` and swaps
`permuted_table[i + 0]` with `permuted_table[i + permutation_table[i] % (TABLE - i)]`. -/
def table_shuffle_indices (permutation_table : List Nat) : List (Buffer × Nat) :=
  (List.range (TABLE - 1)).flatMap (fun i =>
    [(Buffer.permutation_table, i), (Buffer.permuted_table, i + 0),
      (Buffer.permuted_table, i + permutation_table.getD i 0 % (TABLE - i))])

/-- Lines 91-97: `permuted_table[0]` is read, `a2[i]` is copied to `pt[i]` and `pt[W]`
is cleared, `pt` being the slot `permuted_table[0]` of the table. -/
def table_first_indices (p : Params) (permuted_table : List Nat) : List (Buffer × Nat) :=
  [(Buffer.permuted_table, 0)] ++
  (List.range (VEC_N_SIZE_64 p)).flatMap (fun i =>
    [(Buffer.a2, i), (Buffer.table, permuted_table.getD 0 0 * (VEC_N_SIZE_64 p + 1) + i)]) ++
  [(Buffer.table, permuted_table.getD 0 0 * (VEC_N_SIZE_64 p + 1) + VEC_N_SIZE_64 p)]

/-- Lines 99-110: for each shift `i` in `1..15`, `permuted_table[i]` is read, each
`a2[j]` is read and `pt[j]` written, and `pt[W]` receives the carry. -/
def table_rows_indices (p : Params) (permuted_table : List Nat) : List (Buffer × Nat) :=
  (List.range' 1 (TABLE - 1)).flatMap (fun i =>
    [(Buffer.permuted_table, i)] ++
    (List.range (VEC_N_SIZE_64 p)).flatMap (fun j =>
      [(Buffer.a2, j), (Buffer.table, permuted_table.getD i 0 * (VEC_N_SIZE_64 p + 1) + j)]) ++
    [(Buffer.table, permuted_table.getD i 0 * (VEC_N_SIZE_64 p + 1) + VEC_N_SIZE_64 p)])

/-- Lines 118-120: each iteration (the bound `weight - 1` is signed) reads
`permutation_sparse_vect[i]` and swaps `permuted_sparse_vect[i + 0]` with
`permuted_sparse_vect[i + permutation_sparse_vect[i] % (weight - i)]`. -/
def sparse_shuffle_indices (weight : Nat) (permutation_sparse_vect : List Nat) :
    List (Buffer × Nat) :=
  (List.range ((weight : Int) - 1).toNat).flatMap (fun i =>
    [(Buffer.permutation_sparse_vect, i), (Buffer.permuted_sparse_vect, i + 0),
      (Buffer.permuted_sparse_vect, i + permutation_sparse_vect.getD i 0 % (weight - i))])

/-- Lines 122-138: each term reads `permuted_sparse_vect[i]`, `a1[permuted_sparse_vect[i]]`
and `permuted_table[dec]`; each of the `VEC_N_SIZE_64 + 1` inner iterations reads and
writes `res_16[s + 4j + t]` for `t = 0..3` and reads `pt[j]`. -/
def accumulate_indices (p : Params) (permuted_table permuted_sparse_vect a1 : List Nat)
    (weight : Nat) : List (Buffer × Nat) :=
  (List.range weight).flatMap (fun i =>
    let dec := a1.getD (permuted_sparse_vect.getD i 0) 0 &&& 0xf
    let s := a1.getD (permuted_sparse_vect.getD i 0) 0 >>> 4
    [(Buffer.permuted_sparse_vect, i), (Buffer.a1, permuted_sparse_vect.getD i 0),
      (Buffer.permuted_table, dec)] ++
    (List.range (VEC_N_SIZE_64 p + 1)).flatMap (fun j =>
      [(Buffer.res_16, s + 4 * j + 0), (Buffer.res_16, s + 4 * j + 1),
        (Buffer.res_16, s + 4 * j + 2), (Buffer.res_16, s + 4 * j + 3),
        (Buffer.table, permuted_table.getD dec 0 * (VEC_N_SIZE_64 p + 1) + j)]))

/-- Every array index used by a run of `fast_convolution_mult(o, a1, a2, weight, ctx)`,
in program order. -/
def fast_convolution_mult_indices (p : Params) (a1 : List Nat) (weight : Nat)
    (ctx : seedexpander_state) : List (Buffer × Nat) :=
  let r1 := seedexpander ctx (TABLE <<< 1)
  let permuted_table := shuffle_table (cast_u16 r1.1)
  let r2 := seedexpander r1.2 (weight <<< 1)
  let permuted_sparse_vect := shuffle_sparse p weight (cast_u16 r2.1)
  fill_indices Buffer.permuted_table TABLE ++
  expander_indices Buffer.permutation_table (TABLE <<< 1) ++
  table_shuffle_indices (cast_u16 r1.1) ++
  table_first_indices p permuted_table ++
  table_rows_indices p permuted_table ++
  fill_indices Buffer.permuted_sparse_vect weight ++
  expander_indices Buffer.permutation_sparse_vect (weight <<< 1) ++
  sparse_shuffle_indices weight (cast_u16 r2.1) ++
  accumulate_indices p permuted_table permuted_sparse_vect a1 weight

/-- The divisors of the `%` operations of the two swap passes (lines 88 and 119). -/
def shuffle_moduli (weight : Nat) : List Nat :=
  (List.range (TABLE - 1)).map (fun i => TABLE - i) ++
  (List.range ((weight : Int) - 1).toNat).map (fun i => weight - i)

/-- Every array index used by `reduce(o, a)` (lines 51-56): `a[i + W - 1]`,
`a[i + W]`, `a[i]` and `o[i]` for `i < W`, then `o[W - 1]`. -/
def reduce_indices (p : Params) : List (Buffer × Nat) :=
  (List.range (VEC_N_SIZE_64 p)).flatMap (fun i =>
    [(Buffer.reduce_a, i + VEC_N_SIZE_64 p - 1), (Buffer.reduce_a, i + VEC_N_SIZE_64 p),
      (Buffer.reduce_a, i), (Buffer.reduce_o, i)]) ++
  [(Buffer.reduce_o, VEC_N_SIZE_64 p - 1)]

/-! ## Instrumented execution: branch decisions and memory addresses -/

/-- What an observer of the control flow and of the addresses sees of one step: the
outcome of a loop test, or the array and index of a memory access. -/
inductive Event where
  | branch (taken : Bool)
  | read (buf : Buffer) (index : Nat)
  | write (buf : Buffer) (index : Nat)
deriving DecidableEq

/-- The state of an instrumented run: the content of every array, the local variable
`carry`, and the events observed so far. -/
structure Machine where
  mem : Buffer → List Nat
  carry : Nat
  trace : List Event

/-- The memory `m` with the array `b` replaced by `l`. -/
def upd (m : Buffer → List Nat) (b : Buffer) (l : List Nat) : Buffer → List Nat :=
  fun b' => if b' = b then l else m b'

/-- The read `b[i]`: returns the value and records the access. -/
def rd (s : Machine) (b : Buffer) (i : Nat) : Nat × Machine :=
  ((s.mem b).getD i 0, ⟨s.mem, s.carry, s.trace ++ [Event.read b i]⟩)

/-- The write `b[i] = v`: updates the array and records the access. -/
def wr (s : Machine) (b : Buffer) (i v : Nat) : Machine :=
  ⟨upd s.mem b ((s.mem b).set i v), s.carry, s.trace ++ [Event.write b i]⟩

/-- The outcome of a loop test is recorded. -/
def tick (taken : Bool) (s : Machine) : Machine :=
  ⟨s.mem, s.carry, s.trace ++ [Event.branch taken]⟩

/-- The assignment `carry = c` to the local variable. -/
def set_carry (s : Machine) (c : Nat) : Machine := ⟨s.mem, c, s.trace⟩

/-- The loop `for (i = 0; i < n; i++) body`: the test succeeds before each of the `n`
iterations and fails once. -/
def for_loop (n : Nat) (body : Nat → Machine → Machine) (s : Machine) : Machine :=
  tick false ((List.range n).foldl (fun s i => body i (tick true s)) s)

/-- Lines 81-83 and 112-114: `tab[i] = (uint16_t) i` for `i < n`. -/
def fill_run (tab : Buffer) (n : Nat) (s : Machine) : Machine :=
  for_loop n (fun i s => wr s tab i (i % 65536)) s

/-- Modelled from the spec: the calls `seedexpander(ctx, (uint8_t *) tab, len)` of
lines 85 and 116 store the `uint16_t` values `data` drawn from the stream into
`tab[0 .. data.length - 1]`; the control flow inside the seed expander is outside
`gf2x.c` and is not recorded. -/
def expander_run (tab : Buffer) (data : List Nat) (s : Machine) : Machine :=
  (List.range data.length).foldl (fun s k => wr s tab k (data.getD k 0)) s

/-- The call `swap(tab + base, elt1, elt2)` (lines 29-34). -/
def swap_run (tab : Buffer) (base elt1 elt2 : Nat) (s : Machine) : Machine :=
  let r1 := rd s tab (base + elt1)
  let r2 := rd r1.2 tab (base + elt2)
  wr (wr r2.2 tab (base + elt1) r2.1) tab (base + elt2) r1.1

/-- Lines 87-89 and 118-120: the swap pass of `count` iterations,
`swap(tab + i, 0, rnd[i] % (bound - i))`. -/
def shuffle_run (rnd tab : Buffer) (count bound : Nat) (s : Machine) : Machine :=
  for_loop count (fun i s =>
    let r := rd s rnd i
    swap_run tab i 0 (r.1 % (bound - i)) r.2) s

/-- Lines 91-97: the slot `permuted_table[0]` receives `a2` and a trailing zero. -/
def table_first_run (p : Params) (s : Machine) : Machine :=
  let r0 := rd s Buffer.permuted_table 0
  let s1 := for_loop (VEC_N_SIZE_64 p) (fun i s =>
    let r := rd s Buffer.a2 i
    wr r.2 Buffer.table (r0.1 * (VEC_N_SIZE_64 p + 1) + i) r.1) r0.2
  wr s1 Buffer.table (r0.1 * (VEC_N_SIZE_64 p + 1) + VEC_N_SIZE_64 p) 0

/-- Lines 100-109, the body of the loop over the shift `i`. -/
def table_row_run (p : Params) (i : Nat) (s : Machine) : Machine :=
  let r0 := rd (set_carry s 0) Buffer.permuted_table i
  let s1 := for_loop (VEC_N_SIZE_64 p) (fun j s =>
    let ra := rd s Buffer.a2 j
    let s2 := wr ra.2 Buffer.table (r0.1 * (VEC_N_SIZE_64 p + 1) + j)
      (((ra.1 <<< i) % 2 ^ 64) ^^^ ra.2.carry)
    let rb := rd s2 Buffer.a2 j
    set_carry rb.2 (rb.1 >>> (WORD - i))) r0.2
  wr s1 Buffer.table (r0.1 * (VEC_N_SIZE_64 p + 1) + VEC_N_SIZE_64 p) s1.carry

/-- Lines 132-136, the body of the loop over the word `j` of a table slot: the word
`pt[j]` of the slot starting at index `pt` of the table is XORed into the four
half-words `res_16[0..3]`, `res_16` pointing at index `q + 4 * j`. -/
def xor_word_run (pt q j : Nat) (s : Machine) : Machine :=
  let h0 := rd s Buffer.res_16 (q + 4 * j)
  let h1 := rd h0.2 Buffer.res_16 (q + 4 * j + 1)
  let h2 := rd h1.2 Buffer.res_16 (q + 4 * j + 2)
  let h3 := rd h2.2 Buffer.res_16 (q + 4 * j + 3)
  let w := rd h3.2 Buffer.table (pt + j)
  let tmp := (h0.1 ||| (h1.1 <<< 16) ||| (h2.1 <<< 32) ||| (h3.1 <<< 48)) ^^^ w.1
  wr (wr (wr (wr w.2 Buffer.res_16 (q + 4 * j) (tmp % 65536))
    Buffer.res_16 (q + 4 * j + 1) ((tmp >>> 16) % 65536))
    Buffer.res_16 (q + 4 * j + 2) ((tmp >>> 32) % 65536))
    Buffer.res_16 (q + 4 * j + 3) ((tmp >>> 48) % 65536)

/-- Lines 123-137, the body of the accumulation loop for the term `i`. -/
def term_run (p : Params) (i : Nat) (s : Machine) : Machine :=
  let r1 := rd (set_carry s 0) Buffer.permuted_sparse_vect i
  let r2 := rd r1.2 Buffer.a1 r1.1
  let r3 := rd r2.2 Buffer.permuted_sparse_vect i
  let r4 := rd r3.2 Buffer.a1 r3.1
  let r5 := rd r4.2 Buffer.permuted_table (r2.1 &&& 0xf)
  for_loop (VEC_N_SIZE_64 p + 1)
    (fun j s => xor_word_run (r5.1 * (VEC_N_SIZE_64 p + 1)) (r4.1 >>> 4) j s) r5.2

/-- Lines 81-120 of `fast_convolution_mult`: the two permutations and the table. -/
def setup_run (p : Params) (weight : Nat) (ctx : seedexpander_state) (s : Machine) : Machine :=
  let r1 := seedexpander ctx (TABLE <<< 1)
  let r2 := seedexpander r1.2 (weight <<< 1)
  let s1 := fill_run Buffer.permuted_table TABLE s
  let s2 := expander_run Buffer.permutation_table (cast_u16 r1.1) s1
  let s3 := shuffle_run Buffer.permutation_table Buffer.permuted_table (TABLE - 1) TABLE s2
  let s4 := table_first_run p s3
  let s5 := for_loop (TABLE - 1) (fun k s => table_row_run p (1 + k) s) s4
  let s6 := fill_run Buffer.permuted_sparse_vect weight s5
  let s7 := expander_run Buffer.permutation_sparse_vect (cast_u16 r2.1) s6
  shuffle_run Buffer.permutation_sparse_vect Buffer.permuted_sparse_vect
    ((weight : Int) - 1).toNat weight s7

/-- The instrumented `fast_convolution_mult`: lines 81-120, then the accumulation
loop of lines 122-138. -/
def fast_convolution_mult_run (p : Params) (weight : Nat) (ctx : seedexpander_state)
    (s : Machine) : Machine :=
  for_loop weight (fun i s => term_run p i s) (setup_run p weight ctx s)

/-- The machine at the entry of `fast_convolution_mult(o, a1, a2, weight, ctx)`: the
caller's `a1`, `a2` and `o` (as `res_16`), the local arrays zeroed, no event yet. -/
def initial_machine (p : Params) (o a1 a2 : List Nat) : Machine :=
  ⟨fun b => match b with
    | Buffer.permuted_table => List.replicate TABLE 0
    | Buffer.permutation_table => List.replicate TABLE 0
    | Buffer.table => List.replicate (TABLE * (VEC_N_SIZE_64 p + 1)) 0
    | Buffer.permuted_sparse_vect => List.replicate p.PARAM_OMEGA_E 0
    | Buffer.permutation_sparse_vect => List.replicate p.PARAM_OMEGA_E 0
    | Buffer.a1 => a1
    | Buffer.a2 => a2
    | Buffer.res_16 => as_u16 o
    | Buffer.reduce_a => []
    | Buffer.reduce_o => [], 0, []⟩

/-- The events observed in a run of `fast_convolution_mult(o, a1, a2, weight, ctx)`. -/
def fast_convolution_mult_trace (p : Params) (o a1 a2 : List Nat) (weight : Nat)
    (ctx : seedexpander_state) : List Event :=
  (fast_convolution_mult_run p weight ctx (initial_machine p o a1 a2)).trace

/-- The events of lines 81-120 in such a run. -/
def setup_trace (p : Params) (o a1 a2 : List Nat) (weight : Nat)
    (ctx : seedexpander_state) : List Event :=
  (setup_run p weight ctx (initial_machine p o a1 a2)).trace

/-- The loop-test outcomes among the events, in order. -/
def branches (tr : List Event) : List Bool :=
  tr.filterMap (fun e => match e with
    | Event.branch taken => some taken
    | Event.read _ _ => none
    | Event.write _ _ => none)

/-- Two machine states with the same events so far that agree on the arrays selected
by `pub`. -/
def low_eq (pub : Buffer → Bool) (s t : Machine) : Prop :=
  s.trace = t.trace ∧ ∀ b, pub b = true → s.mem b = t.mem b

/-- The arrays whose content is a function of the seed-expander stream and of the
weight alone: the two permutations and the random values that drive them. -/
def pub_setup : Buffer → Bool
  | Buffer.permuted_table => true
  | Buffer.permutation_table => true
  | Buffer.permuted_sparse_vect => true
  | Buffer.permutation_sparse_vect => true
  | _ => false

/-- The arrays of `pub_setup` and the sparse operand `a1`. -/
def pub_sparse : Buffer → Bool
  | Buffer.a1 => true
  | b => pub_setup b

/-! ## Lemmas -/

theorem getD_set_eq (l : List Nat) (i j v : Nat) :
    (l.set i v).getD j 0 = if i = j ∧ i < l.length then v else l.getD j 0 := by
  simp only [List.getD_eq_getElem?_getD, List.getElem?_set]
  by_cases h : i = j
  · subst h
    by_cases h2 : i < l.length
    · simp [h2]
    · simp [h2, List.getElem?_eq_none (Nat.le_of_not_lt h2)]
  · simp [h]

theorem getD_replicate_zero (n i : Nat) : (List.replicate n 0).getD i 0 = 0 := by
  simp only [List.getD_eq_getElem?_getD, List.getElem?_replicate]
  split <;> rfl

theorem getD_map_range (n i : Nat) (f : Nat → Nat) :
    ((List.range n).map f).getD i 0 = if i < n then f i else 0 := by
  simp only [List.getD_eq_getElem?_getD]
  by_cases h : i < n
  · simp [h]
  · have h2 : (List.range n)[i]? = none := List.getElem?_eq_none (by simp; omega)
    simp [h, h2]

theorem foldl_range_inv {σ : Type} (P : σ → Prop) (f : σ → Nat → σ) (n : Nat) (init : σ)
    (h0 : P init) (hstep : ∀ i, i < n → ∀ s, P s → P (f s i)) :
    P ((List.range n).foldl f init) := by
  induction n with
  | zero => simpa using h0
  | succ m ih =>
    rw [List.range_succ, List.foldl_append]
    simp only [List.foldl_cons, List.foldl_nil]
    exact hstep m (Nat.lt_succ_self m) _ (ih (fun i hi s hs => hstep i (Nat.lt_succ_of_lt hi) s hs))

theorem length_foldl_set (n off : Nat) (f : Nat → Nat) (l : List Nat) :
    ((List.range n).foldl (fun t i => t.set (off + i) (f i)) l).length = l.length := by
  refine foldl_range_inv (fun t => t.length = l.length) _ n l rfl ?_
  intro i _ s hs; simpa using hs

theorem getD_foldl_set (n off : Nat) (f : Nat → Nat) (l : List Nat) (k : Nat) :
    ((List.range n).foldl (fun t i => t.set (off + i) (f i)) l).getD k 0 =
      if off ≤ k ∧ k < off + n ∧ k < l.length then f (k - off) else l.getD k 0 := by
  induction n with
  | zero =>
    have : ¬ (off ≤ k ∧ k < off + 0 ∧ k < l.length) := by omega
    rw [if_neg this]; rfl
  | succ m ih =>
    rw [List.range_succ, List.foldl_append]
    simp only [List.foldl_cons, List.foldl_nil]
    rw [getD_set_eq, ih, length_foldl_set]
    by_cases h1 : off + m = k
    · subst h1
      by_cases h2 : off + m < l.length
      · simp [h2]
      · simp [h2]
    · by_cases h3 : off ≤ k ∧ k < off + m ∧ k < l.length
      · have : off ≤ k ∧ k < off + (m + 1) ∧ k < l.length := ⟨h3.1, by omega, h3.2.2⟩
        simp [h1, h3, this]
      · have : ¬ (off ≤ k ∧ k < off + (m + 1) ∧ k < l.length) := by
          intro h; apply h3; exact ⟨h.1, by omega, h.2.2⟩
        simp [h1, h3, this]

theorem length_swap (tab : List Nat) (b e1 e2 : Nat) : (swap tab b e1 e2).length = tab.length := by
  simp [swap]

theorem getD_eq_getElem_of_lt (l : List Nat) (i : Nat) (h : i < l.length) : l.getD i 0 = l[i] := by
  simp [List.getD_eq_getElem?_getD, List.getElem?_eq_getElem h]

theorem set_set_perm (tab : List Nat) (i j u v : Nat) (h1 : i < tab.length)
    (h2 : j < tab.length) (hu : u = tab[i]) (hv : v = tab[j]) :
    ((tab.set i v).set j u).Perm tab := by
  rw [List.perm_iff_count]
  intro x
  have hl : j < (tab.set i v).length := by simpa using h2
  rw [List.count_set _ _ _ _ hl, List.count_set _ _ _ _ h1, List.getElem_set]
  have hc : (if (tab[i] == x) = true then 1 else 0) ≤ List.count x tab := by
    split
    · rename_i h
      have hx : tab[i] = x := by simpa using h
      have : x ∈ tab := hx ▸ List.getElem_mem h1
      exact List.count_pos_iff.mpr this
    · exact Nat.zero_le _
  have hsame : (if i = j then v else tab[j]) = v := by
    split
    · rfl
    · exact hv.symm
  rw [hsame, hu]
  omega

theorem swap_perm (tab : List Nat) (b e1 e2 : Nat) (h1 : b + e1 < tab.length)
    (h2 : b + e2 < tab.length) : (swap tab b e1 e2).Perm tab := by
  unfold swap
  exact set_set_perm tab _ _ _ _ h1 h2 (getD_eq_getElem_of_lt _ _ h1) (getD_eq_getElem_of_lt _ _ h2)

theorem shuffle_table_perm (rnd : List Nat) : (shuffle_table rnd).Perm (List.range 16) := by
  unfold shuffle_table
  refine foldl_range_inv (fun (t : List Nat) => t.Perm (List.range 16)) _ _ _ ?_ ?_
  · decide
  · intro i hi s hs
    have hlen : s.length = 16 := by simpa using hs.length_eq
    have hi' : i < 15 := hi
    have hr : rnd.getD i 0 % (TABLE - i) < TABLE - i := Nat.mod_lt _ (by simp only [TABLE]; omega)
    simp only [TABLE] at hr
    exact (swap_perm s i 0 _ (by omega) (by simp only [TABLE]; omega)).trans hs

theorem length_foldl_set0 (n : Nat) (f : Nat → Nat) (l : List Nat) :
    ((List.range n).foldl (fun t i => t.set i (f i)) l).length = l.length := by
  have := length_foldl_set n 0 f l
  simpa using this

theorem getD_foldl_set0 (n : Nat) (f : Nat → Nat) (l : List Nat) (k : Nat) :
    ((List.range n).foldl (fun t i => t.set i (f i)) l).getD k 0 =
      if k < n ∧ k < l.length then f k else l.getD k 0 := by
  have := getD_foldl_set n 0 f l k
  simpa using this

theorem getD_take_of_lt (l : List Nat) (w k : Nat) (h : k < w) :
    (l.take w).getD k 0 = l.getD k 0 := by
  simp [List.getD_eq_getElem?_getD, List.getElem?_take, h]

theorem swap_take (t : List Nat) (w b e1 e2 : Nat) (h1 : b + e1 < w) (h2 : b + e2 < w) :
    (swap t b e1 e2).take w = swap (t.take w) b e1 e2 := by
  unfold swap
  simp only [List.set_take, getD_take_of_lt _ _ _ h1, getD_take_of_lt _ _ _ h2]

theorem identity_fill_take (n w : Nat) (hw : w ≤ n) (hw2 : w ≤ 65536) :
    (((List.range w).foldl (fun t i => t.set i (i % 65536)) (List.replicate n 0)).take w) =
      List.range w := by
  apply List.ext_getElem
  · rw [List.length_take, length_foldl_set0 w (fun i => i % 65536)]
    simp [hw]
  · intro k h1 h2
    have hk : k < w := by simpa using h2
    have hlen := length_foldl_set0 w (fun i => i % 65536) (List.replicate n 0)
    rw [List.getElem_take, ← getD_eq_getElem_of_lt _ _ (by rw [hlen]; simp; omega),
      getD_foldl_set0 w (fun i => i % 65536)]
    have : k < w ∧ k < (List.replicate n 0).length := by simp; omega
    rw [if_pos this]
    simp
    omega

theorem shuffle_sparse_length (p : Params) (weight : Nat) (rnd : List Nat) :
    (shuffle_sparse p weight rnd).length = p.PARAM_OMEGA_E := by
  unfold shuffle_sparse
  refine foldl_range_inv (fun (t : List Nat) => t.length = p.PARAM_OMEGA_E) _ _ _ ?_ ?_
  · have := length_foldl_set0 weight (fun j => j % 65536) (List.replicate p.PARAM_OMEGA_E 0)
    simpa using this
  · intro i _ s hs
    simpa [length_swap] using hs

theorem shuffle_sparse_perm (p : Params) (weight : Nat) (rnd : List Nat)
    (hw : weight ≤ p.PARAM_OMEGA_E) (hw2 : weight ≤ 65536) :
    ((shuffle_sparse p weight rnd).take weight).Perm (List.range weight) := by
  unfold shuffle_sparse
  refine foldl_range_inv (fun (t : List Nat) => (t.take weight).Perm (List.range weight)) _ _ _ ?_ ?_
  · show (List.take weight _).Perm _
    rw [identity_fill_take _ _ hw hw2]
  · intro i hi s hs
    have hlen : (s.take weight).length = weight := by simpa using hs.length_eq
    have hi' : i + 1 < weight := by omega
    have hr : rnd.getD i 0 % (weight - i) < weight - i := Nat.mod_lt _ (by omega)
    show (List.take weight _).Perm _
    rw [swap_take _ _ _ _ _ (by omega) (by omega)]
    exact (swap_perm _ i 0 _ (by omega) (by omega)).trans hs

theorem foldl_range_ind {σ : Type} (P : Nat → σ → Prop) (f : σ → Nat → σ) (n : Nat) (init : σ)
    (h0 : P 0 init) (hstep : ∀ i, i < n → ∀ s, P i s → P (i + 1) (f s i)) :
    P n ((List.range n).foldl f init) := by
  induction n with
  | zero => simpa using h0
  | succ m ih =>
    rw [List.range_succ, List.foldl_append]
    simp only [List.foldl_cons, List.foldl_nil]
    exact hstep m (Nat.lt_succ_self m) _ (ih (fun i hi s hs => hstep i (Nat.lt_succ_of_lt hi) s hs))

theorem bit16_set (hs : List Nat) (q v k : Nat) :
    bit16 (hs.set q v) k = if q = k / 16 ∧ q < hs.length then v.testBit (k % 16) else bit16 hs k := by
  unfold bit16
  rw [getD_set_eq]
  split <;> rfl

theorem testBit_join16 (h0 h1 h2 h3 m : Nat) (b0 : h0 < 65536) (b1 : h1 < 65536)
    (b2 : h2 < 65536) (b3 : h3 < 65536) :
    (h0 ||| (h1 <<< 16) ||| (h2 <<< 32) ||| (h3 <<< 48)).testBit m =
      if m < 16 then h0.testBit m else if m < 32 then h1.testBit (m - 16)
      else if m < 48 then h2.testBit (m - 32) else if m < 64 then h3.testBit (m - 48) else false := by
  have t0 : ∀ j, 16 ≤ j → h0.testBit j = false := fun j hj =>
    Nat.testBit_lt_two_pow (lt_of_lt_of_le b0 (by
      calc 65536 = 2 ^ 16 := by norm_num
        _ ≤ 2 ^ j := Nat.pow_le_pow_right (by norm_num) hj))
  have t1 : ∀ j, 16 ≤ j → h1.testBit j = false := fun j hj =>
    Nat.testBit_lt_two_pow (lt_of_lt_of_le b1 (by
      calc 65536 = 2 ^ 16 := by norm_num
        _ ≤ 2 ^ j := Nat.pow_le_pow_right (by norm_num) hj))
  have t2 : ∀ j, 16 ≤ j → h2.testBit j = false := fun j hj =>
    Nat.testBit_lt_two_pow (lt_of_lt_of_le b2 (by
      calc 65536 = 2 ^ 16 := by norm_num
        _ ≤ 2 ^ j := Nat.pow_le_pow_right (by norm_num) hj))
  have t3 : ∀ j, 16 ≤ j → h3.testBit j = false := fun j hj =>
    Nat.testBit_lt_two_pow (lt_of_lt_of_le b3 (by
      calc 65536 = 2 ^ 16 := by norm_num
        _ ≤ 2 ^ j := Nat.pow_le_pow_right (by norm_num) hj))
  simp only [Nat.testBit_or, Nat.testBit_shiftLeft]
  by_cases c0 : m < 16
  · simp [c0, show ¬ m ≥ 16 by omega, show ¬ m ≥ 32 by omega, show ¬ m ≥ 48 by omega]
  · by_cases c1 : m < 32
    · simp [c0, c1, t0 m (by omega), show m ≥ 16 by omega, show ¬ m ≥ 32 by omega,
        show ¬ m ≥ 48 by omega]
    · by_cases c2 : m < 48
      · simp [c0, c1, c2, t0 m (by omega), t1 (m - 16) (by omega), show m ≥ 16 by omega,
          show m ≥ 32 by omega, show ¬ m ≥ 48 by omega]
      · by_cases c3 : m < 64
        · simp [c0, c1, c2, c3, t0 m (by omega), t1 (m - 16) (by omega), t2 (m - 32) (by omega),
            show m ≥ 16 by omega, show m ≥ 32 by omega, show m ≥ 48 by omega]
        · simp [c0, c1, c2, c3, t0 m (by omega), t1 (m - 16) (by omega), t2 (m - 32) (by omega),
            t3 (m - 48) (by omega), show m ≥ 16 by omega, show m ≥ 32 by omega,
            show m ≥ 48 by omega]

theorem testBit_mod_65536 (x m : Nat) : (x % 65536).testBit m = (decide (m < 16) && x.testBit m) := by
  have : (65536 : Nat) = 2 ^ 16 := by norm_num
  rw [this, Nat.testBit_mod_two_pow]

theorem length_store64 (r : List Nat) (q x : Nat) : (store64 r q x).length = r.length := by
  simp [store64]

theorem bounded_store64 (r : List Nat) (q x : Nat) (hb : ∀ i, r.getD i 0 < 65536) :
    ∀ i, (store64 r q x).getD i 0 < 65536 := by
  intro i
  unfold store64
  simp only [getD_set_eq]
  have h := hb i
  have m0 : x % 65536 < 65536 := Nat.mod_lt _ (by norm_num)
  have m1 : (x >>> 16) % 65536 < 65536 := Nat.mod_lt _ (by norm_num)
  have m2 : (x >>> 32) % 65536 < 65536 := Nat.mod_lt _ (by norm_num)
  have m3 : (x >>> 48) % 65536 < 65536 := Nat.mod_lt _ (by norm_num)
  split_ifs <;> assumption

theorem bit16_store64 (r : List Nat) (q x k : Nat) (hq : q + 3 < r.length) :
    bit16 (store64 r q x) k =
      if 16 * q ≤ k ∧ k < 16 * q + 64 then x.testBit (k - 16 * q) else bit16 r k := by
  unfold store64
  simp only [bit16_set, List.length_set, testBit_mod_65536, Nat.testBit_shiftRight]
  have hk16 : k % 16 < 16 := Nat.mod_lt _ (by norm_num)
  by_cases c3 : q + 3 = k / 16
  · have hin : 16 * q ≤ k ∧ k < 16 * q + 64 := by omega
    have e : 48 + k % 16 = k - 16 * q := by omega
    simp [c3.symm, hq, hin, hk16, e]
  · by_cases c2 : q + 2 = k / 16
    · have hin : 16 * q ≤ k ∧ k < 16 * q + 64 := by omega
      have e : 32 + k % 16 = k - 16 * q := by omega
      have hq2 : q + 2 < r.length := by omega
      simp [c3, c2.symm, hq2, hin, hk16, e]
    · by_cases c1 : q + 1 = k / 16
      · have hin : 16 * q ≤ k ∧ k < 16 * q + 64 := by omega
        have e : 16 + k % 16 = k - 16 * q := by omega
        have hq1 : q + 1 < r.length := by omega
        simp [c3, c2, c1.symm, hq1, hin, hk16, e]
      · by_cases c0 : q = k / 16
        · have hin : 16 * q ≤ k ∧ k < 16 * q + 64 := by omega
          have e : k % 16 = k - 16 * q := by omega
          have hq0 : q < r.length := by omega
          simp [c3, c2, c1, c0.symm, hq0, hin, hk16]
          rw [e]
        · have hout : ¬ (16 * q ≤ k ∧ k < 16 * q + 64) := by omega
          simp [c3, c2, c1, c0, hout]

theorem testBit_load64 (r : List Nat) (q m : Nat) (hb : ∀ i, r.getD i 0 < 65536) :
    (load64 r q).testBit m = if m < 64 then bit16 r (16 * q + m) else false := by
  unfold load64
  rw [testBit_join16 _ _ _ _ _ (hb _) (hb _) (hb _) (hb _)]
  unfold bit16
  by_cases c0 : m < 16
  · have e1 : (16 * q + m) / 16 = q := by omega
    have e2 : (16 * q + m) % 16 = m := by omega
    simp [c0, show m < 64 by omega, e1, e2]
  · by_cases c1 : m < 32
    · have e1 : (16 * q + m) / 16 = q + 1 := by omega
      have e2 : (16 * q + m) % 16 = m - 16 := by omega
      simp [c0, c1, show m < 64 by omega, e1, e2]
    · by_cases c2 : m < 48
      · have e1 : (16 * q + m) / 16 = q + 2 := by omega
        have e2 : (16 * q + m) % 16 = m - 32 := by omega
        simp [c0, c1, c2, show m < 64 by omega, e1, e2]
      · by_cases c3 : m < 64
        · have e1 : (16 * q + m) / 16 = q + 3 := by omega
          have e2 : (16 * q + m) % 16 = m - 48 := by omega
          simp [c0, c1, c2, c3, e1, e2]
        · simp [c0, c1, c2, c3]

theorem xor_row_spec (p : Params) (table : List Nat) (pt : Nat) (r : List Nat) (s : Nat)
    (hb : ∀ i, r.getD i 0 < 65536) (hlen : s + 4 * (VEC_N_SIZE_64 p + 1) ≤ r.length) :
    (xor_row p table pt r s).length = r.length ∧
    (∀ i, (xor_row p table pt r s).getD i 0 < 65536) ∧
    ∀ k, bit16 (xor_row p table pt r s) k =
      (bit16 r k ^^ (decide (16 * s ≤ k ∧ k < 16 * s + 64 * (VEC_N_SIZE_64 p + 1)) &&
        (table.getD (pt + (k - 16 * s) / 64) 0).testBit ((k - 16 * s) % 64))) := by
  unfold xor_row
  refine foldl_range_ind (fun j (r' : List Nat) => r'.length = r.length ∧
    (∀ i, r'.getD i 0 < 65536) ∧
    ∀ k, bit16 r' k = (bit16 r k ^^ (decide (16 * s ≤ k ∧ k < 16 * s + 64 * j) &&
        (table.getD (pt + (k - 16 * s) / 64) 0).testBit ((k - 16 * s) % 64)))) _ _ _ ?_ ?_
  · refine ⟨rfl, hb, ?_⟩
    intro k
    have : ¬ (16 * s ≤ k ∧ k < 16 * s + 64 * 0) := by omega
    rw [decide_eq_false this]
    simp
  · intro j hj r' ⟨hl', hb', hbit⟩
    refine ⟨by rw [length_store64, hl'], bounded_store64 _ _ _ hb', ?_⟩
    intro k
    rw [bit16_store64 _ _ _ _ (by omega)]
    by_cases hin : 16 * (s + 4 * j) ≤ k ∧ k < 16 * (s + 4 * j) + 64
    · rw [if_pos hin, Nat.testBit_xor, testBit_load64 _ _ _ hb', if_pos (by omega),
        show 16 * (s + 4 * j) + (k - 16 * (s + 4 * j)) = k by omega, hbit]
      have h1 : ¬ (16 * s ≤ k ∧ k < 16 * s + 64 * j) := by omega
      have h2 : (16 * s ≤ k ∧ k < 16 * s + 64 * (j + 1)) := by omega
      have e1 : (k - 16 * s) / 64 = j := by omega
      have e2 : (k - 16 * s) % 64 = k - 16 * (s + 4 * j) := by omega
      rw [decide_eq_false h1, decide_eq_true h2, e1, e2]
      simp
    · rw [if_neg hin, hbit]
      have h : (16 * s ≤ k ∧ k < 16 * s + 64 * (j + 1)) ↔ (16 * s ≤ k ∧ k < 16 * s + 64 * j) := by
        omega
      rw [decide_eq_decide.mpr h]

theorem perm_range_getD_lt (t : List Nat) (n i : Nat) (h : t.Perm (List.range n)) (hi : i < n) :
    t.getD i 0 < n := by
  have hl : t.length = n := by simpa using h.length_eq
  rw [getD_eq_getElem_of_lt _ _ (by omega)]
  have : t[i] ∈ List.range n := h.mem_iff.mp (List.getElem_mem _)
  simpa using this

theorem perm_range_getD_inj (t : List Nat) (n i j : Nat) (h : t.Perm (List.range n)) (hi : i < n)
    (hj : j < n) (he : t.getD i 0 = t.getD j 0) : i = j := by
  have hl : t.length = n := by simpa using h.length_eq
  have hnd : t.Nodup := h.nodup_iff.mpr (List.nodup_range n)
  rw [getD_eq_getElem_of_lt t i (by omega), getD_eq_getElem_of_lt t j (by omega)] at he
  exact (List.Nodup.getElem_inj_iff hnd).mp he

theorem slot_lt (a W j : Nat) (ha : a < 16) (hj : j ≤ W) : a * (W + 1) + j < 16 * (W + 1) := by
  have : (a + 1) * (W + 1) ≤ 16 * (W + 1) := Nat.mul_le_mul_right _ (by omega)
  have e : (a + 1) * (W + 1) = a * (W + 1) + (W + 1) := by ring
  omega

theorem slot_disjoint (a b W j j' : Nat) (hab : a ≠ b) (hj : j ≤ W) (hj' : j' ≤ W) :
    a * (W + 1) + j ≠ b * (W + 1) + j' := by
  intro h
  rcases Nat.lt_or_gt_of_ne hab with hlt | hgt
  · have : (a + 1) * (W + 1) ≤ b * (W + 1) := Nat.mul_le_mul_right _ (by omega)
    have e : (a + 1) * (W + 1) = a * (W + 1) + (W + 1) := by ring
    omega
  · have : (b + 1) * (W + 1) ≤ a * (W + 1) := Nat.mul_le_mul_right _ (by omega)
    have e : (b + 1) * (W + 1) = b * (W + 1) + (W + 1) := by ring
    omega

theorem table_row_fold (a2 table : List Nat) (idx i n : Nat) :
    (List.range n).foldl
      (fun (st : List Nat × Nat) j =>
        (st.1.set (idx + j) (((a2.getD j 0 <<< i) % 2 ^ 64) ^^^ st.2),
         a2.getD j 0 >>> (WORD - i))) (table, 0) =
    ((List.range n).foldl (fun t j => t.set (idx + j)
        (((a2.getD j 0 <<< i) % 2 ^ 64) ^^^ row_carry a2 i j)) table, row_carry a2 i n) := by
  induction n with
  | zero => simp [row_carry]
  | succ m ih =>
    rw [List.range_succ, List.foldl_append, List.foldl_append, ih]
    simp [row_carry]

theorem getD_table_row (p : Params) (pt a2 table : List Nat) (i k : Nat) :
    (table_row p pt a2 table i).getD k 0 =
      if pt.getD i 0 * (VEC_N_SIZE_64 p + 1) ≤ k ∧
          k ≤ pt.getD i 0 * (VEC_N_SIZE_64 p + 1) + VEC_N_SIZE_64 p ∧ k < table.length
      then row_word p a2 i (k - pt.getD i 0 * (VEC_N_SIZE_64 p + 1)) else table.getD k 0 := by
  unfold table_row
  simp only []
  rw [table_row_fold, getD_set_eq, getD_foldl_set, length_foldl_set]
  generalize pt.getD i 0 * (VEC_N_SIZE_64 p + 1) = idx
  unfold row_word
  by_cases h1 : idx + VEC_N_SIZE_64 p = k
  · by_cases h2 : idx + VEC_N_SIZE_64 p < table.length
    · have c : idx ≤ k ∧ k ≤ idx + VEC_N_SIZE_64 p ∧ k < table.length := by omega
      rw [if_pos ⟨h1, h2⟩, if_pos c, if_neg (by omega)]
    · have c : ¬ (idx ≤ k ∧ k ≤ idx + VEC_N_SIZE_64 p ∧ k < table.length) := by omega
      have c' : ¬ (idx ≤ k ∧ k < idx + VEC_N_SIZE_64 p ∧ k < table.length) := by omega
      rw [if_neg (by omega), if_neg c, if_neg c']
  · rw [if_neg (by omega)]
    by_cases h3 : idx ≤ k ∧ k < idx + VEC_N_SIZE_64 p ∧ k < table.length
    · have c : idx ≤ k ∧ k ≤ idx + VEC_N_SIZE_64 p ∧ k < table.length := by omega
      rw [if_pos h3, if_pos c, if_pos (by omega)]
    · have c : ¬ (idx ≤ k ∧ k ≤ idx + VEC_N_SIZE_64 p ∧ k < table.length) := by omega
      rw [if_neg h3, if_neg c]

theorem length_table_row (p : Params) (pt a2 table : List Nat) (i : Nat) :
    (table_row p pt a2 table i).length = table.length := by
  unfold table_row
  simp only []
  rw [table_row_fold, List.length_set, length_foldl_set]

theorem getD_table_first (p : Params) (pt a2 : List Nat) (k : Nat) :
    (table_first p pt a2).getD k 0 =
      if pt.getD 0 0 * (VEC_N_SIZE_64 p + 1) ≤ k ∧
          k < pt.getD 0 0 * (VEC_N_SIZE_64 p + 1) + VEC_N_SIZE_64 p ∧
          k < TABLE * (VEC_N_SIZE_64 p + 1)
      then a2.getD (k - pt.getD 0 0 * (VEC_N_SIZE_64 p + 1)) 0 else 0 := by
  unfold table_first
  simp only []
  rw [getD_set_eq, getD_foldl_set, List.length_replicate, getD_replicate_zero]
  generalize pt.getD 0 0 * (VEC_N_SIZE_64 p + 1) = idx
  by_cases h1 : idx + VEC_N_SIZE_64 p = k
  · have c : ¬ (idx ≤ k ∧ k < idx + VEC_N_SIZE_64 p ∧ k < TABLE * (VEC_N_SIZE_64 p + 1)) := by
      omega
    rw [if_neg c]
    split <;> rfl
  · rw [if_neg (by omega)]

theorem length_table_first (p : Params) (pt a2 : List Nat) :
    (table_first p pt a2).length = TABLE * (VEC_N_SIZE_64 p + 1) := by
  unfold table_first
  simp only []
  rw [List.length_set, length_foldl_set, List.length_replicate]

theorem testBit_high (x m : Nat) (hx : x < 2 ^ 64) (hm : 64 ≤ m) : x.testBit m = false :=
  Nat.testBit_lt_two_pow (lt_of_lt_of_le hx (Nat.pow_le_pow_right (by norm_num) hm))

theorem getD_of_length_le (l : List Nat) (k : Nat) (h : l.length ≤ k) : l.getD k 0 = 0 := by
  simp [List.getD_eq_getElem?_getD, List.getElem?_eq_none h]

theorem row_carry_bit (a2 : List Nat) (i j m : Nat) (hi : i < 64)
    (hb : ∀ k, a2.getD k 0 < 2 ^ 64) :
    (row_carry a2 i j).testBit m =
      (decide (0 < j) && decide (m < i) && (a2.getD (j - 1) 0).testBit (64 - i + m)) := by
  unfold row_carry WORD
  by_cases hj : j = 0
  · simp [hj]
  · rw [if_neg hj, Nat.testBit_shiftRight]
    by_cases hm : m < i
    · simp [hm, Nat.pos_of_ne_zero hj]
    · rw [testBit_high _ _ (hb _) (by omega)]
      simp [hm]

theorem row_word_bit (p : Params) (a2 : List Nat) (i j m : Nat) (hi1 : 1 ≤ i) (hi : i < 64)
    (hb : ∀ k, a2.getD k 0 < 2 ^ 64) (hl : a2.length = VEC_N_SIZE_64 p)
    (hj : j ≤ VEC_N_SIZE_64 p) :
    (row_word p a2 i j).testBit m =
      (decide (m < 64) && decide (i ≤ 64 * j + m) && bit64 a2 (64 * j + m - i)) := by
  unfold row_word bit64
  by_cases hjw : j < VEC_N_SIZE_64 p
  · rw [if_pos hjw, Nat.testBit_xor, Nat.testBit_mod_two_pow, Nat.testBit_shiftLeft,
      row_carry_bit _ _ _ _ hi hb]
    by_cases hm : m < 64
    · by_cases hmi : m < i
      · by_cases hj0 : j = 0
        · subst hj0
          have : ¬ (i ≤ 64 * 0 + m) := by omega
          simp [hm, hmi, this, show ¬ (m ≥ i) by omega]
        · have e1 : (64 * j + m - i) / 64 = j - 1 := by omega
          have e2 : (64 * j + m - i) % 64 = 64 - i + m := by omega
          have : i ≤ 64 * j + m := by omega
          simp [hm, hmi, this, show ¬ (m ≥ i) by omega, Nat.pos_of_ne_zero hj0, e1, e2]
      · have e1 : (64 * j + m - i) / 64 = j := by omega
        have e2 : (64 * j + m - i) % 64 = m - i := by omega
        have : i ≤ 64 * j + m := by omega
        simp [hm, hmi, this, show (m ≥ i) by omega, e1, e2]
    · simp [hm, show ¬ m < i by omega]
  · have hjW : j = VEC_N_SIZE_64 p := by omega
    rw [if_neg hjw, row_carry_bit _ _ _ _ hi hb, ← hjW]
    by_cases hmi : m < i
    · by_cases hj0 : j = 0
      · subst hj0
        have : ¬ (i ≤ 64 * 0 + m) := by omega
        rw [decide_eq_false this]
        simp
      · have e1 : (64 * j + m - i) / 64 = j - 1 := by omega
        have e2 : (64 * j + m - i) % 64 = 64 - i + m := by omega
        have : i ≤ 64 * j + m := by omega
        simp [hmi, this, show m < 64 by omega, Nat.pos_of_ne_zero hj0, e1, e2]
    · have hz : a2.getD ((64 * j + m - i) / 64) 0 = 0 :=
        getD_of_length_le _ _ (by rw [hl]; omega)
      rw [hz]
      simp [hmi]

theorem first_word_bit (a2 : List Nat) (j m : Nat) (hb : ∀ k, a2.getD k 0 < 2 ^ 64) :
    (a2.getD j 0).testBit m = (decide (m < 64) && bit64 a2 (64 * j + m)) := by
  unfold bit64
  by_cases hm : m < 64
  · have e1 : (64 * j + m) / 64 = j := by omega
    have e2 : (64 * j + m) % 64 = m := by omega
    simp [hm, e1, e2]
  · rw [testBit_high _ _ (hb _) (by omega)]
    simp [hm]

theorem build_table_eq (p : Params) (pt a2 : List Nat) :
    build_table p pt a2 = (List.range 15).foldl (fun t k => table_row p pt a2 t (1 + k))
      (table_first p pt a2) := by
  unfold build_table
  rw [show TABLE - 1 = 15 by rfl, List.range'_eq_map_range, List.foldl_map]

theorem build_table_spec (p : Params) (pt a2 : List Nat) (hpt : pt.Perm (List.range 16))
    (hb : ∀ k, a2.getD k 0 < 2 ^ 64) (hl : a2.length = VEC_N_SIZE_64 p) :
    (build_table p pt a2).length = 16 * (VEC_N_SIZE_64 p + 1) ∧
    ∀ d, d < 16 → ∀ j, j ≤ VEC_N_SIZE_64 p → ∀ m,
      ((build_table p pt a2).getD (pt.getD d 0 * (VEC_N_SIZE_64 p + 1) + j) 0).testBit m =
        shifted_bit a2 d j m := by
  rw [build_table_eq]
  have key := foldl_range_ind (fun i (t : List Nat) =>
      t.length = 16 * (VEC_N_SIZE_64 p + 1) ∧
      ∀ d, d ≤ i → d < 16 → ∀ j, j ≤ VEC_N_SIZE_64 p → ∀ m,
        (t.getD (pt.getD d 0 * (VEC_N_SIZE_64 p + 1) + j) 0).testBit m = shifted_bit a2 d j m)
    (fun t k => table_row p pt a2 t (1 + k)) 15 (table_first p pt a2) ?_ ?_
  · exact ⟨key.1, fun d hd => key.2 d (by omega) hd⟩
  · refine ⟨length_table_first p pt a2, ?_⟩
    intro d hd0 _ j hj m
    have hd : d = 0 := by omega
    subst hd
    rw [getD_table_first]
    have hlt := slot_lt _ _ _ (perm_range_getD_lt pt 16 0 hpt (by norm_num)) hj
    unfold shifted_bit
    by_cases hjw : j < VEC_N_SIZE_64 p
    · rw [if_pos ⟨by omega, by omega, by simpa [TABLE] using hlt⟩,
        Nat.add_sub_cancel_left, first_word_bit _ _ _ hb]
      simp
    · rw [if_neg (by omega)]
      have hz : bit64 a2 (64 * j + m - 0) = false := by
        unfold bit64
        rw [getD_of_length_le _ _ (by rw [hl]; omega)]
        simp
      rw [hz]
      simp
  · intro i hi t ⟨hlen, hrows⟩
    refine ⟨by rw [length_table_row, hlen], ?_⟩
    intro d hd hd16 j hj m
    rw [getD_table_row, hlen]
    by_cases hdi : d = 1 + i
    · subst hdi
      have hlt := slot_lt _ _ _ (perm_range_getD_lt pt 16 (1 + i) hpt (by omega)) hj
      rw [if_pos ⟨by omega, by omega, hlt⟩, Nat.add_sub_cancel_left]
      exact row_word_bit p a2 (1 + i) j m (by omega) (by omega) hb hl hj
    · have hne : pt.getD d 0 ≠ pt.getD (1 + i) 0 := fun he =>
        hdi (perm_range_getD_inj pt 16 d (1 + i) hpt hd16 (by omega) he)
      have hout : ¬ (pt.getD (1 + i) 0 * (VEC_N_SIZE_64 p + 1) ≤
            pt.getD d 0 * (VEC_N_SIZE_64 p + 1) + j ∧
          pt.getD d 0 * (VEC_N_SIZE_64 p + 1) + j ≤
            pt.getD (1 + i) 0 * (VEC_N_SIZE_64 p + 1) + VEC_N_SIZE_64 p ∧
          pt.getD d 0 * (VEC_N_SIZE_64 p + 1) + j < 16 * (VEC_N_SIZE_64 p + 1)) := by
        intro ⟨c1, c2, _⟩
        have hj' : pt.getD d 0 * (VEC_N_SIZE_64 p + 1) + j -
            pt.getD (1 + i) 0 * (VEC_N_SIZE_64 p + 1) ≤ VEC_N_SIZE_64 p := by omega
        exact slot_disjoint _ _ _ j _ hne hj hj' (by omega)
      rw [if_neg hout]
      exact hrows d (by omega) hd16 j hj m

theorem length_as_u16 (ws : List Nat) : (as_u16 ws).length = 4 * ws.length := by
  simp [as_u16]

theorem bounded_as_u16 (ws : List Nat) : ∀ i, (as_u16 ws).getD i 0 < 65536 := by
  intro i
  unfold as_u16
  rw [getD_map_range]
  split
  · exact Nat.mod_lt _ (by norm_num)
  · norm_num

theorem bit16_as_u16 (ws : List Nat) (k : Nat) : bit16 (as_u16 ws) k = bit64 ws k := by
  unfold bit16 bit64 as_u16
  rw [getD_map_range]
  by_cases h : k / 16 < 4 * ws.length
  · rw [if_pos h, testBit_mod_65536, Nat.testBit_shiftRight]
    have e1 : k / 16 / 4 = k / 64 := by omega
    have e2 : 16 * (k / 16 % 4) + k % 16 = k % 64 := by omega
    have e3 : k % 16 < 16 := by omega
    rw [e1, e2]
    simp [e3]
  · rw [if_neg h, getD_of_length_le _ _ (by omega)]
    simp

theorem length_as_u64 (hs : List Nat) : (as_u64 hs).length = hs.length / 4 := by
  simp [as_u64]

theorem getD_as_u64 (hs : List Nat) (i : Nat) :
    (as_u64 hs).getD i 0 = if i < hs.length / 4 then load64 hs (4 * i) else 0 := by
  unfold as_u64
  rw [getD_map_range]
  rfl

theorem bounded_as_u64 (hs : List Nat) (hb : ∀ i, hs.getD i 0 < 65536) :
    ∀ i, (as_u64 hs).getD i 0 < 2 ^ 64 := by
  intro i
  rw [getD_as_u64]
  split
  · apply Nat.lt_pow_two_of_testBit
    intro m hm
    rw [testBit_load64 _ _ _ hb, if_neg (by omega)]
  · exact Nat.pos_pow_of_pos _ (by norm_num)

theorem bit64_as_u64 (hs : List Nat) (k : Nat) (hb : ∀ i, hs.getD i 0 < 65536) :
    bit64 (as_u64 hs) k = (decide (k / 64 < hs.length / 4) && bit16 hs k) := by
  unfold bit64
  rw [getD_as_u64]
  by_cases h : k / 64 < hs.length / 4
  · rw [if_pos h, testBit_load64 _ _ _ hb, if_pos (by omega),
      show 16 * (4 * (k / 64)) + k % 64 = k by omega]
    simp [h]
  · rw [if_neg h]
    simp [h]

theorem and_0xf (e : Nat) : e &&& 0xf = e % 16 := by
  have := Nat.and_pow_two_sub_one_eq_mod e 4
  simpa using this

theorem shr_4 (e : Nat) : e >>> 4 = e / 16 := by
  rw [Nat.shiftRight_eq_div_pow]

theorem bit64_out_of_range (a : List Nat) (k : Nat) (h : 64 * a.length ≤ k) :
    bit64 a k = false := by
  unfold bit64
  rw [getD_of_length_le _ _ (by omega)]
  simp

theorem xor_term (p : Params) (pt a2 r : List Nat) (e : Nat) (hpt : pt.Perm (List.range 16))
    (hb : ∀ k, a2.getD k 0 < 2 ^ 64) (hl : a2.length = VEC_N_SIZE_64 p)
    (he : e < p.PARAM_N) (hr : ∀ i, r.getD i 0 < 65536)
    (hlen : r.length = 4 * (2 * VEC_N_SIZE_64 p + 1)) :
    (xor_row p (build_table p pt a2) (pt.getD (e &&& 0xf) 0 * (VEC_N_SIZE_64 p + 1)) r
        (e >>> 4)).length = r.length ∧
    (∀ i, (xor_row p (build_table p pt a2) (pt.getD (e &&& 0xf) 0 * (VEC_N_SIZE_64 p + 1)) r
        (e >>> 4)).getD i 0 < 65536) ∧
    ∀ k, bit16 (xor_row p (build_table p pt a2)
        (pt.getD (e &&& 0xf) 0 * (VEC_N_SIZE_64 p + 1)) r (e >>> 4)) k =
      (bit16 r k ^^ term_bit a2 e k) := by
  have hW : p.PARAM_N ≤ 64 * VEC_N_SIZE_64 p := by unfold VEC_N_SIZE_64; omega
  rw [and_0xf, shr_4]
  obtain ⟨h1, h2, h3⟩ := xor_row_spec p (build_table p pt a2)
    (pt.getD (e % 16) 0 * (VEC_N_SIZE_64 p + 1)) r (e / 16) hr (by omega)
  refine ⟨h1, h2, ?_⟩
  intro k
  rw [h3]
  congr 1
  unfold term_bit
  by_cases hin : 16 * (e / 16) ≤ k ∧ k < 16 * (e / 16) + 64 * (VEC_N_SIZE_64 p + 1)
  · rw [decide_eq_true hin, Bool.true_and,
      (build_table_spec p pt a2 hpt hb hl).2 (e % 16) (by omega) ((k - 16 * (e / 16)) / 64)
        (by omega)]
    unfold shifted_bit
    have e1 : 64 * ((k - 16 * (e / 16)) / 64) + (k - 16 * (e / 16)) % 64 - e % 16 = k - e := by
      omega
    have e2 : (e % 16 ≤ 64 * ((k - 16 * (e / 16)) / 64) + (k - 16 * (e / 16)) % 64) ↔ e ≤ k := by
      omega
    have e3 : (k - 16 * (e / 16)) % 64 < 64 := by omega
    rw [e1, decide_eq_decide.mpr e2, decide_eq_true e3, Bool.true_and]
  · rw [decide_eq_false hin, Bool.false_and]
    by_cases hek : e ≤ k
    · rw [bit64_out_of_range _ _ (by rw [hl]; omega)]
      simp
    · simp [hek]

theorem xor_fold_range_succ (f : Nat → Bool) (n : Nat) :
    xor_fold f (List.range (n + 1)) = (xor_fold f (List.range n) ^^ f n) := by
  unfold xor_fold
  rw [List.range_succ, List.foldl_append]
  rfl

theorem xor_fold_perm (f : Nat → Bool) (l1 l2 : List Nat) (h : l1.Perm l2) :
    xor_fold f l1 = xor_fold f l2 := by
  unfold xor_fold
  have : RightCommutative (fun (acc : Bool) (i : Nat) => acc ^^ f i) :=
    ⟨fun b a1 a2 => by cases b <;> cases f a1 <;> cases f a2 <;> rfl⟩
  exact h.foldl_eq false

theorem map_getD_range (l : List Nat) (n : Nat) (h : n ≤ l.length) :
    (List.range n).map (fun i => l.getD i 0) = l.take n := by
  apply List.ext_getElem
  · simp [h]
  · intro k h1 h2
    have hk : k < n := by simpa using h1
    rw [List.getElem_map, List.getElem_range, List.getElem_take,
      getD_eq_getElem_of_lt _ _ (by omega)]

theorem xor_fold_permuted (f : Nat → Bool) (psv : List Nat) (w : Nat) (hw : w ≤ psv.length)
    (hp : (psv.take w).Perm (List.range w)) :
    xor_fold (fun i => f (psv.getD i 0)) (List.range w) = xor_fold f (List.range w) := by
  rw [← xor_fold_perm f _ _ hp, ← map_getD_range _ _ hw]
  unfold xor_fold
  rw [List.foldl_map]

theorem accumulate_spec (p : Params) (pt psv a1 a2 r : List Nat) (weight : Nat)
    (hpt : pt.Perm (List.range 16))
    (hb : ∀ k, a2.getD k 0 < 2 ^ 64) (hl : a2.length = VEC_N_SIZE_64 p)
    (he : ∀ i, i < weight → a1.getD (psv.getD i 0) 0 < p.PARAM_N)
    (hr : ∀ i, r.getD i 0 < 65536) (hlen : r.length = 4 * (2 * VEC_N_SIZE_64 p + 1)) :
    (accumulate p (build_table p pt a2) pt psv a1 weight r).length = r.length ∧
    (∀ i, (accumulate p (build_table p pt a2) pt psv a1 weight r).getD i 0 < 65536) ∧
    ∀ k, bit16 (accumulate p (build_table p pt a2) pt psv a1 weight r) k =
      (bit16 r k ^^
        xor_fold (fun i => term_bit a2 (a1.getD (psv.getD i 0) 0) k) (List.range weight)) := by
  unfold accumulate
  refine foldl_range_ind (fun i (r' : List Nat) => r'.length = r.length ∧
    (∀ j, r'.getD j 0 < 65536) ∧
    ∀ k, bit16 r' k = (bit16 r k ^^
        xor_fold (fun i => term_bit a2 (a1.getD (psv.getD i 0) 0) k) (List.range i))) _ _ _ ?_ ?_
  · refine ⟨rfl, hr, ?_⟩
    intro k
    simp [xor_fold]
  · intro i hi r' ⟨hl', hb', hbit⟩
    obtain ⟨h1, h2, h3⟩ := xor_term p pt a2 r' (a1.getD (psv.getD i 0) 0) hpt hb hl (he i hi) hb'
      (by rw [hl', hlen])
    refine ⟨by rw [h1, hl'], h2, ?_⟩
    intro k
    simp only []
    rw [h3, hbit, xor_fold_range_succ, Bool.xor_assoc]

theorem bit16_out_of_range (hs : List Nat) (k : Nat) (h : 16 * hs.length ≤ k) :
    bit16 hs k = false := by
  unfold bit16
  rw [getD_of_length_le _ _ (by omega)]
  simp

theorem shuffle_table_cast_perm (ctx : seedexpander_state) :
    (shuffle_table (cast_u16 (seedexpander ctx (TABLE <<< 1)).1)).Perm (List.range 16) :=
  shuffle_table_perm _

theorem fast_convolution_mult_spec (p : Params) (o a1 a2 : List Nat) (weight : Nat)
    (ctx : seedexpander_state) (hw : weight ≤ p.PARAM_OMEGA_E) (hw2 : weight ≤ 65536)
    (he : ∀ i, i < weight → a1.getD i 0 < p.PARAM_N)
    (hb : ∀ k, a2.getD k 0 < 2 ^ 64) (hl : a2.length = VEC_N_SIZE_64 p)
    (ho : o.length = 2 * VEC_N_SIZE_64 p + 1) :
    (fast_convolution_mult p o a1 a2 weight ctx).1.length = 2 * VEC_N_SIZE_64 p + 1 ∧
    (∀ i, (fast_convolution_mult p o a1 a2 weight ctx).1.getD i 0 < 2 ^ 64) ∧
    ∀ k, bit64 (fast_convolution_mult p o a1 a2 weight ctx).1 k =
      (bit64 o k ^^ conv_bit a1 a2 weight k) := by
  unfold fast_convolution_mult
  simp only []
  generalize hpt : shuffle_table (cast_u16 (seedexpander ctx (TABLE <<< 1)).1) = pt
  generalize hpsv : shuffle_sparse p weight
    (cast_u16 (seedexpander (seedexpander ctx (TABLE <<< 1)).2 (weight <<< 1)).1) = psv
  have hptp : pt.Perm (List.range 16) := hpt ▸ shuffle_table_perm _
  have hpsvl : psv.length = p.PARAM_OMEGA_E := hpsv ▸ shuffle_sparse_length _ _ _
  have hpsvp : (psv.take weight).Perm (List.range weight) :=
    hpsv ▸ shuffle_sparse_perm _ _ _ hw hw2
  have hidx : ∀ i, i < weight → psv.getD i 0 < weight := by
    intro i hi
    rw [← getD_take_of_lt psv weight i hi]
    exact perm_range_getD_lt _ _ _ hpsvp hi
  obtain ⟨h1, h2, h3⟩ := accumulate_spec p pt psv a1 a2 (as_u16 o) weight hptp hb hl
    (fun i hi => he _ (hidx i hi)) (bounded_as_u16 o) (by rw [length_as_u16, ho])
  rw [length_as_u16, ho] at h1
  refine ⟨by rw [length_as_u64, h1]; omega, bounded_as_u64 _ h2, ?_⟩
  intro k
  rw [bit64_as_u64 _ _ h2, h1]
  have hfold : xor_fold (fun i => term_bit a2 (a1.getD (psv.getD i 0) 0) k) (List.range weight) =
      conv_bit a1 a2 weight k :=
    xor_fold_permuted (fun x => term_bit a2 (a1.getD x 0) k) psv weight (by omega) hpsvp
  rw [← hfold, ← bit16_as_u16 o k, ← h3 k]
  by_cases hk : k / 64 < 4 * (2 * VEC_N_SIZE_64 p + 1) / 4
  · rw [decide_eq_true hk, Bool.true_and]
  · rw [bit16_out_of_range _ _ (by rw [h1]; omega), Bool.and_false]

theorem and_0x3F (n : Nat) : n &&& 0x3F = n % 64 := by
  have := Nat.and_pow_two_sub_one_eq_mod n 6
  simpa using this

theorem reduce_eq (p : Params) (a : List Nat) :
    reduce p a =
      ((List.range (VEC_N_SIZE_64 p)).foldl (fun o i => o.set i (fold_word p a i))
        (List.replicate (VEC_N_SIZE_64 p) 0)).set (VEC_N_SIZE_64 p - 1)
        (((List.range (VEC_N_SIZE_64 p)).foldl (fun o i => o.set i (fold_word p a i))
          (List.replicate (VEC_N_SIZE_64 p) 0)).getD (VEC_N_SIZE_64 p - 1) 0 &&& RED_MASK p) := rfl

theorem length_reduce (p : Params) (a : List Nat) : (reduce p a).length = VEC_N_SIZE_64 p := by
  rw [reduce_eq]
  rw [List.length_set, length_foldl_set0 (VEC_N_SIZE_64 p) (fun i => fold_word p a i)]
  simp

theorem getD_reduce (p : Params) (a : List Nat) (i : Nat) :
    (reduce p a).getD i 0 =
      if i < VEC_N_SIZE_64 p then
        (if i = VEC_N_SIZE_64 p - 1 then fold_word p a i &&& RED_MASK p else fold_word p a i)
      else 0 := by
  rw [reduce_eq]
  rw [getD_set_eq, length_foldl_set0 (VEC_N_SIZE_64 p) (fun i => fold_word p a i),
    getD_foldl_set0 (VEC_N_SIZE_64 p) (fun i => fold_word p a i),
    getD_foldl_set0 (VEC_N_SIZE_64 p) (fun i => fold_word p a i),
    List.length_replicate, getD_replicate_zero]
  by_cases hi : i < VEC_N_SIZE_64 p
  · by_cases ht : VEC_N_SIZE_64 p - 1 = i
    · rw [if_pos ⟨ht, by omega⟩, if_pos hi, if_pos ht.symm, if_pos ⟨by omega, by omega⟩, ht]
    · rw [if_neg (by omega), if_pos ⟨hi, hi⟩, if_pos hi, if_neg (by omega)]
  · rw [if_neg (by omega), if_neg (by omega), if_neg hi]
    exact getD_replicate_zero _ _

theorem fold_word_bit (p : Params) (a : List Nat) (i m : Nat) (hn : p.PARAM_N % 64 ≠ 0)
    (ha : ∀ k, a.getD k 0 < 2 ^ 64) (hm : m < 64) :
    (fold_word p a i).testBit m = (bit64 a (64 * i + m) ^^ bit64 a (64 * i + m + p.PARAM_N)) := by
  unfold fold_word bit64
  rw [and_0x3F, Nat.testBit_xor, Nat.testBit_xor, Nat.testBit_mod_two_pow, Nat.testBit_shiftLeft,
    Nat.testBit_shiftRight, decide_eq_true hm, Bool.true_and]
  have hW : VEC_N_SIZE_64 p = (p.PARAM_N + 63) / 64 := rfl
  have e1 : (64 * i + m) / 64 = i := by omega
  have e2 : (64 * i + m) % 64 = m := by omega
  rw [e1, e2, Bool.xor_assoc]
  congr 1
  by_cases hc : m + p.PARAM_N % 64 < 64
  · have e3 : (64 * i + m + p.PARAM_N) / 64 = i + VEC_N_SIZE_64 p - 1 := by omega
    have e4 : (64 * i + m + p.PARAM_N) % 64 = p.PARAM_N % 64 + m := by omega
    rw [e3, e4, decide_eq_false (show ¬ m ≥ 64 - p.PARAM_N % 64 by omega)]
    simp
  · have e3 : (64 * i + m + p.PARAM_N) / 64 = i + VEC_N_SIZE_64 p := by omega
    have e4 : (64 * i + m + p.PARAM_N) % 64 = m - (64 - p.PARAM_N % 64) := by omega
    rw [e3, e4, decide_eq_true (show m ≥ 64 - p.PARAM_N % 64 by omega),
      testBit_high _ _ (ha _) (by omega)]
    simp

theorem reduce_bit (p : Params) (a : List Nat) (k : Nat) (hn : p.PARAM_N % 64 ≠ 0)
    (ha : ∀ i, a.getD i 0 < 2 ^ 64) :
    bit64 (reduce p a) k = (decide (k < p.PARAM_N) && (bit64 a k ^^ bit64 a (k + p.PARAM_N))) := by
  have hW : VEC_N_SIZE_64 p = (p.PARAM_N + 63) / 64 := rfl
  have hfw := fold_word_bit p a (k / 64) (k % 64) hn ha (by omega)
  rw [show 64 * (k / 64) + k % 64 = k by omega] at hfw
  have hlhs : bit64 (reduce p a) k = ((reduce p a).getD (k / 64) 0).testBit (k % 64) := rfl
  rw [hlhs, getD_reduce]
  by_cases hi : k / 64 < VEC_N_SIZE_64 p
  · rw [if_pos hi]
    by_cases ht : k / 64 = VEC_N_SIZE_64 p - 1
    · rw [if_pos ht, Nat.testBit_and, hfw]
      unfold RED_MASK
      rw [Nat.testBit_two_pow_sub_one, Bool.and_comm]
      congr 1
      exact decide_eq_decide.mpr (by omega)
    · rw [if_neg ht, hfw, decide_eq_true (show k < p.PARAM_N by omega), Bool.true_and]
  · rw [if_neg hi, decide_eq_false (show ¬ k < p.PARAM_N by omega)]
    simp

theorem reduce_bounded (p : Params) (a : List Nat) (ha : ∀ i, a.getD i 0 < 2 ^ 64) :
    ∀ i, (reduce p a).getD i 0 < 2 ^ 64 := by
  intro i
  have hfw : ∀ j, fold_word p a j < 2 ^ 64 := by
    intro j
    unfold fold_word
    refine Nat.xor_lt_two_pow (Nat.xor_lt_two_pow (ha _) ?_) (Nat.mod_lt _ (by norm_num))
    rw [Nat.shiftRight_eq_div_pow]
    exact lt_of_le_of_lt (Nat.div_le_self _ _) (ha _)
  rw [getD_reduce]
  split
  · split
    · exact lt_of_le_of_lt Nat.and_le_left (hfw _)
    · exact hfw _
  · norm_num

theorem reduce_high_bits (p : Params) (a : List Nat) (k : Nat)
    (hk : p.PARAM_N ≤ k) : bit64 (reduce p a) k = false := by
  have hW : VEC_N_SIZE_64 p = (p.PARAM_N + 63) / 64 := rfl
  have hlhs : bit64 (reduce p a) k = ((reduce p a).getD (k / 64) 0).testBit (k % 64) := rfl
  rw [hlhs, getD_reduce]
  by_cases hi : k / 64 < VEC_N_SIZE_64 p
  · rw [if_pos hi, if_pos (by omega), Nat.testBit_and]
    unfold RED_MASK
    rw [Nat.testBit_two_pow_sub_one, decide_eq_false (show ¬ k % 64 < p.PARAM_N % 64 by omega),
      Bool.and_false]
  · rw [if_neg hi]
    simp

theorem getD_cons_zero (w : Nat) (ws : List Nat) : (w :: ws).getD 0 0 = w := rfl

theorem getD_cons_succ (w : Nat) (ws : List Nat) (i : Nat) :
    (w :: ws).getD (i + 1) 0 = ws.getD i 0 := rfl

theorem testBit_val64 (ws : List Nat) (k : Nat) (hb : ∀ i, ws.getD i 0 < 2 ^ 64) :
    (val64 ws).testBit k = bit64 ws k := by
  induction ws generalizing k with
  | nil => simp [val64, bit64]
  | cons w ws ih =>
    have hw : w < 2 ^ 64 := hb 0
    have hws : ∀ i, ws.getD i 0 < 2 ^ 64 := fun i => hb (i + 1)
    have hv : val64 (w :: ws) = 2 ^ 64 * val64 ws + w := by
      simp only [val64, List.foldr_cons]
      exact Nat.add_comm _ _
    rw [hv, Nat.testBit_mul_pow_two_add _ hw]
    unfold bit64
    by_cases hk : k < 64
    · rw [if_pos hk, show k / 64 = 0 by omega, show k % 64 = k by omega, getD_cons_zero]
    · rw [if_neg hk, ih _ hws]
      unfold bit64
      rw [show k / 64 = (k - 64) / 64 + 1 by omega, show (k - 64) % 64 = k % 64 by omega,
        getD_cons_succ]

theorem val64_lt (ws : List Nat) (n : Nat) (hb : ∀ i, ws.getD i 0 < 2 ^ 64)
    (h : ∀ k, n ≤ k → bit64 ws k = false) : val64 ws < 2 ^ n := by
  apply Nat.lt_pow_two_of_testBit
  intro k hk
  rw [testBit_val64 _ _ hb]
  exact h k hk

theorem bit64_of_val64_lt (ws : List Nat) (n k : Nat) (hb : ∀ i, ws.getD i 0 < 2 ^ 64)
    (h : val64 ws < 2 ^ n) (hk : n ≤ k) : bit64 ws k = false := by
  rw [← testBit_val64 _ _ hb]
  exact Nat.testBit_lt_two_pow (lt_of_lt_of_le h (Nat.pow_le_pow_right (by norm_num) hk))

theorem length_to_words (W x : Nat) : (to_words W x).length = W := by
  simp [to_words]

theorem eq_to_words (l : List Nat) (W x : Nat) (hl : l.length = W)
    (hb : ∀ i, l.getD i 0 < 2 ^ 64)
    (h : ∀ k, k < 64 * W → bit64 l k = x.testBit k) : l = to_words W x := by
  apply List.ext_getElem
  · rw [hl, length_to_words]
  · intro i h1 h2
    unfold to_words
    rw [List.getElem_map, List.getElem_range]
    apply Nat.eq_of_testBit_eq
    intro m
    rw [Nat.testBit_mod_two_pow, Nat.testBit_shiftRight, ← getD_eq_getElem_of_lt l i h1]
    by_cases hm : m < 64
    · have hk := h (64 * i + m) (by omega)
      unfold bit64 at hk
      rw [show (64 * i + m) / 64 = i by omega, show (64 * i + m) % 64 = m by omega] at hk
      rw [hk, decide_eq_true hm, Bool.true_and]
    · rw [testBit_high _ _ (hb i) (by omega), decide_eq_false hm, Bool.false_and]

theorem bit64_to_words (W x k : Nat) :
    bit64 (to_words W x) k = (decide (k < 64 * W) && x.testBit k) := by
  unfold bit64 to_words
  rw [getD_map_range]
  by_cases h : k / 64 < W
  · rw [if_pos h, Nat.testBit_mod_two_pow, Nat.testBit_shiftRight,
      show 64 * (k / 64) + k % 64 = k by omega, decide_eq_true (show k % 64 < 64 by omega),
      decide_eq_true (show k < 64 * W by omega)]
  · rw [if_neg h, decide_eq_false (show ¬ k < 64 * W by omega)]
    simp

theorem bounded_to_words (W x : Nat) : ∀ i, (to_words W x).getD i 0 < 2 ^ 64 := by
  intro i
  unfold to_words
  rw [getD_map_range]
  split
  · exact Nat.mod_lt _ (by norm_num)
  · norm_num

theorem testBit_rotl (n e x k : Nat) :
    (rotl n e x).testBit k =
      (decide (k < n) && ((decide (e ≤ k) && x.testBit (k - e)) || x.testBit (n - e + k))) := by
  unfold rotl
  rw [Nat.testBit_mod_two_pow, Nat.testBit_or, Nat.testBit_shiftLeft, Nat.testBit_shiftRight]

theorem foldl_xor_init (f : Nat → Bool) (l : List Nat) (b : Bool) :
    l.foldl (fun acc i => acc ^^ f i) b = (b ^^ xor_fold f l) := by
  unfold xor_fold
  induction l generalizing b with
  | nil => simp
  | cons x xs ih =>
    simp only [List.foldl_cons]
    rw [ih (b ^^ f x), ih (false ^^ f x)]
    cases b <;> cases f x <;> simp

theorem xor_fold_cons (f : Nat → Bool) (x : Nat) (l : List Nat) :
    xor_fold f (x :: l) = (f x ^^ xor_fold f l) := by
  have := foldl_xor_init f l (false ^^ f x)
  simpa [xor_fold] using this

theorem xor_fold_nil (f : Nat → Bool) : xor_fold f [] = false := rfl

theorem testBit_foldl_xor (g : Nat → Nat) (l : List Nat) (acc k : Nat) :
    (l.foldl (fun acc i => acc ^^^ g i) acc).testBit k =
      (acc.testBit k ^^ xor_fold (fun i => (g i).testBit k) l) := by
  induction l generalizing acc with
  | nil => simp [xor_fold_nil]
  | cons x xs ih =>
    simp only [List.foldl_cons]
    rw [ih, xor_fold_cons, Nat.testBit_xor, Bool.xor_assoc]

theorem xor_fold_congr (f g : Nat → Bool) (l : List Nat) (h : ∀ i, i ∈ l → f i = g i) :
    xor_fold f l = xor_fold g l := by
  induction l with
  | nil => rfl
  | cons x xs ih =>
    rw [xor_fold_cons, xor_fold_cons, h x (List.mem_cons_self _ _),
      ih (fun i hi => h i (List.mem_cons_of_mem _ hi))]

theorem xor_fold_xor (f g : Nat → Bool) (l : List Nat) :
    (xor_fold f l ^^ xor_fold g l) = xor_fold (fun i => f i ^^ g i) l := by
  induction l with
  | nil => rfl
  | cons x xs ih =>
    rw [xor_fold_cons, xor_fold_cons, xor_fold_cons, ← ih]
    cases f x <;> cases g x <;> cases xor_fold f xs <;> cases xor_fold g xs <;> rfl

theorem xor_fold_and (c : Bool) (f : Nat → Bool) (l : List Nat) :
    (c && xor_fold f l) = xor_fold (fun i => c && f i) l := by
  induction l with
  | nil => simp [xor_fold_nil]
  | cons x xs ih =>
    rw [xor_fold_cons, xor_fold_cons, ← ih]
    cases c <;> simp

theorem bit64_replicate_zero (n k : Nat) : bit64 (List.replicate n 0) k = false := by
  unfold bit64
  rw [getD_replicate_zero]
  simp

theorem vect_mul_bit (p : Params) (a1 a2 : List Nat) (weight : Nat) (ctx : seedexpander_state)
    (hn : p.PARAM_N % 64 ≠ 0) (hw : weight ≤ p.PARAM_OMEGA_E) (hw2 : weight ≤ 65536)
    (he : ∀ i, i < weight → a1.getD i 0 < p.PARAM_N)
    (hb : ∀ k, a2.getD k 0 < 2 ^ 64) (hl : a2.length = VEC_N_SIZE_64 p) :
    (vect_mul p a1 a2 weight ctx).1.length = VEC_N_SIZE_64 p ∧
    (∀ i, (vect_mul p a1 a2 weight ctx).1.getD i 0 < 2 ^ 64) ∧
    ∀ k, bit64 (vect_mul p a1 a2 weight ctx).1 k =
      (decide (k < p.PARAM_N) &&
        (conv_bit a1 a2 weight k ^^ conv_bit a1 a2 weight (k + p.PARAM_N))) := by
  unfold vect_mul
  simp only []
  obtain ⟨_, h2, h3⟩ := fast_convolution_mult_spec p
    (List.replicate ((VEC_N_SIZE_64 p <<< 1) + 1) 0) a1 a2 weight ctx hw hw2 he hb hl
    (by rw [List.length_replicate, Nat.shiftLeft_eq]; omega)
  refine ⟨length_reduce _ _, reduce_bounded _ _ h2, ?_⟩
  intro k
  rw [reduce_bit _ _ _ hn h2, h3, h3, bit64_replicate_zero, bit64_replicate_zero,
    Bool.false_xor, Bool.false_xor]

theorem term_fold_eq_rotl (a2 : List Nat) (n e k : Nat) (hb : ∀ i, a2.getD i 0 < 2 ^ 64)
    (hc : val64 a2 < 2 ^ n) (he : e < n) :
    (decide (k < n) && (term_bit a2 e k ^^ term_bit a2 e (k + n))) =
      (rotl n e (val64 a2)).testBit k := by
  rw [testBit_rotl]
  unfold term_bit
  rw [testBit_val64 _ _ hb, testBit_val64 _ _ hb]
  by_cases hk : k < n
  · rw [decide_eq_true hk, Bool.true_and, Bool.true_and,
      decide_eq_true (show e ≤ k + n by omega), Bool.true_and]
    by_cases hek : e ≤ k
    · rw [bit64_of_val64_lt a2 n (k + n - e) hb hc (by omega),
        bit64_of_val64_lt a2 n (n - e + k) hb hc (by omega)]
      simp
    · rw [decide_eq_false hek, show k + n - e = n - e + k by omega]
      simp
  · rw [decide_eq_false hk, Bool.false_and, Bool.false_and]

theorem conv_fold_eq_ref (n : Nat) (a1 a2 : List Nat) (weight k : Nat)
    (he : ∀ i, i < weight → a1.getD i 0 < n)
    (hb : ∀ i, a2.getD i 0 < 2 ^ 64) (hc : val64 a2 < 2 ^ n) :
    (decide (k < n) && (conv_bit a1 a2 weight k ^^ conv_bit a1 a2 weight (k + n))) =
      (sparse_mul_ref n a1 weight (val64 a2)).testBit k := by
  unfold sparse_mul_ref conv_bit
  rw [testBit_foldl_xor, Nat.zero_testBit, Bool.false_xor, xor_fold_xor, xor_fold_and]
  apply xor_fold_congr
  intro i hi
  exact term_fold_eq_rotl a2 n _ k hb hc (he i (List.mem_range.mp hi))

theorem vect_mul_eq_ref (p : Params) (a1 a2 : List Nat) (weight : Nat) (ctx : seedexpander_state)
    (hn : p.PARAM_N % 64 ≠ 0) (hw : weight ≤ p.PARAM_OMEGA_E) (hw2 : weight ≤ 65536)
    (he : ∀ i, i < weight → a1.getD i 0 < p.PARAM_N)
    (hb : ∀ k, a2.getD k 0 < 2 ^ 64) (hl : a2.length = VEC_N_SIZE_64 p)
    (hc : val64 a2 < 2 ^ p.PARAM_N) :
    (vect_mul p a1 a2 weight ctx).1 =
      to_words (VEC_N_SIZE_64 p) (sparse_mul_ref p.PARAM_N a1 weight (val64 a2)) := by
  obtain ⟨h1, h2, h3⟩ := vect_mul_bit p a1 a2 weight ctx hn hw hw2 he hb hl
  apply eq_to_words _ _ _ h1 h2
  intro k _
  rw [h3, conv_fold_eq_ref _ _ _ _ _ he hb hc]

theorem reduce_ref_eq (n len x : Nat) :
    reduce_ref n len x =
      (List.range len).foldl (fun acc q => acc ^^^ (if x.testBit q then 2 ^ (q % n) else 0)) 0 := by
  unfold reduce_ref
  congr 1
  funext acc q
  split <;> simp

theorem testBit_reduce_ref (n len x k : Nat) :
    (reduce_ref n len x).testBit k =
      xor_fold (fun q => x.testBit q && decide (q % n = k)) (List.range len) := by
  rw [reduce_ref_eq, testBit_foldl_xor, Nat.zero_testBit, Bool.false_xor]
  apply xor_fold_congr
  intro q _
  by_cases hq : x.testBit q = true
  · rw [if_pos hq, hq, Nat.testBit_two_pow, Bool.true_and]
  · rw [if_neg hq, Nat.zero_testBit]
    simp [hq]

theorem mod_eq_iff_of_lt_two_mul (n q k : Nat) (hk : k < n) (hq : q < 2 * n) :
    q % n = k ↔ (q = k ∨ q = k + n) := by
  by_cases h : q < n
  · rw [Nat.mod_eq_of_lt h]
    omega
  · have e : q % n = q - n := by
      rw [Nat.mod_eq_sub_mod (by omega), Nat.mod_eq_of_lt (by omega)]
    rw [e]
    omega

theorem reduce_ref_fold (n x k : Nat) (hk : k < n) (hx : x < 2 ^ (2 * n)) (len : Nat) :
    xor_fold (fun q => x.testBit q && decide (q % n = k)) (List.range len) =
      ((decide (k < len) && x.testBit k) ^^ (decide (k + n < len) && x.testBit (k + n))) := by
  induction len with
  | zero => simp [xor_fold_nil]
  | succ m ih =>
    rw [xor_fold_range_succ, ih]
    by_cases hm : m < 2 * n
    · by_cases h1 : m = k
      · subst h1
        rw [decide_eq_true ((mod_eq_iff_of_lt_two_mul n m m hk hm).mpr (Or.inl rfl)),
          decide_eq_false (show ¬ m < m by omega), decide_eq_true (show m < m + 1 by omega),
          decide_eq_false (show ¬ m + n < m by omega),
          decide_eq_false (show ¬ m + n < m + 1 by omega)]
        simp
      · by_cases h2 : m = k + n
        · subst h2
          rw [decide_eq_true ((mod_eq_iff_of_lt_two_mul n (k + n) k hk hm).mpr (Or.inr rfl)),
            decide_eq_true (show k < k + n by omega),
            decide_eq_true (show k < k + n + 1 by omega),
            decide_eq_false (show ¬ k + n < k + n by omega),
            decide_eq_true (show k + n < k + n + 1 by omega)]
          simp
        · have hne : ¬ m % n = k := fun h =>
            ((mod_eq_iff_of_lt_two_mul n m k hk hm).mp h).elim h1 h2
          have d1 : decide (k < m + 1) = decide (k < m) := decide_eq_decide.mpr (by omega)
          have d2 : decide (k + n < m + 1) = decide (k + n < m) := decide_eq_decide.mpr (by omega)
          rw [decide_eq_false hne, d1, d2]
          simp
    · have hz : x.testBit m = false :=
        Nat.testBit_lt_two_pow (lt_of_lt_of_le hx (Nat.pow_le_pow_right (by norm_num) (by omega)))
      have d1 : decide (k < m + 1) = decide (k < m) := decide_eq_decide.mpr (by omega)
      have d2 : decide (k + n < m + 1) = decide (k + n < m) := decide_eq_decide.mpr (by omega)
      rw [hz, d1, d2]
      simp

theorem reduce_ref_high (n len x k : Nat) (hn : 0 < n) (hk : n ≤ k) :
    (reduce_ref n len x).testBit k = false := by
  rw [testBit_reduce_ref]
  have : xor_fold (fun q => x.testBit q && decide (q % n = k)) (List.range len) =
      xor_fold (fun _ => false) (List.range len) := by
    apply xor_fold_congr
    intro q _
    have : ¬ q % n = k := by
      have := Nat.mod_lt q hn
      omega
    rw [decide_eq_false this, Bool.and_false]
  rw [this]
  clear this
  induction len with
  | zero => rfl
  | succ m ih => rw [xor_fold_range_succ, ih]; rfl

theorem getD_lt_of_forall_mem (l : List Nat) (B : Nat) (hB : 0 < B) (h : ∀ w ∈ l, w < B) :
    ∀ k, l.getD k 0 < B := by
  intro k
  by_cases hk : k < l.length
  · rw [getD_eq_getElem_of_lt _ _ hk]
    exact h _ (List.getElem_mem _)
  · rw [getD_of_length_le _ _ (by omega)]
    exact hB

theorem forall_mem_of_getD_lt (l : List Nat) (B : Nat) (h : ∀ k, l.getD k 0 < B) :
    ∀ w ∈ l, w < B := by
  intro w hw
  obtain ⟨i, hi, rfl⟩ := List.getElem_of_mem hw
  rw [← getD_eq_getElem_of_lt _ _ hi]
  exact h i

theorem canonical_bounded (p : Params) (v : List Nat) (h : is_canonical p v) :
    ∀ k, v.getD k 0 < 2 ^ 64 :=
  getD_lt_of_forall_mem v _ (by norm_num) h.2.1

theorem vect_mul_ref_of_contract (p : Params) (a1 a2 : List Nat) (weight : Nat)
    (ctx : seedexpander_state) (hn : p.PARAM_N % 64 ≠ 0) (ha1 : sparse_ok p a1 weight)
    (ha2 : is_canonical p a2) :
    (vect_mul p a1 a2 weight ctx).1 =
      to_words (VEC_N_SIZE_64 p) (sparse_mul_ref p.PARAM_N a1 weight (val64 a2)) :=
  vect_mul_eq_ref p a1 a2 weight ctx hn ha1.1 (by have := ha1.2.1; omega) ha1.2.2
    (canonical_bounded p a2 ha2) ha2.1 ha2.2.2

theorem list_eq_of_bit64 (l1 l2 : List Nat) (W : Nat) (h1 : l1.length = W) (h2 : l2.length = W)
    (b1 : ∀ i, l1.getD i 0 < 2 ^ 64) (b2 : ∀ i, l2.getD i 0 < 2 ^ 64)
    (h : ∀ k, bit64 l1 k = bit64 l2 k) : l1 = l2 := by
  rw [eq_to_words l1 W (val64 l2) h1 b1 (fun k _ => by rw [h k, testBit_val64 _ _ b2]),
    ← eq_to_words l2 W (val64 l2) h2 b2 (fun k _ => by rw [testBit_val64 _ _ b2])]

theorem length_vect_add (u v : List Nat) (W : Nat) : (vect_add u v W).length = W := by
  simp [vect_add]

theorem bounded_vect_add (u v : List Nat) (W : Nat) (bu : ∀ i, u.getD i 0 < 2 ^ 64)
    (bv : ∀ i, v.getD i 0 < 2 ^ 64) : ∀ i, (vect_add u v W).getD i 0 < 2 ^ 64 := by
  intro i
  unfold vect_add
  rw [getD_map_range]
  split
  · exact Nat.xor_lt_two_pow (bu i) (bv i)
  · norm_num

theorem bit64_vect_add (u v : List Nat) (W k : Nat) :
    bit64 (vect_add u v W) k = (decide (k / 64 < W) && (bit64 u k ^^ bit64 v k)) := by
  unfold bit64 vect_add
  rw [getD_map_range]
  by_cases h : k / 64 < W
  · rw [if_pos h, Nat.testBit_xor, decide_eq_true h, Bool.true_and]
  · rw [if_neg h, decide_eq_false h, Bool.false_and, Nat.zero_testBit]

theorem bit64_vect_add_of_length (u v : List Nat) (W k : Nat) (hu : u.length = W)
    (hv : v.length = W) : bit64 (vect_add u v W) k = (bit64 u k ^^ bit64 v k) := by
  rw [bit64_vect_add]
  by_cases h : k / 64 < W
  · rw [decide_eq_true h, Bool.true_and]
  · rw [decide_eq_false h, Bool.false_and, bit64_out_of_range u k (by omega),
      bit64_out_of_range v k (by omega)]
    rfl

theorem conv_bit_vect_add (a b c : List Nat) (W weight k : Nat) (hb : b.length = W)
    (hc : c.length = W) :
    conv_bit a (vect_add b c W) weight k = (conv_bit a b weight k ^^ conv_bit a c weight k) := by
  unfold conv_bit
  rw [xor_fold_xor]
  apply xor_fold_congr
  intro i _
  unfold term_bit
  rw [bit64_vect_add_of_length _ _ _ _ hb hc]
  cases decide (a.getD i 0 ≤ k) <;> simp

theorem bounded_xor_row (p : Params) (table : List Nat) (pt : Nat) (r : List Nat) (s : Nat)
    (hb : ∀ i, r.getD i 0 < 65536) : ∀ i, (xor_row p table pt r s).getD i 0 < 65536 := by
  unfold xor_row
  exact foldl_range_inv (fun (r' : List Nat) => ∀ i, r'.getD i 0 < 65536) _ _ _ hb
    (fun j _ r' hr' => bounded_store64 _ _ _ hr')

theorem bounded_accumulate (p : Params) (table pt psv a1 : List Nat) (weight : Nat)
    (r : List Nat) (hb : ∀ i, r.getD i 0 < 65536) :
    ∀ i, (accumulate p table pt psv a1 weight r).getD i 0 < 65536 := by
  unfold accumulate
  exact foldl_range_inv (fun (r' : List Nat) => ∀ i, r'.getD i 0 < 65536) _ _ _ hb
    (fun j _ r' hr' => bounded_xor_row _ _ _ _ _ hr')

theorem bounded_fast_convolution_mult (p : Params) (o a1 a2 : List Nat) (weight : Nat)
    (ctx : seedexpander_state) :
    ∀ i, (fast_convolution_mult p o a1 a2 weight ctx).1.getD i 0 < 2 ^ 64 := by
  unfold fast_convolution_mult
  exact bounded_as_u64 _ (bounded_accumulate _ _ _ _ _ _ _ (bounded_as_u16 o))

theorem reduce_canonical (p : Params) (a : List Nat) (ha : ∀ i, a.getD i 0 < 2 ^ 64) :
    is_canonical p (reduce p a) :=
  ⟨length_reduce p a, forall_mem_of_getD_lt _ _ (reduce_bounded p a ha),
    val64_lt _ _ (reduce_bounded p a ha) (fun k hk => reduce_high_bits p a k hk)⟩

theorem vect_mul_canonical (p : Params) (a1 a2 : List Nat) (weight : Nat)
    (ctx : seedexpander_state) : is_canonical p (vect_mul p a1 a2 weight ctx).1 := by
  unfold vect_mul
  exact reduce_canonical p _ (bounded_fast_convolution_mult p _ a1 a2 weight ctx)

theorem add_sub_mod_of_le (n e k : Nat) (hk : k < n) (hek : e ≤ k) :
    (k + n - e) % n = k - e := by
  rw [show k + n - e = (k - e) + n by omega, Nat.add_mod_right, Nat.mod_eq_of_lt (by omega)]

theorem add_sub_mod_of_lt (n e k : Nat) (he : e < n) (hek : k < e) :
    (k + n - e) % n = n - e + k := by
  rw [Nat.mod_eq_of_lt (by omega)]
  omega

theorem vect_mul_ctx_indep (p : Params) (a1 a2 : List Nat) (weight : Nat)
    (ctx ctx' : seedexpander_state)
    (hn : p.PARAM_N % 64 ≠ 0) (hw : weight ≤ p.PARAM_OMEGA_E) (hw2 : weight ≤ 65536)
    (he : ∀ i, i < weight → a1.getD i 0 < p.PARAM_N)
    (hb : ∀ k, a2.getD k 0 < 2 ^ 64) (hl : a2.length = VEC_N_SIZE_64 p) :
    (vect_mul p a1 a2 weight ctx).1 = (vect_mul p a1 a2 weight ctx').1 := by
  obtain ⟨l1, b1, e1⟩ := vect_mul_bit p a1 a2 weight ctx hn hw hw2 he hb hl
  obtain ⟨l2, b2, e2⟩ := vect_mul_bit p a1 a2 weight ctx' hn hw hw2 he hb hl
  exact list_eq_of_bit64 _ _ _ l1 l2 b1 b2 (fun k => by rw [e1, e2])

theorem getD_memcpy (dst : List Nat) (doff : Nat) (src : List Nat) (soff count k : Nat) :
    (memcpy dst doff src soff count).getD k 0 =
      if doff ≤ k ∧ k < doff + count ∧ k < dst.length then src.getD (soff + (k - doff)) 0
      else dst.getD k 0 := by
  unfold memcpy
  exact getD_foldl_set count doff (fun i => src.getD (soff + i) 0) dst k

theorem length_memcpy (dst : List Nat) (doff : Nat) (src : List Nat) (soff count : Nat) :
    (memcpy dst doff src soff count).length = dst.length := by
  unfold memcpy
  exact length_foldl_set count doff (fun i => src.getD (soff + i) 0) dst

theorem getD_sparse_lo (p : Params) (a1 : List Nat) (k : Nat) :
    (sparse_lo p a1).getD k 0 = if k < p.PARAM_OMEGA / 2 then a1.getD k 0 else 0 := by
  unfold sparse_lo
  rw [getD_memcpy, List.length_replicate, getD_replicate_zero]
  by_cases h : k < p.PARAM_OMEGA / 2
  · rw [if_pos ⟨by omega, by omega, by omega⟩, if_pos h]
    congr 1
    omega
  · rw [if_neg (by omega), if_neg h]

theorem getD_sparse_hi (p : Params) (a1 : List Nat) (k : Nat) :
    (sparse_hi p a1).getD k 0 =
      if p.PARAM_OMEGA / 2 ≤ k ∧ k < p.PARAM_OMEGA then a1.getD k 0 else 0 := by
  unfold sparse_hi
  rw [getD_memcpy, List.length_replicate, getD_replicate_zero]
  by_cases h : p.PARAM_OMEGA / 2 ≤ k ∧ k < p.PARAM_OMEGA
  · rw [if_pos ⟨by omega, by omega, by omega⟩, if_pos h]
    congr 1
    omega
  · rw [if_neg (by omega), if_neg h]

theorem getD_dense_lo (p : Params) (a2 : List Nat) (k : Nat) :
    (dense_lo p a2).getD k 0 = if k < VEC_N_SIZE_64 p / 2 then a2.getD k 0 else 0 := by
  unfold dense_lo
  rw [getD_memcpy, List.length_replicate, getD_replicate_zero]
  by_cases h : k < VEC_N_SIZE_64 p / 2
  · rw [if_pos ⟨by omega, by omega, by omega⟩, if_pos h]
    congr 1
    omega
  · rw [if_neg (by omega), if_neg h]

theorem getD_dense_hi (p : Params) (a2 : List Nat) (k : Nat) :
    (dense_hi p a2).getD k 0 =
      if VEC_N_SIZE_64 p / 2 ≤ k ∧ k < VEC_N_SIZE_64 p then a2.getD k 0 else 0 := by
  unfold dense_hi
  rw [getD_memcpy, List.length_replicate, getD_replicate_zero]
  by_cases h : VEC_N_SIZE_64 p / 2 ≤ k ∧ k < VEC_N_SIZE_64 p
  · rw [if_pos ⟨by omega, by omega, by omega⟩, if_pos h]
    congr 1
    omega
  · rw [if_neg (by omega), if_neg h]

theorem length_dense_lo (p : Params) (a2 : List Nat) :
    (dense_lo p a2).length = VEC_N_SIZE_64 p := by
  unfold dense_lo
  rw [length_memcpy, List.length_replicate]

theorem length_dense_hi (p : Params) (a2 : List Nat) :
    (dense_hi p a2).length = VEC_N_SIZE_64 p := by
  unfold dense_hi
  rw [length_memcpy, List.length_replicate]

theorem bounded_dense_lo (p : Params) (a2 : List Nat) (hb : ∀ k, a2.getD k 0 < 2 ^ 64) :
    ∀ k, (dense_lo p a2).getD k 0 < 2 ^ 64 := by
  intro k
  rw [getD_dense_lo]
  split
  · exact hb k
  · norm_num

theorem bounded_dense_hi (p : Params) (a2 : List Nat) (hb : ∀ k, a2.getD k 0 < 2 ^ 64) :
    ∀ k, (dense_hi p a2).getD k 0 < 2 ^ 64 := by
  intro k
  rw [getD_dense_hi]
  split
  · exact hb k
  · norm_num

theorem sparse_lo_in_range (p : Params) (a1 : List Nat) (hn : 0 < p.PARAM_N)
    (he : ∀ i, i < p.PARAM_OMEGA → a1.getD i 0 < p.PARAM_N) :
    ∀ i, i < p.PARAM_OMEGA → (sparse_lo p a1).getD i 0 < p.PARAM_N := by
  intro i hi
  rw [getD_sparse_lo]
  split
  · exact he i hi
  · exact hn

theorem sparse_hi_in_range (p : Params) (a1 : List Nat) (hn : 0 < p.PARAM_N)
    (he : ∀ i, i < p.PARAM_OMEGA → a1.getD i 0 < p.PARAM_N) :
    ∀ i, i < p.PARAM_OMEGA → (sparse_hi p a1).getD i 0 < p.PARAM_N := by
  intro i hi
  rw [getD_sparse_hi]
  split
  · exact he i hi
  · exact hn

theorem safe_mul_ctx_indep (p : Params) (mask0 a1 a2 : List Nat) (weight : Nat)
    (ctx ctx' : seedexpander_state) (hn : p.PARAM_N % 64 ≠ 0)
    (ha1 : sparse_ok p a1 p.PARAM_OMEGA)
    (hb : ∀ k, a2.getD k 0 < 2 ^ 64) :
    (safe_mul p mask0 a1 a2 weight ctx).1 = (safe_mul p mask0 a1 a2 weight ctx').1 := by
  have hw2 : p.PARAM_OMEGA ≤ 65536 := by have := ha1.2.1; omega
  have hpos : 0 < p.PARAM_N := by omega
  have hi := sparse_hi_in_range p a1 hpos ha1.2.2
  have lo := sparse_lo_in_range p a1 hpos ha1.2.2
  have k1 : ∀ c c', (vect_mul p (sparse_hi p a1) (dense_lo p a2) p.PARAM_OMEGA c).1 =
      (vect_mul p (sparse_hi p a1) (dense_lo p a2) p.PARAM_OMEGA c').1 := fun c c' =>
    vect_mul_ctx_indep p _ _ _ c c' hn ha1.1 hw2 hi (bounded_dense_lo p a2 hb)
      (length_dense_lo p a2)
  have k2 : ∀ c c', (vect_mul p (sparse_lo p a1) (dense_hi p a2) p.PARAM_OMEGA c).1 =
      (vect_mul p (sparse_lo p a1) (dense_hi p a2) p.PARAM_OMEGA c').1 := fun c c' =>
    vect_mul_ctx_indep p _ _ _ c c' hn ha1.1 hw2 lo (bounded_dense_hi p a2 hb)
      (length_dense_hi p a2)
  have k3 : ∀ c c', (vect_mul p (sparse_hi p a1) (dense_hi p a2) p.PARAM_OMEGA c).1 =
      (vect_mul p (sparse_hi p a1) (dense_hi p a2) p.PARAM_OMEGA c').1 := fun c c' =>
    vect_mul_ctx_indep p _ _ _ c c' hn ha1.1 hw2 hi (bounded_dense_hi p a2 hb)
      (length_dense_hi p a2)
  have k4 : ∀ c c', (vect_mul p (sparse_lo p a1) (dense_lo p a2) p.PARAM_OMEGA c).1 =
      (vect_mul p (sparse_lo p a1) (dense_lo p a2) p.PARAM_OMEGA c').1 := fun c c' =>
    vect_mul_ctx_indep p _ _ _ c c' hn ha1.1 hw2 lo (bounded_dense_lo p a2 hb)
      (length_dense_lo p a2)
  unfold safe_mul
  simp only []
  rw [k1 ctx ctx', k2 _ (vect_mul p (sparse_hi p a1) (dense_lo p a2) p.PARAM_OMEGA ctx').2,
    k3 _ (vect_mul p (sparse_lo p a1) (dense_hi p a2) p.PARAM_OMEGA
      (vect_mul p (sparse_hi p a1) (dense_lo p a2) p.PARAM_OMEGA ctx').2).2,
    k4 _ (vect_mul p (sparse_hi p a1) (dense_hi p a2) p.PARAM_OMEGA
      (vect_mul p (sparse_lo p a1) (dense_hi p a2) p.PARAM_OMEGA
        (vect_mul p (sparse_hi p a1) (dense_lo p a2) p.PARAM_OMEGA ctx').2).2).2]

set_option maxRecDepth 1000000 in
theorem safe_mul_toy70_eval :
    vect_add (safe_mul toy70 [7, 0] [69, 3, 64] [0x8000000000000001, 0x21] 3 sample_ctx).1.o
        (safe_mul toy70 [7, 0] [69, 3, 64] [0x8000000000000001, 0x21] 3 sample_ctx).1.mask 2 =
      [14267403619509731341, 28] ∧
    (vect_mul toy70 [69, 3, 64] [0x8000000000000001, 0x21] 3 sample_ctx).1 =
      [5044031582654955532, 61] := by
  decide

theorem list_eq_of_getD (l1 l2 : List Nat) (hl : l1.length = l2.length)
    (h : ∀ i, l1.getD i 0 = l2.getD i 0) : l1 = l2 := by
  apply List.ext_getElem hl
  intro i h1 h2
  rw [← getD_eq_getElem_of_lt l1 i h1, ← getD_eq_getElem_of_lt l2 i h2]
  exact h i

theorem accumulate_zero_weight (p : Params) (table pt psv a1 r : List Nat) :
    accumulate p table pt psv a1 0 r = r := rfl

theorem shuffle_sparse_zero_weight (p : Params) (rnd : List Nat) :
    shuffle_sparse p 0 rnd = List.replicate p.PARAM_OMEGA_E 0 := rfl

theorem fold_word_zero (p : Params) (a : List Nat) (i : Nat) (ha : ∀ k, a.getD k 0 = 0) :
    fold_word p a i = 0 := by
  unfold fold_word
  rw [ha, ha, ha]
  simp

theorem reduce_zero (p : Params) (a : List Nat) (ha : ∀ k, a.getD k 0 = 0) :
    reduce p a = List.replicate (VEC_N_SIZE_64 p) 0 := by
  apply list_eq_of_getD
  · rw [length_reduce, List.length_replicate]
  · intro i
    rw [getD_reduce, getD_replicate_zero, fold_word_zero p a i ha]
    split
    · split
      · simp
      · rfl
    · rfl

theorem getD_as_u16_zero (ws : List Nat) (hz : ∀ k, ws.getD k 0 = 0) :
    ∀ k, (as_u16 ws).getD k 0 = 0 := by
  intro k
  unfold as_u16
  rw [getD_map_range, hz]
  split <;> simp

theorem getD_as_u64_zero (hs : List Nat) (hz : ∀ k, hs.getD k 0 = 0) :
    ∀ k, (as_u64 hs).getD k 0 = 0 := by
  intro k
  rw [getD_as_u64]
  unfold load64
  rw [hz, hz, hz, hz]
  split <;> simp

theorem vect_mul_zero_weight_eq (p : Params) (a1 a2 : List Nat) (ctx : seedexpander_state) :
    (vect_mul p a1 a2 0 ctx).1 = List.replicate (VEC_N_SIZE_64 p) 0 := by
  unfold vect_mul fast_convolution_mult
  simp only []
  rw [accumulate_zero_weight]
  exact reduce_zero p _ (getD_as_u64_zero _ (getD_as_u16_zero _ (fun k => getD_replicate_zero _ k)))

theorem safe_mul_shares_eq (p : Params) (mask0 a1 a2 : List Nat) (weight : Nat)
    (ctx c1 c2 c3 c4 : seedexpander_state) (hn : p.PARAM_N % 64 ≠ 0)
    (ha1 : sparse_ok p a1 p.PARAM_OMEGA) (hb : ∀ k, a2.getD k 0 < 2 ^ 64) :
    (safe_mul p mask0 a1 a2 weight ctx).1.o =
      vect_add (vect_add (vect_add mask0
        (vect_mul p (sparse_hi p a1) (dense_lo p a2) p.PARAM_OMEGA c1).1 (VEC_N_SIZE_64 p))
        (vect_mul p (sparse_lo p a1) (dense_hi p a2) p.PARAM_OMEGA c2).1 (VEC_N_SIZE_64 p))
        (vect_mul p (sparse_lo p a1) (dense_lo p a2) p.PARAM_OMEGA c4).1 (VEC_N_SIZE_64 p) ∧
    (safe_mul p mask0 a1 a2 weight ctx).1.mask =
      vect_add mask0 (vect_mul p (sparse_hi p a1) (dense_hi p a2) p.PARAM_OMEGA c3).1
        (VEC_N_SIZE_64 p) := by
  have hw2 : p.PARAM_OMEGA ≤ 65536 := by have := ha1.2.1; omega
  have hpos : 0 < p.PARAM_N := by omega
  have hi := sparse_hi_in_range p a1 hpos ha1.2.2
  have lo := sparse_lo_in_range p a1 hpos ha1.2.2
  have k1 : ∀ c, (vect_mul p (sparse_hi p a1) (dense_lo p a2) p.PARAM_OMEGA c).1 =
      (vect_mul p (sparse_hi p a1) (dense_lo p a2) p.PARAM_OMEGA c1).1 := fun c =>
    vect_mul_ctx_indep p _ _ _ c c1 hn ha1.1 hw2 hi (bounded_dense_lo p a2 hb)
      (length_dense_lo p a2)
  have k2 : ∀ c, (vect_mul p (sparse_lo p a1) (dense_hi p a2) p.PARAM_OMEGA c).1 =
      (vect_mul p (sparse_lo p a1) (dense_hi p a2) p.PARAM_OMEGA c2).1 := fun c =>
    vect_mul_ctx_indep p _ _ _ c c2 hn ha1.1 hw2 lo (bounded_dense_hi p a2 hb)
      (length_dense_hi p a2)
  have k3 : ∀ c, (vect_mul p (sparse_hi p a1) (dense_hi p a2) p.PARAM_OMEGA c).1 =
      (vect_mul p (sparse_hi p a1) (dense_hi p a2) p.PARAM_OMEGA c3).1 := fun c =>
    vect_mul_ctx_indep p _ _ _ c c3 hn ha1.1 hw2 hi (bounded_dense_hi p a2 hb)
      (length_dense_hi p a2)
  have k4 : ∀ c, (vect_mul p (sparse_lo p a1) (dense_lo p a2) p.PARAM_OMEGA c).1 =
      (vect_mul p (sparse_lo p a1) (dense_lo p a2) p.PARAM_OMEGA c4).1 := fun c =>
    vect_mul_ctx_indep p _ _ _ c c4 hn ha1.1 hw2 lo (bounded_dense_lo p a2 hb)
      (length_dense_lo p a2)
  unfold safe_mul
  simp only []
  rw [k1 ctx, k2 _, k3 _, k4 _]
  exact ⟨rfl, rfl⟩

theorem testBit_mod_two_pow_of_lt (x m q : Nat) (hq : q < m) :
    (x % 2 ^ m).testBit q = x.testBit q := by
  rw [Nat.testBit_mod_two_pow, decide_eq_true hq, Bool.true_and]

theorem reduce_ref_fold_le (n x k : Nat) (hk : k < n) (len : Nat) (hlen : len ≤ 2 * n) :
    xor_fold (fun q => x.testBit q && decide (q % n = k)) (List.range len) =
      ((decide (k < len) && x.testBit k) ^^ (decide (k + n < len) && x.testBit (k + n))) := by
  have hx : x % 2 ^ (2 * n) < 2 ^ (2 * n) := Nat.mod_lt _ (Nat.pos_pow_of_pos _ (by norm_num))
  have hfold := reduce_ref_fold n (x % 2 ^ (2 * n)) k hk hx len
  have hcongr : xor_fold (fun q => x.testBit q && decide (q % n = k)) (List.range len) =
      xor_fold (fun q => (x % 2 ^ (2 * n)).testBit q && decide (q % n = k)) (List.range len) := by
    apply xor_fold_congr
    intro q hq
    rw [testBit_mod_two_pow_of_lt _ _ _ (by have := List.mem_range.mp hq; omega)]
  rw [hcongr, hfold]
  by_cases h1 : k < len
  · rw [testBit_mod_two_pow_of_lt _ _ _ (by omega)]
    by_cases h2 : k + n < len
    · rw [testBit_mod_two_pow_of_lt _ _ _ (by omega)]
    · rw [decide_eq_false h2, Bool.false_and, Bool.false_and]
  · rw [decide_eq_false h1, decide_eq_false (show ¬ k + n < len by omega)]
    simp

theorem reduce_eq_ref_below (p : Params) (a : List Nat) (hn : p.PARAM_N % 64 ≠ 0)
    (hb : ∀ i, a.getD i 0 < 2 ^ 64) :
    reduce p a = to_words (VEC_N_SIZE_64 p) (reduce_ref p.PARAM_N (2 * p.PARAM_N) (val64 a)) := by
  apply eq_to_words _ _ _ (length_reduce p a) (reduce_bounded p a hb)
  intro k _
  rw [reduce_bit p a k hn hb]
  by_cases hk : k < p.PARAM_N
  · rw [decide_eq_true hk, Bool.true_and, testBit_reduce_ref,
      reduce_ref_fold_le _ _ _ hk _ (le_refl _), decide_eq_true (show k < 2 * p.PARAM_N by omega),
      decide_eq_true (show k + p.PARAM_N < 2 * p.PARAM_N by omega), Bool.true_and,
      Bool.true_and, testBit_val64 _ _ hb, testBit_val64 _ _ hb]
  · rw [decide_eq_false hk, Bool.false_and, reduce_ref_high _ _ _ _ (by omega) (by omega)]

theorem reduce_ref_len_irrelevant (n x len : Nat) (hn : 0 < n) (hx : x < 2 ^ (2 * n))
    (hlen : 2 * n ≤ len) : reduce_ref n len x = reduce_ref n (2 * n) x := by
  apply Nat.eq_of_testBit_eq
  intro k
  by_cases hk : k < n
  · rw [testBit_reduce_ref, testBit_reduce_ref, reduce_ref_fold _ _ _ hk hx,
      reduce_ref_fold _ _ _ hk hx, decide_eq_true (show k < len by omega),
      decide_eq_true (show k + n < len by omega), decide_eq_true (show k < 2 * n by omega),
      decide_eq_true (show k + n < 2 * n by omega)]
  · rw [reduce_ref_high _ _ _ _ hn (by omega), reduce_ref_high _ _ _ _ hn (by omega)]

theorem val64_to_words (m x : Nat) (hx : x < 2 ^ (64 * m)) : val64 (to_words m x) = x := by
  apply Nat.eq_of_testBit_eq
  intro k
  rw [testBit_val64 _ _ (bounded_to_words m x), bit64_to_words]
  by_cases hk : k < 64 * m
  · rw [decide_eq_true hk, Bool.true_and]
  · rw [decide_eq_false hk, Bool.false_and,
      Nat.testBit_lt_two_pow (lt_of_lt_of_le hx (Nat.pow_le_pow_right (by norm_num) (by omega)))]

theorem to_words_zero (W : Nat) : to_words W 0 = List.replicate W 0 := by
  apply list_eq_of_getD
  · rw [length_to_words, List.length_replicate]
  · intro i
    unfold to_words
    rw [getD_map_range, getD_replicate_zero]
    split <;> simp

theorem reduce_ref_two_pow (n : Nat) (hn : 0 < n) : reduce_ref n (2 * n) (2 ^ (2 * n)) = 0 := by
  apply Nat.eq_of_testBit_eq
  intro k
  rw [Nat.zero_testBit]
  by_cases hk : k < n
  · rw [testBit_reduce_ref, reduce_ref_fold_le _ _ _ hk _ (le_refl _), Nat.testBit_two_pow,
      Nat.testBit_two_pow, decide_eq_false (show ¬ 2 * n = k by omega),
      decide_eq_false (show ¬ 2 * n = k + n by omega)]
    simp
  · exact reduce_ref_high _ _ _ _ hn (by omega)

theorem reduce_two_pow (p : Params) (hn : p.PARAM_N % 64 ≠ 0) :
    reduce p (to_words (2 * VEC_N_SIZE_64 p + 1) (2 ^ (2 * p.PARAM_N))) =
      List.replicate (VEC_N_SIZE_64 p) 0 := by
  have hW : VEC_N_SIZE_64 p = (p.PARAM_N + 63) / 64 := rfl
  rw [reduce_eq_ref_below p _ hn (bounded_to_words _ _),
    val64_to_words _ _ (Nat.pow_lt_pow_right (by norm_num) (by omega)),
    reduce_ref_two_pow _ (by omega), to_words_zero]

theorem xor_fold_false (f : Nat → Bool) (l : List Nat) (h : ∀ i, i ∈ l → f i = false) :
    xor_fold f l = false := by
  induction l with
  | nil => rfl
  | cons x xs ih =>
    rw [xor_fold_cons, h x (List.mem_cons_self _ _),
      ih (fun i hi => h i (List.mem_cons_of_mem _ hi))]
    rfl

theorem testBit_conv_ref (a1 a2 : List Nat) (weight k : Nat) (hb : ∀ i, a2.getD i 0 < 2 ^ 64) :
    (conv_ref a1 weight (val64 a2)).testBit k = conv_bit a1 a2 weight k := by
  unfold conv_ref conv_bit
  rw [testBit_foldl_xor, Nat.zero_testBit, Bool.false_xor]
  apply xor_fold_congr
  intro i _
  unfold term_bit
  rw [Nat.testBit_shiftLeft, testBit_val64 _ _ hb]

theorem conv_ref_lt (n : Nat) (a1 a2 : List Nat) (weight : Nat)
    (he : ∀ i, i < weight → a1.getD i 0 < n) (hb : ∀ i, a2.getD i 0 < 2 ^ 64)
    (hc : val64 a2 < 2 ^ n) : conv_ref a1 weight (val64 a2) < 2 ^ (2 * n) := by
  apply Nat.lt_pow_two_of_testBit
  intro k hk
  rw [testBit_conv_ref _ _ _ _ hb]
  unfold conv_bit
  apply xor_fold_false
  intro i hi
  have hi' := he i (List.mem_range.mp hi)
  unfold term_bit
  rw [bit64_of_val64_lt a2 n _ hb hc (by omega), Bool.and_false]

theorem fast_convolution_mult_val (p : Params) (o a1 a2 : List Nat) (weight : Nat)
    (ctx : seedexpander_state) (hw : weight ≤ p.PARAM_OMEGA_E) (hw2 : weight ≤ 65536)
    (he : ∀ i, i < weight → a1.getD i 0 < p.PARAM_N)
    (hb : ∀ k, a2.getD k 0 < 2 ^ 64) (hl : a2.length = VEC_N_SIZE_64 p)
    (ho : o.length = 2 * VEC_N_SIZE_64 p + 1) (hob : ∀ k, o.getD k 0 < 2 ^ 64) :
    val64 (fast_convolution_mult p o a1 a2 weight ctx).1 =
      val64 o ^^^ conv_ref a1 weight (val64 a2) := by
  obtain ⟨_, h2, h3⟩ := fast_convolution_mult_spec p o a1 a2 weight ctx hw hw2 he hb hl ho
  apply Nat.eq_of_testBit_eq
  intro k
  rw [testBit_val64 _ _ h2, h3, Nat.testBit_xor, testBit_val64 _ _ hob,
    testBit_conv_ref _ _ _ _ hb]

theorem val64_replicate_zero (m : Nat) : val64 (List.replicate m 0) = 0 := by
  apply Nat.eq_of_testBit_eq
  intro k
  rw [testBit_val64 _ _ (fun i => by rw [getD_replicate_zero]; norm_num),
    bit64_replicate_zero, Nat.zero_testBit]

theorem getD_table_slot (p : Params) (table : List Nat) (slot j : Nat) :
    (table_slot p table slot).getD j 0 =
      if j < VEC_N_SIZE_64 p + 1 then table.getD (slot * (VEC_N_SIZE_64 p + 1) + j) 0 else 0 := by
  unfold table_slot
  rw [getD_map_range]

theorem table_slot_val (p : Params) (pt a2 : List Nat) (i : Nat)
    (hpt : pt.Perm (List.range 16)) (hb : ∀ k, a2.getD k 0 < 2 ^ 64)
    (hl : a2.length = VEC_N_SIZE_64 p) (hi : i < 16) :
    val64 (table_slot p (build_table p pt a2) (pt.getD i 0)) = val64 a2 * 2 ^ i := by
  have hspec := (build_table_spec p pt a2 hpt hb hl).2 i hi
  have hbound : ∀ j, (table_slot p (build_table p pt a2) (pt.getD i 0)).getD j 0 < 2 ^ 64 := by
    intro j
    rw [getD_table_slot]
    split
    · rename_i hj
      apply Nat.lt_pow_two_of_testBit
      intro m hm
      rw [hspec j (by omega) m]
      unfold shifted_bit
      rw [decide_eq_false (show ¬ m < 64 by omega)]
      rfl
    · norm_num
  apply Nat.eq_of_testBit_eq
  intro k
  rw [testBit_val64 _ _ hbound, ← Nat.shiftLeft_eq, Nat.testBit_shiftLeft,
    testBit_val64 _ _ hb]
  have hlhs : bit64 (table_slot p (build_table p pt a2) (pt.getD i 0)) k =
      ((table_slot p (build_table p pt a2) (pt.getD i 0)).getD (k / 64) 0).testBit (k % 64) := rfl
  rw [hlhs, getD_table_slot]
  by_cases hk : k / 64 < VEC_N_SIZE_64 p + 1
  · rw [if_pos hk, hspec (k / 64) (by omega) (k % 64)]
    unfold shifted_bit
    rw [show 64 * (k / 64) + k % 64 = k by omega, decide_eq_true (show k % 64 < 64 by omega),
      Bool.true_and]
  · rw [if_neg hk, Nat.zero_testBit, bit64_out_of_range a2 (k - i) (by rw [hl]; omega),
      Bool.and_false]

theorem bit64_dense_lo (p : Params) (a2 : List Nat) (q : Nat) :
    bit64 (dense_lo p a2) q = (decide (q / 64 < VEC_N_SIZE_64 p / 2) && bit64 a2 q) := by
  unfold bit64
  rw [getD_dense_lo]
  by_cases h : q / 64 < VEC_N_SIZE_64 p / 2
  · rw [if_pos h, decide_eq_true h, Bool.true_and]
  · rw [if_neg h, decide_eq_false h, Bool.false_and, Nat.zero_testBit]

theorem bit64_dense_hi (p : Params) (a2 : List Nat) (q : Nat) :
    bit64 (dense_hi p a2) q =
      (decide (VEC_N_SIZE_64 p / 2 ≤ q / 64 ∧ q / 64 < VEC_N_SIZE_64 p) && bit64 a2 q) := by
  unfold bit64
  rw [getD_dense_hi]
  by_cases h : VEC_N_SIZE_64 p / 2 ≤ q / 64 ∧ q / 64 < VEC_N_SIZE_64 p
  · rw [if_pos h, decide_eq_true h, Bool.true_and]
  · rw [if_neg h, decide_eq_false h, Bool.false_and, Nat.zero_testBit]

theorem bit64_dense_split (p : Params) (a2 : List Nat) (q : Nat)
    (hl : a2.length = VEC_N_SIZE_64 p) :
    (bit64 (dense_lo p a2) q ^^ bit64 (dense_hi p a2) q) = bit64 a2 q := by
  rw [bit64_dense_lo, bit64_dense_hi]
  by_cases h1 : q / 64 < VEC_N_SIZE_64 p / 2
  · rw [decide_eq_true h1,
      decide_eq_false (show ¬ (VEC_N_SIZE_64 p / 2 ≤ q / 64 ∧ q / 64 < VEC_N_SIZE_64 p) by omega)]
    simp
  · by_cases h2 : q / 64 < VEC_N_SIZE_64 p
    · rw [decide_eq_false h1,
        decide_eq_true (show VEC_N_SIZE_64 p / 2 ≤ q / 64 ∧ q / 64 < VEC_N_SIZE_64 p by omega)]
      simp
    · rw [decide_eq_false h1,
        decide_eq_false (show ¬ (VEC_N_SIZE_64 p / 2 ≤ q / 64 ∧ q / 64 < VEC_N_SIZE_64 p) by
          omega), bit64_out_of_range a2 q (by rw [hl]; omega)]
      rfl

theorem conv_bit_dense_split (p : Params) (a a2 : List Nat) (weight k : Nat)
    (hl : a2.length = VEC_N_SIZE_64 p) :
    (conv_bit a (dense_lo p a2) weight k ^^ conv_bit a (dense_hi p a2) weight k) =
      conv_bit a a2 weight k := by
  unfold conv_bit
  rw [xor_fold_xor]
  apply xor_fold_congr
  intro i _
  unfold term_bit
  rw [← bit64_dense_split p a2 _ hl]
  cases decide (a.getD i 0 ≤ k) <;> simp

theorem xor_fold_const (c : Bool) (m : Nat) :
    xor_fold (fun _ => c) (List.range m) = (decide (m % 2 = 1) && c) := by
  induction m with
  | zero => rfl
  | succ m ih =>
    rw [xor_fold_range_succ, ih]
    by_cases h : m % 2 = 1
    · rw [decide_eq_true h, decide_eq_false (show ¬ (m + 1) % 2 = 1 by omega)]
      cases c <;> rfl
    · rw [decide_eq_false h, decide_eq_true (show (m + 1) % 2 = 1 by omega)]
      cases c <;> rfl

theorem term_bit_zero (a2 : List Nat) (k : Nat) : term_bit a2 0 k = bit64 a2 k := by
  unfold term_bit
  simp

theorem conv_bit_sparse_split (p : Params) (a1 a2 : List Nat) (k : Nat) :
    (conv_bit (sparse_hi p a1) a2 p.PARAM_OMEGA k ^^ conv_bit (sparse_lo p a1) a2 p.PARAM_OMEGA k) =
      (conv_bit a1 a2 p.PARAM_OMEGA k ^^ (decide (p.PARAM_OMEGA % 2 = 1) && bit64 a2 k)) := by
  rw [← xor_fold_const (bit64 a2 k) p.PARAM_OMEGA]
  unfold conv_bit
  rw [xor_fold_xor, xor_fold_xor]
  apply xor_fold_congr
  intro i hi
  have hi' := List.mem_range.mp hi
  rw [getD_sparse_hi, getD_sparse_lo]
  by_cases h : i < p.PARAM_OMEGA / 2
  · rw [if_pos h, if_neg (by omega), term_bit_zero, Bool.xor_comm]
  · rw [if_neg h, if_pos ⟨by omega, hi'⟩, term_bit_zero]

theorem bool_xor4_regroup (a b c d : Bool) : (((a ^^ b) ^^ c) ^^ d) = ((a ^^ d) ^^ (b ^^ c)) := by
  cases a <;> cases b <;> cases c <;> cases d <;> rfl

theorem conv_bit_four_products (p : Params) (a1 a2 : List Nat) (k : Nat)
    (hl : a2.length = VEC_N_SIZE_64 p) :
    (((conv_bit (sparse_hi p a1) (dense_lo p a2) p.PARAM_OMEGA k ^^
        conv_bit (sparse_lo p a1) (dense_hi p a2) p.PARAM_OMEGA k) ^^
        conv_bit (sparse_lo p a1) (dense_lo p a2) p.PARAM_OMEGA k) ^^
        conv_bit (sparse_hi p a1) (dense_hi p a2) p.PARAM_OMEGA k) =
      (conv_bit a1 a2 p.PARAM_OMEGA k ^^ (decide (p.PARAM_OMEGA % 2 = 1) && bit64 a2 k)) := by
  rw [bool_xor4_regroup, conv_bit_dense_split p _ a2 _ k hl,
    Bool.xor_comm (conv_bit (sparse_lo p a1) (dense_hi p a2) p.PARAM_OMEGA k),
    conv_bit_dense_split p _ a2 _ k hl, conv_bit_sparse_split]

theorem bool_recombine (m t1 t2 t3 t4 : Bool) :
    ((((m ^^ t1) ^^ t2) ^^ t4) ^^ (m ^^ t3)) = (((t1 ^^ t2) ^^ t4) ^^ t3) := by
  cases m <;> cases t1 <;> cases t2 <;> cases t3 <;> cases t4 <;> rfl

theorem bool_and_xor4 (c x1 x2 x3 x4 y1 y2 y3 y4 : Bool) :
    ((((c && (x1 ^^ y1)) ^^ (c && (x2 ^^ y2))) ^^ (c && (x4 ^^ y4))) ^^ (c && (x3 ^^ y3))) =
      (c && ((((x1 ^^ x2) ^^ x4) ^^ x3) ^^ (((y1 ^^ y2) ^^ y4) ^^ y3))) := by
  cases c <;> cases x1 <;> cases x2 <;> cases x3 <;> cases x4 <;> cases y1 <;> cases y2 <;>
    cases y3 <;> cases y4 <;> rfl

theorem safe_mul_recombine_bit (p : Params) (mask0 a1 a2 : List Nat) (weight : Nat)
    (ctx ctx' : seedexpander_state) (hn : p.PARAM_N % 64 ≠ 0)
    (ha1 : sparse_ok p a1 p.PARAM_OMEGA) (ha2 : is_canonical p a2)
    (hml : mask0.length = VEC_N_SIZE_64 p) (hm : ∀ i, mask0.getD i 0 < 2 ^ 64) :
    (vect_add (safe_mul p mask0 a1 a2 weight ctx).1.o (safe_mul p mask0 a1 a2 weight ctx).1.mask
      (VEC_N_SIZE_64 p)).length = VEC_N_SIZE_64 p ∧
    (∀ i, (vect_add (safe_mul p mask0 a1 a2 weight ctx).1.o
      (safe_mul p mask0 a1 a2 weight ctx).1.mask (VEC_N_SIZE_64 p)).getD i 0 < 2 ^ 64) ∧
    ∀ k, bit64 (vect_add (safe_mul p mask0 a1 a2 weight ctx).1.o
        (safe_mul p mask0 a1 a2 weight ctx).1.mask (VEC_N_SIZE_64 p)) k =
      (bit64 (vect_mul p a1 a2 p.PARAM_OMEGA ctx').1 k ^^
        (decide (p.PARAM_OMEGA % 2 = 1) && bit64 a2 k)) := by
  have hb := canonical_bounded p a2 ha2
  have hw2 : p.PARAM_OMEGA ≤ 65536 := by have := ha1.2.1; omega
  have hpos : 0 < p.PARAM_N := by omega
  have hi := sparse_hi_in_range p a1 hpos ha1.2.2
  have lo := sparse_lo_in_range p a1 hpos ha1.2.2
  obtain ⟨ho, hmask⟩ := safe_mul_shares_eq p mask0 a1 a2 weight ctx ctx ctx ctx ctx hn ha1 hb
  obtain ⟨l1, b1, e1⟩ := vect_mul_bit p (sparse_hi p a1) (dense_lo p a2) p.PARAM_OMEGA ctx hn
    ha1.1 hw2 hi (bounded_dense_lo p a2 hb) (length_dense_lo p a2)
  obtain ⟨l2, b2, e2⟩ := vect_mul_bit p (sparse_lo p a1) (dense_hi p a2) p.PARAM_OMEGA ctx hn
    ha1.1 hw2 lo (bounded_dense_hi p a2 hb) (length_dense_hi p a2)
  obtain ⟨l3, b3, e3⟩ := vect_mul_bit p (sparse_hi p a1) (dense_hi p a2) p.PARAM_OMEGA ctx hn
    ha1.1 hw2 hi (bounded_dense_hi p a2 hb) (length_dense_hi p a2)
  obtain ⟨l4, b4, e4⟩ := vect_mul_bit p (sparse_lo p a1) (dense_lo p a2) p.PARAM_OMEGA ctx hn
    ha1.1 hw2 lo (bounded_dense_lo p a2 hb) (length_dense_lo p a2)
  obtain ⟨_, _, ev⟩ := vect_mul_bit p a1 a2 p.PARAM_OMEGA ctx' hn ha1.1 hw2 ha1.2.2 hb ha2.1
  rw [ho, hmask]
  refine ⟨length_vect_add _ _ _, ?_, ?_⟩
  · exact bounded_vect_add _ _ _
      (bounded_vect_add _ _ _ (bounded_vect_add _ _ _ (bounded_vect_add _ _ _ hm b1) b2) b4)
      (bounded_vect_add _ _ _ hm b3)
  · intro k
    rw [bit64_vect_add_of_length _ _ _ _ (length_vect_add _ _ _) (length_vect_add _ _ _),
      bit64_vect_add_of_length _ _ _ _ (length_vect_add _ _ _) l4,
      bit64_vect_add_of_length _ _ _ _ (length_vect_add _ _ _) l2,
      bit64_vect_add_of_length _ _ _ _ hml l1,
      bit64_vect_add_of_length _ _ _ _ hml l3, bool_recombine, e1, e2, e3, e4, ev,
      bool_and_xor4, conv_bit_four_products p a1 a2 k ha2.1,
      conv_bit_four_products p a1 a2 (k + p.PARAM_N) ha2.1,
      bit64_of_val64_lt a2 _ (k + p.PARAM_N) hb ha2.2.2 (by omega), Bool.and_false,
      Bool.xor_false]
    by_cases hk : k < p.PARAM_N
    · rw [decide_eq_true hk, Bool.true_and, Bool.true_and]
      cases conv_bit a1 a2 p.PARAM_OMEGA k <;> cases conv_bit a1 a2 p.PARAM_OMEGA (k + p.PARAM_N) <;>
        cases (decide (p.PARAM_OMEGA % 2 = 1) && bit64 a2 k) <;> rfl
    · rw [decide_eq_false hk, Bool.false_and, Bool.false_and,
        bit64_of_val64_lt a2 _ k hb ha2.2.2 (by omega), Bool.and_false]
      rfl

theorem length_sparse_lo (p : Params) (a1 : List Nat) :
    (sparse_lo p a1).length = p.PARAM_OMEGA := by
  unfold sparse_lo
  rw [length_memcpy, List.length_replicate]

theorem length_sparse_hi (p : Params) (a1 : List Nat) :
    (sparse_hi p a1).length = p.PARAM_OMEGA := by
  unfold sparse_hi
  rw [length_memcpy, List.length_replicate]

theorem fill_indices_safe (p : Params) (weight : Nat) (tab : Buffer) (count : Nat)
    (h : count ≤ capacity p weight tab) :
    ∀ e ∈ fill_indices tab count, e.2 < capacity p weight e.1 := by
  intro e he
  unfold fill_indices at he
  obtain ⟨i, hi, rfl⟩ := List.mem_map.mp he
  have := List.mem_range.mp hi
  show i < capacity p weight tab
  omega

theorem expander_indices_safe (p : Params) (weight : Nat) (tab : Buffer) (len : Nat)
    (h : len ≤ 2 * capacity p weight tab) :
    ∀ e ∈ expander_indices tab len, e.2 < capacity p weight e.1 := by
  intro e he
  unfold expander_indices at he
  obtain ⟨k, hk, rfl⟩ := List.mem_map.mp he
  have := List.mem_range.mp hk
  show k / 2 < capacity p weight tab
  omega

theorem table_shuffle_indices_safe (p : Params) (weight : Nat) (rnd : List Nat) :
    ∀ e ∈ table_shuffle_indices rnd, e.2 < capacity p weight e.1 ∧ e.2 ≤ 15 := by
  intro e he
  unfold table_shuffle_indices at he
  obtain ⟨i, hi, hmem⟩ := List.mem_flatMap.mp he
  have hi' : i < 15 := List.mem_range.mp hi
  have hr : rnd.getD i 0 % (TABLE - i) < TABLE - i := Nat.mod_lt _ (by simp only [TABLE]; omega)
  simp only [TABLE] at hr
  simp only [List.mem_cons, List.mem_singleton, List.not_mem_nil, or_false] at hmem
  rcases hmem with rfl | rfl | rfl
  · refine ⟨?_, ?_⟩
    · show i < 16
      omega
    · show i ≤ 15
      omega
  · refine ⟨?_, ?_⟩
    · show i + 0 < 16
      omega
    · show i + 0 ≤ 15
      omega
  · refine ⟨?_, ?_⟩
    · show i + rnd.getD i 0 % (TABLE - i) < 16
      simp only [TABLE]
      omega
    · show i + rnd.getD i 0 % (TABLE - i) ≤ 15
      simp only [TABLE]
      omega

theorem slot_word_safe (p : Params) (pt : List Nat) (hpt : pt.Perm (List.range 16))
    (i j : Nat) (hi : i < 16) (hj : j ≤ VEC_N_SIZE_64 p) :
    pt.getD i 0 * (VEC_N_SIZE_64 p + 1) + j < TABLE * (VEC_N_SIZE_64 p + 1) :=
  slot_lt _ _ _ (perm_range_getD_lt pt 16 i hpt hi) hj

theorem table_first_indices_safe (p : Params) (weight : Nat) (pt : List Nat)
    (hpt : pt.Perm (List.range 16)) :
    ∀ e ∈ table_first_indices p pt, e.2 < capacity p weight e.1 := by
  intro e he
  unfold table_first_indices at he
  rcases List.mem_append.mp he with h12 | h3
  · rcases List.mem_append.mp h12 with h1 | h2
    · rw [List.mem_singleton.mp h1]
      show 0 < 16
      norm_num
    · obtain ⟨i, hi, hmem⟩ := List.mem_flatMap.mp h2
      have hi' := List.mem_range.mp hi
      simp only [List.mem_cons, List.mem_singleton, List.not_mem_nil, or_false] at hmem
      rcases hmem with rfl | rfl
      · exact hi'
      · exact slot_word_safe p pt hpt 0 i (by norm_num) (by omega)
  · rw [List.mem_singleton.mp h3]
    exact slot_word_safe p pt hpt 0 _ (by norm_num) (le_refl _)

theorem table_rows_indices_safe (p : Params) (weight : Nat) (pt : List Nat)
    (hpt : pt.Perm (List.range 16)) :
    ∀ e ∈ table_rows_indices p pt, e.2 < capacity p weight e.1 := by
  intro e he
  unfold table_rows_indices at he
  obtain ⟨i, hi, hmem⟩ := List.mem_flatMap.mp he
  have hi' : i < 16 := by
    have := List.mem_range'_1.mp hi
    simp only [TABLE] at this
    omega
  rcases List.mem_append.mp hmem with h12 | h3
  · rcases List.mem_append.mp h12 with h1 | h2
    · rw [List.mem_singleton.mp h1]
      exact hi'
    · obtain ⟨j, hj, hmem2⟩ := List.mem_flatMap.mp h2
      have hj' := List.mem_range.mp hj
      simp only [List.mem_cons, List.mem_singleton, List.not_mem_nil, or_false] at hmem2
      rcases hmem2 with rfl | rfl
      · exact hj'
      · exact slot_word_safe p pt hpt i j hi' (by omega)
  · rw [List.mem_singleton.mp h3]
    exact slot_word_safe p pt hpt i _ hi' (le_refl _)

theorem sparse_shuffle_indices_safe (p : Params) (weight : Nat) (rnd : List Nat)
    (hw : weight ≤ p.PARAM_OMEGA_E) :
    ∀ e ∈ sparse_shuffle_indices weight rnd,
      e.2 < capacity p weight e.1 ∧ e.2 ≤ weight - 1 := by
  intro e he
  unfold sparse_shuffle_indices at he
  obtain ⟨i, hi, hmem⟩ := List.mem_flatMap.mp he
  have hi' : i + 1 < weight := by
    have := List.mem_range.mp hi
    omega
  have hr : rnd.getD i 0 % (weight - i) < weight - i := Nat.mod_lt _ (by omega)
  simp only [List.mem_cons, List.mem_singleton, List.not_mem_nil, or_false] at hmem
  rcases hmem with rfl | rfl | rfl
  · refine ⟨?_, ?_⟩
    · show i < p.PARAM_OMEGA_E
      omega
    · show i ≤ weight - 1
      omega
  · refine ⟨?_, ?_⟩
    · show i + 0 < p.PARAM_OMEGA_E
      omega
    · show i + 0 ≤ weight - 1
      omega
  · refine ⟨?_, ?_⟩
    · show i + rnd.getD i 0 % (weight - i) < p.PARAM_OMEGA_E
      omega
    · show i + rnd.getD i 0 % (weight - i) ≤ weight - 1
      omega

theorem accumulate_indices_safe (p : Params) (weight : Nat) (pt psv a1 : List Nat)
    (hpt : pt.Perm (List.range 16)) (hw : weight ≤ p.PARAM_OMEGA_E)
    (hpsv : ∀ i, i < weight → psv.getD i 0 < weight)
    (he : ∀ i, i < weight → a1.getD i 0 < p.PARAM_N) :
    ∀ e ∈ accumulate_indices p pt psv a1 weight, e.2 < capacity p weight e.1 := by
  have hW : VEC_N_SIZE_64 p = (p.PARAM_N + 63) / 64 := rfl
  intro e hmem0
  unfold accumulate_indices at hmem0
  obtain ⟨i, hi, hmem⟩ := List.mem_flatMap.mp hmem0
  have hi' := List.mem_range.mp hi
  have hx := he _ (hpsv i hi')
  simp only [and_0xf, shr_4] at hmem
  have hdec : a1.getD (psv.getD i 0) 0 % 16 < 16 := Nat.mod_lt _ (by norm_num)
  rcases List.mem_append.mp hmem with h1 | h2
  · simp only [List.mem_cons, List.mem_singleton, List.not_mem_nil, or_false] at h1
    rcases h1 with rfl | rfl | rfl
    · show i < p.PARAM_OMEGA_E
      omega
    · exact hpsv i hi'
    · exact hdec
  · obtain ⟨j, hj, hmem2⟩ := List.mem_flatMap.mp h2
    have hj' := List.mem_range.mp hj
    simp only [List.mem_cons, List.mem_singleton, List.not_mem_nil, or_false] at hmem2
    have hsh : VEC_N_SIZE_64 p <<< 1 = 2 * VEC_N_SIZE_64 p := by
      rw [Nat.shiftLeft_eq]; omega
    rcases hmem2 with rfl | rfl | rfl | rfl | rfl
    · show a1.getD (psv.getD i 0) 0 / 16 + 4 * j + 0 < 4 * ((VEC_N_SIZE_64 p <<< 1) + 1)
      rw [hsh]; omega
    · show a1.getD (psv.getD i 0) 0 / 16 + 4 * j + 1 < 4 * ((VEC_N_SIZE_64 p <<< 1) + 1)
      rw [hsh]; omega
    · show a1.getD (psv.getD i 0) 0 / 16 + 4 * j + 2 < 4 * ((VEC_N_SIZE_64 p <<< 1) + 1)
      rw [hsh]; omega
    · show a1.getD (psv.getD i 0) 0 / 16 + 4 * j + 3 < 4 * ((VEC_N_SIZE_64 p <<< 1) + 1)
      rw [hsh]; omega
    · exact slot_word_safe p pt hpt _ j hdec (by omega)

theorem reduce_indices_safe (p : Params) (weight : Nat) (hn : p.PARAM_N % 64 ≠ 0) :
    ∀ e ∈ reduce_indices p, e.2 < capacity p weight e.1 ∧
      (e.1 = Buffer.reduce_a → e.2 ≤ 2 * VEC_N_SIZE_64 p - 1) := by
  have hW : VEC_N_SIZE_64 p = (p.PARAM_N + 63) / 64 := rfl
  have hsh : VEC_N_SIZE_64 p <<< 1 = 2 * VEC_N_SIZE_64 p := by
    rw [Nat.shiftLeft_eq]; omega
  intro e he
  unfold reduce_indices at he
  rcases List.mem_append.mp he with h1 | h2
  · obtain ⟨i, hi, hmem⟩ := List.mem_flatMap.mp h1
    have hi' := List.mem_range.mp hi
    simp only [List.mem_cons, List.mem_singleton, List.not_mem_nil, or_false] at hmem
    rcases hmem with rfl | rfl | rfl | rfl
    · refine ⟨?_, fun _ => ?_⟩
      · show i + VEC_N_SIZE_64 p - 1 < (VEC_N_SIZE_64 p <<< 1) + 1
        rw [hsh]; omega
      · show i + VEC_N_SIZE_64 p - 1 ≤ 2 * VEC_N_SIZE_64 p - 1
        omega
    · refine ⟨?_, fun _ => ?_⟩
      · show i + VEC_N_SIZE_64 p < (VEC_N_SIZE_64 p <<< 1) + 1
        rw [hsh]; omega
      · show i + VEC_N_SIZE_64 p ≤ 2 * VEC_N_SIZE_64 p - 1
        omega
    · refine ⟨?_, fun _ => ?_⟩
      · show i < (VEC_N_SIZE_64 p <<< 1) + 1
        rw [hsh]; omega
      · show i ≤ 2 * VEC_N_SIZE_64 p - 1
        omega
    · refine ⟨hi', ?_⟩
      intro h
      cases h
  · rw [List.mem_singleton.mp h2]
    refine ⟨?_, ?_⟩
    · show VEC_N_SIZE_64 p - 1 < VEC_N_SIZE_64 p
      omega
    · intro h
      cases h

theorem shuffle_moduli_ne_zero (weight : Nat) : ∀ m ∈ shuffle_moduli weight, m ≠ 0 := by
  intro m hm
  unfold shuffle_moduli at hm
  rcases List.mem_append.mp hm with h1 | h2
  · obtain ⟨i, hi, rfl⟩ := List.mem_map.mp h1
    have : i < 15 := List.mem_range.mp hi
    simp only [TABLE]
    omega
  · obtain ⟨i, hi, rfl⟩ := List.mem_map.mp h2
    have := List.mem_range.mp hi
    omega

/-! ### Instrumented execution: elementary steps -/

@[simp] theorem rd_fst (s : Machine) (b : Buffer) (i : Nat) :
    (rd s b i).1 = (s.mem b).getD i 0 := rfl

@[simp] theorem rd_mem (s : Machine) (b : Buffer) (i : Nat) : (rd s b i).2.mem = s.mem := rfl

@[simp] theorem rd_carry (s : Machine) (b : Buffer) (i : Nat) :
    (rd s b i).2.carry = s.carry := rfl

@[simp] theorem rd_trace (s : Machine) (b : Buffer) (i : Nat) :
    (rd s b i).2.trace = s.trace ++ [Event.read b i] := rfl

@[simp] theorem wr_mem (s : Machine) (b : Buffer) (i v : Nat) :
    (wr s b i v).mem = upd s.mem b ((s.mem b).set i v) := rfl

@[simp] theorem wr_carry (s : Machine) (b : Buffer) (i v : Nat) :
    (wr s b i v).carry = s.carry := rfl

@[simp] theorem wr_trace (s : Machine) (b : Buffer) (i v : Nat) :
    (wr s b i v).trace = s.trace ++ [Event.write b i] := rfl

@[simp] theorem tick_mem (c : Bool) (s : Machine) : (tick c s).mem = s.mem := rfl

@[simp] theorem tick_carry (c : Bool) (s : Machine) : (tick c s).carry = s.carry := rfl

@[simp] theorem tick_trace (c : Bool) (s : Machine) :
    (tick c s).trace = s.trace ++ [Event.branch c] := rfl

@[simp] theorem set_carry_mem (s : Machine) (c : Nat) : (set_carry s c).mem = s.mem := rfl

@[simp] theorem set_carry_carry (s : Machine) (c : Nat) : (set_carry s c).carry = c := rfl

@[simp] theorem set_carry_trace (s : Machine) (c : Nat) :
    (set_carry s c).trace = s.trace := rfl

theorem upd_same (m : Buffer → List Nat) (b : Buffer) (l : List Nat) : upd m b l b = l := by
  simp [upd]

theorem upd_ne (m : Buffer → List Nat) (b b' : Buffer) (l : List Nat) (h : b' ≠ b) :
    upd m b l b' = m b' := by
  simp [upd, h]

theorem upd_upd (m : Buffer → List Nat) (b : Buffer) (l1 l2 : List Nat) :
    upd (upd m b l1) b l2 = upd m b l2 := by
  funext b'
  by_cases h : b' = b <;> simp [upd, h]

theorem upd_self (m : Buffer → List Nat) (b : Buffer) : upd m b (m b) = m := by
  funext b'
  by_cases h : b' = b <;> simp [upd, h]

/-- A loop of `n + 1` iterations ends with iteration `n` and the failing test. -/
theorem for_loop_succ (n : Nat) (body : Nat → Machine → Machine) (s : Machine) :
    for_loop (n + 1) body s =
      tick false (body n (tick true ((List.range n).foldl (fun s i => body i (tick true s)) s))) := by
  simp [for_loop, List.range_succ, List.foldl_append]

/-- A relation between the machine and a model state that every iteration preserves
holds after the loop. -/
theorem for_loop_rel {α : Type} (R : Machine → α → Prop) (n : Nat)
    (body : Nat → Machine → Machine) (f : α → Nat → α) (s : Machine) (a : α)
    (htick : ∀ c s a, R s a → R (tick c s) a)
    (hstep : ∀ i s a, i < n → R s a → R (body i s) (f a i)) (h0 : R s a) :
    R (for_loop n body s) ((List.range n).foldl f a) := by
  unfold for_loop
  apply htick
  have key : ∀ k, k ≤ n → R ((List.range k).foldl (fun s i => body i (tick true s)) s)
      ((List.range k).foldl f a) := by
    intro k
    induction k with
    | zero => intro _; simpa using h0
    | succ k ih =>
      intro hk
      rw [List.range_succ, List.foldl_append, List.foldl_append]
      exact hstep k _ _ (by omega) (htick true _ _ (ih (by omega)))
  exact key n (Nat.le_refl n)

/-- A relation between two runs that every iteration preserves holds after the
loop, the two bodies being possibly different. -/
theorem for_loop_rel2 (R : Machine → Machine → Prop) (n : Nat)
    (body1 body2 : Nat → Machine → Machine) (s t : Machine)
    (htick : ∀ c s t, R s t → R (tick c s) (tick c t))
    (hstep : ∀ i s t, i < n → R s t → R (body1 i s) (body2 i t)) (h0 : R s t) :
    R (for_loop n body1 s) (for_loop n body2 t) := by
  unfold for_loop
  apply htick
  have key : ∀ k, k ≤ n → R ((List.range k).foldl (fun s i => body1 i (tick true s)) s)
      ((List.range k).foldl (fun s i => body2 i (tick true s)) t) := by
    intro k
    induction k with
    | zero => intro _; simpa using h0
    | succ k ih =>
      intro hk
      rw [List.range_succ, List.foldl_append, List.foldl_append]
      exact hstep k _ _ (by omega) (htick true _ _ (ih (by omega)))
  exact key n (Nat.le_refl n)

/-- The same for the stores of the seed expander. -/
theorem foldl_range_rel2 (R : Machine → Machine → Prop) (n : Nat)
    (body1 body2 : Machine → Nat → Machine) (s t : Machine)
    (hstep : ∀ i s t, i < n → R s t → R (body1 s i) (body2 t i)) (h0 : R s t) :
    R ((List.range n).foldl body1 s) ((List.range n).foldl body2 t) := by
  have key : ∀ k, k ≤ n → R ((List.range k).foldl body1 s) ((List.range k).foldl body2 t) := by
    intro k
    induction k with
    | zero => intro _; simpa using h0
    | succ k ih =>
      intro hk
      rw [List.range_succ, List.foldl_append, List.foldl_append]
      exact hstep k _ _ (by omega) (ih (by omega))
  exact key n (Nat.le_refl n)

/-! ### Two runs compared: events and public arrays -/

theorem low_eq_tick {pub : Buffer → Bool} (c : Bool) (s t : Machine) (h : low_eq pub s t) :
    low_eq pub (tick c s) (tick c t) :=
  ⟨by simp [h.1], fun b hb => h.2 b hb⟩

theorem low_eq_set_carry {pub : Buffer → Bool} {s t : Machine} (h : low_eq pub s t)
    (c1 c2 : Nat) : low_eq pub (set_carry s c1) (set_carry t c2) :=
  ⟨h.1, fun b hb => h.2 b hb⟩

theorem low_eq_rd {pub : Buffer → Bool} {s t : Machine} (h : low_eq pub s t) (b : Buffer)
    (i : Nat) : low_eq pub (rd s b i).2 (rd t b i).2 :=
  ⟨by simp [h.1], fun b hb => h.2 b hb⟩

theorem low_eq_wr {pub : Buffer → Bool} {s t : Machine} (h : low_eq pub s t) (b : Buffer)
    (i : Nat) {v1 v2 : Nat} (hv : pub b = true → v1 = v2) :
    low_eq pub (wr s b i v1) (wr t b i v2) := by
  refine ⟨by simp [h.1], fun b' hb' => ?_⟩
  by_cases e : b' = b
  · subst e
    simp [upd, h.2 b' hb', hv hb']
  · simp [upd, e, h.2 b' hb']

theorem low_eq_for_loop {pub : Buffer → Bool} (n : Nat) (body1 body2 : Nat → Machine → Machine)
    {s t : Machine} (h : low_eq pub s t)
    (hstep : ∀ i s t, low_eq pub s t → low_eq pub (body1 i s) (body2 i t)) :
    low_eq pub (for_loop n body1 s) (for_loop n body2 t) :=
  for_loop_rel2 (low_eq pub) n body1 body2 s t (fun c s t h => low_eq_tick c s t h)
    (fun i s t _ h => hstep i s t h) h

theorem low_eq_fill_run {pub : Buffer → Bool} (tab : Buffer) (n : Nat) {s t : Machine}
    (h : low_eq pub s t) : low_eq pub (fill_run tab n s) (fill_run tab n t) :=
  low_eq_for_loop n _ _ h (fun _ _ _ h1 => low_eq_wr h1 tab _ (fun _ => rfl))

theorem low_eq_expander_run {pub : Buffer → Bool} (tab : Buffer) (data : List Nat)
    {s t : Machine} (h : low_eq pub s t) :
    low_eq pub (expander_run tab data s) (expander_run tab data t) :=
  foldl_range_rel2 (low_eq pub) _ _ _ s t (fun _ _ _ _ h1 => low_eq_wr h1 tab _ (fun _ => rfl)) h

theorem low_eq_shuffle_run {pub : Buffer → Bool} (rnd tab : Buffer) (hrnd : pub rnd = true)
    (htab : pub tab = true) (count bound : Nat) {s t : Machine} (h : low_eq pub s t) :
    low_eq pub (shuffle_run rnd tab count bound s) (shuffle_run rnd tab count bound t) := by
  refine low_eq_for_loop count _ _ h ?_
  intro i s1 t1 h1
  simp only [swap_run, rd_fst, rd_mem]
  rw [h1.2 rnd hrnd, h1.2 tab htab]
  exact low_eq_wr (low_eq_wr (low_eq_rd (low_eq_rd (low_eq_rd h1 _ _) _ _) _ _) _ _
    (fun _ => rfl)) _ _ (fun _ => rfl)

theorem low_eq_table_first_run {pub : Buffer → Bool}
    (hpt : pub Buffer.permuted_table = true) (ht : pub Buffer.table = false) (p : Params)
    {s t : Machine} (h : low_eq pub s t) :
    low_eq pub (table_first_run p s) (table_first_run p t) := by
  have hv : ∀ v1 v2 : Nat, pub Buffer.table = true → v1 = v2 := by
    intro v1 v2 hh
    rw [ht] at hh
    cases hh
  simp only [table_first_run, rd_fst, rd_mem]
  rw [h.2 _ hpt]
  refine low_eq_wr (low_eq_for_loop _ _ _ (low_eq_rd h _ _) ?_) _ _ (hv _ _)
  intro i s1 t1 h1
  exact low_eq_wr (low_eq_rd h1 _ _) _ _ (hv _ _)

theorem low_eq_table_row_run {pub : Buffer → Bool}
    (hpt : pub Buffer.permuted_table = true) (ht : pub Buffer.table = false) (p : Params)
    (i : Nat) {s t : Machine} (h : low_eq pub s t) :
    low_eq pub (table_row_run p i s) (table_row_run p i t) := by
  have hv : ∀ v1 v2 : Nat, pub Buffer.table = true → v1 = v2 := by
    intro v1 v2 hh
    rw [ht] at hh
    cases hh
  simp only [table_row_run, rd_fst, rd_mem, set_carry_mem]
  rw [h.2 _ hpt]
  refine low_eq_wr (low_eq_for_loop _ _ _ (low_eq_rd (low_eq_set_carry h 0 0) _ _) ?_) _ _
    (hv _ _)
  intro j s1 t1 h1
  exact low_eq_set_carry (low_eq_rd (low_eq_wr (low_eq_rd h1 _ _) _ _ (hv _ _)) _ _) _ _

theorem low_eq_xor_word_run {pub : Buffer → Bool} (hr : pub Buffer.res_16 = false)
    (pt q j : Nat) {s t : Machine} (h : low_eq pub s t) :
    low_eq pub (xor_word_run pt q j s) (xor_word_run pt q j t) := by
  have hv : ∀ v1 v2 : Nat, pub Buffer.res_16 = true → v1 = v2 := by
    intro v1 v2 hh
    rw [hr] at hh
    cases hh
  exact low_eq_wr (low_eq_wr (low_eq_wr (low_eq_wr
    (low_eq_rd (low_eq_rd (low_eq_rd (low_eq_rd (low_eq_rd h _ _) _ _) _ _) _ _) _ _)
    _ _ (hv _ _)) _ _ (hv _ _)) _ _ (hv _ _)) _ _ (hv _ _)

theorem low_eq_term_run {pub : Buffer → Bool}
    (hpsv : pub Buffer.permuted_sparse_vect = true) (ha1 : pub Buffer.a1 = true)
    (hpt : pub Buffer.permuted_table = true) (hr : pub Buffer.res_16 = false) (p : Params)
    (i : Nat) {s t : Machine} (h : low_eq pub s t) :
    low_eq pub (term_run p i s) (term_run p i t) := by
  simp only [term_run, rd_fst, rd_mem, set_carry_mem]
  rw [h.2 _ hpsv, h.2 _ ha1, h.2 _ hpt]
  refine low_eq_for_loop _ _ _
    (low_eq_rd (low_eq_rd (low_eq_rd (low_eq_rd (low_eq_rd (low_eq_set_carry h 0 0) _ _) _ _)
      _ _) _ _) _ _) ?_
  intro j s1 t1 h1
  exact low_eq_xor_word_run hr _ _ _ h1

theorem low_eq_setup_run {pub : Buffer → Bool}
    (hpt : pub Buffer.permuted_table = true) (hrt : pub Buffer.permutation_table = true)
    (hpsv : pub Buffer.permuted_sparse_vect = true)
    (hrsv : pub Buffer.permutation_sparse_vect = true) (ht : pub Buffer.table = false)
    (p : Params) (weight : Nat) (ctx : seedexpander_state) {s t : Machine}
    (h : low_eq pub s t) :
    low_eq pub (setup_run p weight ctx s) (setup_run p weight ctx t) := by
  simp only [setup_run]
  refine low_eq_shuffle_run _ _ hrsv hpsv _ _ (low_eq_expander_run _ _ (low_eq_fill_run _ _
    (low_eq_for_loop _ _ _ (low_eq_table_first_run hpt ht p
      (low_eq_shuffle_run _ _ hrt hpt _ _ (low_eq_expander_run _ _ (low_eq_fill_run _ _ h))))
      ?_)))
  intro k s1 t1 h1
  exact low_eq_table_row_run hpt ht p _ h1

/-- The events of lines 81-120 do not depend on the operands or on the output
buffer. -/
theorem setup_trace_eq (p : Params) (o a1 a2 o' a1' a2' : List Nat) (weight : Nat)
    (ctx : seedexpander_state) :
    setup_trace p o a1 a2 weight ctx = setup_trace p o' a1' a2' weight ctx := by
  have h0 : low_eq pub_setup (initial_machine p o a1 a2) (initial_machine p o' a1' a2') := by
    refine ⟨rfl, ?_⟩
    intro b hb
    cases b <;> first | rfl | cases hb
  exact (@low_eq_setup_run pub_setup rfl rfl rfl rfl rfl p weight ctx _ _ h0).1

/-- The events of the whole function do not depend on the dense operand or on the
output buffer. -/
theorem trace_eq_of_sparse_eq (p : Params) (o a1 a2 o' a2' : List Nat) (weight : Nat)
    (ctx : seedexpander_state) :
    fast_convolution_mult_trace p o a1 a2 weight ctx =
      fast_convolution_mult_trace p o' a1 a2' weight ctx := by
  have h0 : low_eq pub_sparse (initial_machine p o a1 a2) (initial_machine p o' a1 a2') := by
    refine ⟨rfl, ?_⟩
    intro b hb
    cases b <;> first | rfl | cases hb
  have h1 := @low_eq_setup_run pub_sparse rfl rfl rfl rfl rfl p weight ctx _ _ h0
  exact (low_eq_for_loop weight _ _ h1
    (fun i s t h => @low_eq_term_run pub_sparse rfl rfl rfl rfl p i s t h)).1

/-! ### Two runs compared: loop tests only -/

theorem branches_append (l1 l2 : List Event) :
    branches (l1 ++ l2) = branches l1 ++ branches l2 := by
  simp [branches, List.filterMap_append]

theorem branch_eq_tick (c : Bool) (s t : Machine)
    (h : branches s.trace = branches t.trace) :
    branches (tick c s).trace = branches (tick c t).trace := by
  simp only [tick_trace, branches_append, h]

theorem branch_eq_rd {s t : Machine} (h : branches s.trace = branches t.trace)
    (b b' : Buffer) (i i' : Nat) :
    branches (rd s b i).2.trace = branches (rd t b' i').2.trace := by
  simp only [rd_trace, branches_append, h]
  rfl

theorem branch_eq_wr {s t : Machine} (h : branches s.trace = branches t.trace)
    (b b' : Buffer) (i i' v v' : Nat) :
    branches (wr s b i v).trace = branches (wr t b' i' v').trace := by
  simp only [wr_trace, branches_append, h]
  rfl

theorem branch_eq_for_loop (n : Nat) (body1 body2 : Nat → Machine → Machine) {s t : Machine}
    (h : branches s.trace = branches t.trace)
    (hstep : ∀ i s t, branches s.trace = branches t.trace →
      branches (body1 i s).trace = branches (body2 i t).trace) :
    branches (for_loop n body1 s).trace = branches (for_loop n body2 t).trace :=
  for_loop_rel2 (fun s t => branches s.trace = branches t.trace) n body1 body2 s t
    (fun c s t h => branch_eq_tick c s t h) (fun i s t _ h => hstep i s t h) h

theorem branch_eq_fill_run (tab : Buffer) (n : Nat) {s t : Machine}
    (h : branches s.trace = branches t.trace) :
    branches (fill_run tab n s).trace = branches (fill_run tab n t).trace :=
  branch_eq_for_loop n _ _ h (fun _ _ _ h1 => branch_eq_wr h1 _ _ _ _ _ _)

theorem branches_expander_run (tab : Buffer) (data : List Nat) (s : Machine) :
    branches (expander_run tab data s).trace = branches s.trace := by
  unfold expander_run
  induction data.length with
  | zero => rfl
  | succ k ih =>
    rw [List.range_succ, List.foldl_append]
    simp only [List.foldl_cons, List.foldl_nil, wr_trace, branches_append, ih]
    simp [branches]

theorem branch_eq_shuffle_run (rnd tab : Buffer) (count bound : Nat) {s t : Machine}
    (h : branches s.trace = branches t.trace) :
    branches (shuffle_run rnd tab count bound s).trace =
      branches (shuffle_run rnd tab count bound t).trace := by
  refine branch_eq_for_loop count _ _ h ?_
  intro i s1 t1 h1
  exact branch_eq_wr (branch_eq_wr (branch_eq_rd (branch_eq_rd (branch_eq_rd h1 _ _ _ _)
    _ _ _ _) _ _ _ _) _ _ _ _ _ _) _ _ _ _ _ _

theorem branch_eq_table_first_run (p : Params) {s t : Machine}
    (h : branches s.trace = branches t.trace) :
    branches (table_first_run p s).trace = branches (table_first_run p t).trace := by
  refine branch_eq_wr (branch_eq_for_loop _ _ _ (branch_eq_rd h _ _ _ _) ?_) _ _ _ _ _ _
  intro i s1 t1 h1
  exact branch_eq_wr (branch_eq_rd h1 _ _ _ _) _ _ _ _ _ _

theorem branch_eq_table_row_run (p : Params) (i : Nat) {s t : Machine}
    (h : branches s.trace = branches t.trace) :
    branches (table_row_run p i s).trace = branches (table_row_run p i t).trace := by
  refine branch_eq_wr (branch_eq_for_loop _ _ _
    (@branch_eq_rd (set_carry s 0) (set_carry t 0) h _ _ _ _) ?_) _ _ _ _ _ _
  intro j s1 t1 h1
  exact branch_eq_rd (branch_eq_wr (branch_eq_rd h1 _ _ _ _) _ _ _ _ _ _) _ _ _ _

theorem branch_eq_xor_word_run (pt q pt' q' j : Nat) {s t : Machine}
    (h : branches s.trace = branches t.trace) :
    branches (xor_word_run pt q j s).trace = branches (xor_word_run pt' q' j t).trace :=
  branch_eq_wr (branch_eq_wr (branch_eq_wr (branch_eq_wr
    (branch_eq_rd (branch_eq_rd (branch_eq_rd (branch_eq_rd (branch_eq_rd h _ _ _ _)
      _ _ _ _) _ _ _ _) _ _ _ _) _ _ _ _) _ _ _ _ _ _) _ _ _ _ _ _) _ _ _ _ _ _) _ _ _ _ _ _

theorem branch_eq_term_run (p : Params) (i : Nat) {s t : Machine}
    (h : branches s.trace = branches t.trace) :
    branches (term_run p i s).trace = branches (term_run p i t).trace := by
  refine branch_eq_for_loop _ _ _
    (branch_eq_rd (branch_eq_rd (branch_eq_rd (branch_eq_rd
      (@branch_eq_rd (set_carry s 0) (set_carry t 0) h _ _ _ _)
      _ _ _ _) _ _ _ _) _ _ _ _) _ _ _ _) ?_
  intro j s1 t1 h1
  exact branch_eq_xor_word_run _ _ _ _ _ h1

theorem branch_eq_setup_run (p : Params) (weight : Nat) (ctx ctx' : seedexpander_state)
    {s t : Machine} (h : branches s.trace = branches t.trace) :
    branches (setup_run p weight ctx s).trace = branches (setup_run p weight ctx' t).trace := by
  simp only [setup_run]
  have h1 := branch_eq_fill_run Buffer.permuted_table TABLE h
  have h2 : branches (expander_run Buffer.permutation_table
        (cast_u16 (seedexpander ctx (TABLE <<< 1)).1) (fill_run Buffer.permuted_table TABLE s)).trace =
      branches (expander_run Buffer.permutation_table
        (cast_u16 (seedexpander ctx' (TABLE <<< 1)).1)
        (fill_run Buffer.permuted_table TABLE t)).trace := by
    rw [branches_expander_run, branches_expander_run, h1]
  have h3 := branch_eq_shuffle_run Buffer.permutation_table Buffer.permuted_table (TABLE - 1)
    TABLE h2
  have h4 := branch_eq_table_first_run p h3
  have h5 := branch_eq_for_loop (TABLE - 1) (fun k s => table_row_run p (1 + k) s)
    (fun k s => table_row_run p (1 + k) s) h4 (fun k s1 t1 h => branch_eq_table_row_run p _ h)
  have h6 := branch_eq_fill_run Buffer.permuted_sparse_vect weight h5
  refine branch_eq_shuffle_run _ _ _ _ ?_
  rw [branches_expander_run, branches_expander_run, h6]

/-- The loop tests of the whole function depend on nothing but the parameters and
the weight. -/
theorem branches_trace_eq (p : Params) (o a1 a2 o' a1' a2' : List Nat) (weight : Nat)
    (ctx ctx' : seedexpander_state) :
    branches (fast_convolution_mult_trace p o a1 a2 weight ctx) =
      branches (fast_convolution_mult_trace p o' a1' a2' weight ctx') := by
  have h0 : branches (initial_machine p o a1 a2).trace =
      branches (initial_machine p o' a1' a2').trace := rfl
  exact branch_eq_for_loop weight _ _ (branch_eq_setup_run p weight ctx ctx' h0)
    (fun i s t h => branch_eq_term_run p i h)

/-! ### The memory after each phase of the instrumented run -/

theorem fill_run_mem (tab : Buffer) (n : Nat) (s : Machine) :
    (fill_run tab n s).mem =
      upd s.mem tab ((List.range n).foldl (fun t i => t.set i (i % 65536)) (s.mem tab)) := by
  unfold fill_run
  refine for_loop_rel (fun (s1 : Machine) (t : List Nat) => s1.mem = upd s.mem tab t) n _ _ s _
    (fun c s1 a h => h) ?_ (upd_self s.mem tab).symm
  intro i s1 a _ h
  show (wr s1 tab i (i % 65536)).mem = _
  rw [wr_mem, h, upd_same, upd_upd]

theorem expander_run_mem (tab : Buffer) (data : List Nat) (s : Machine) :
    (expander_run tab data s).mem =
      upd s.mem tab ((List.range data.length).foldl (fun t k => t.set k (data.getD k 0))
        (s.mem tab)) := by
  unfold expander_run
  induction data.length with
  | zero => exact (upd_self s.mem tab).symm
  | succ k ih =>
    rw [List.range_succ, List.foldl_append, List.foldl_append]
    simp only [List.foldl_cons, List.foldl_nil, wr_mem]
    rw [ih, upd_same, upd_upd]

theorem swap_run_mem (tab : Buffer) (base elt1 elt2 : Nat) (s : Machine) :
    (swap_run tab base elt1 elt2 s).mem = upd s.mem tab (swap (s.mem tab) base elt1 elt2) := by
  simp only [swap_run, swap, wr_mem, rd_mem, rd_fst, upd_same, upd_upd]

theorem shuffle_run_mem (rnd tab : Buffer) (hne : rnd ≠ tab) (count bound : Nat) (s : Machine) :
    (shuffle_run rnd tab count bound s).mem =
      upd s.mem tab ((List.range count).foldl
        (fun t i => swap t i 0 ((s.mem rnd).getD i 0 % (bound - i))) (s.mem tab)) := by
  unfold shuffle_run
  refine for_loop_rel (fun (s1 : Machine) (t : List Nat) => s1.mem = upd s.mem tab t) count _ _
    s _ (fun c s1 a h => h) ?_ (upd_self s.mem tab).symm
  intro i s1 a _ h
  show (swap_run tab i 0 ((rd s1 rnd i).1 % (bound - i)) (rd s1 rnd i).2).mem = _
  rw [swap_run_mem, rd_mem, rd_fst, h, upd_same, upd_upd, upd_ne _ _ _ _ hne]

theorem table_first_loop_mem (p : Params) (c : Nat) (s : Machine) :
    (for_loop (VEC_N_SIZE_64 p) (fun i s1 =>
        wr (rd s1 Buffer.a2 i).2 Buffer.table (c + i) (rd s1 Buffer.a2 i).1) s).mem =
      upd s.mem Buffer.table ((List.range (VEC_N_SIZE_64 p)).foldl
        (fun t i => t.set (c + i) ((s.mem Buffer.a2).getD i 0)) (s.mem Buffer.table)) := by
  have hne1 : Buffer.a2 ≠ Buffer.table := by intro h; cases h
  refine for_loop_rel (fun (s1 : Machine) (t : List Nat) => s1.mem = upd s.mem Buffer.table t)
    _ _ _ _ _ (fun c s1 a h => h) ?_ (upd_self s.mem Buffer.table).symm
  intro i s1 a _ h
  show (wr (rd s1 Buffer.a2 i).2 Buffer.table _ (rd s1 Buffer.a2 i).1).mem = _
  rw [wr_mem, rd_mem, rd_fst, h, upd_same, upd_upd, upd_ne _ _ _ _ hne1]

theorem table_first_run_mem (p : Params) (s : Machine)
    (h0 : s.mem Buffer.table = List.replicate (TABLE * (VEC_N_SIZE_64 p + 1)) 0) :
    (table_first_run p s).mem =
      upd s.mem Buffer.table (table_first p (s.mem Buffer.permuted_table) (s.mem Buffer.a2)) := by
  unfold table_first_run table_first
  simp only [wr_mem]
  rw [table_first_loop_mem]
  simp only [rd_mem, rd_fst, upd_same, upd_upd, h0]

theorem table_row_loop_mem (p : Params) (i c : Nat) (s : Machine) :
    (for_loop (VEC_N_SIZE_64 p) (fun j s1 =>
        set_carry (rd (wr (rd s1 Buffer.a2 j).2 Buffer.table (c + j)
          ((((rd s1 Buffer.a2 j).1 <<< i) % 2 ^ 64) ^^^ (rd s1 Buffer.a2 j).2.carry))
          Buffer.a2 j).2
          ((rd (wr (rd s1 Buffer.a2 j).2 Buffer.table (c + j)
          ((((rd s1 Buffer.a2 j).1 <<< i) % 2 ^ 64) ^^^ (rd s1 Buffer.a2 j).2.carry))
          Buffer.a2 j).1 >>> (WORD - i))) s).mem =
      upd s.mem Buffer.table ((List.range (VEC_N_SIZE_64 p)).foldl
        (fun (st : List Nat × Nat) j =>
          (st.1.set (c + j) ((((s.mem Buffer.a2).getD j 0 <<< i) % 2 ^ 64) ^^^ st.2),
            (s.mem Buffer.a2).getD j 0 >>> (WORD - i))) (s.mem Buffer.table, s.carry)).1 ∧
    (for_loop (VEC_N_SIZE_64 p) (fun j s1 =>
        set_carry (rd (wr (rd s1 Buffer.a2 j).2 Buffer.table (c + j)
          ((((rd s1 Buffer.a2 j).1 <<< i) % 2 ^ 64) ^^^ (rd s1 Buffer.a2 j).2.carry))
          Buffer.a2 j).2
          ((rd (wr (rd s1 Buffer.a2 j).2 Buffer.table (c + j)
          ((((rd s1 Buffer.a2 j).1 <<< i) % 2 ^ 64) ^^^ (rd s1 Buffer.a2 j).2.carry))
          Buffer.a2 j).1 >>> (WORD - i))) s).carry =
      ((List.range (VEC_N_SIZE_64 p)).foldl
        (fun (st : List Nat × Nat) j =>
          (st.1.set (c + j) ((((s.mem Buffer.a2).getD j 0 <<< i) % 2 ^ 64) ^^^ st.2),
            (s.mem Buffer.a2).getD j 0 >>> (WORD - i))) (s.mem Buffer.table, s.carry)).2 := by
  have hne1 : Buffer.a2 ≠ Buffer.table := by intro h; cases h
  refine for_loop_rel
    (fun (s1 : Machine) (st : List Nat × Nat) =>
      s1.mem = upd s.mem Buffer.table st.1 ∧ s1.carry = st.2) _ _ _ _ _
    (fun c s1 a h => h) ?_ ⟨(upd_self s.mem Buffer.table).symm, rfl⟩
  intro j s1 st _ h
  refine ⟨?_, ?_⟩
  · simp only [set_carry_mem, rd_mem, wr_mem, rd_fst, rd_carry]
    rw [h.1, h.2, upd_same, upd_upd, upd_ne _ _ _ _ hne1]
  · simp only [set_carry_carry, rd_fst, wr_mem, rd_mem]
    rw [h.1, upd_upd, upd_ne _ _ _ _ hne1]

theorem table_row_run_mem (p : Params) (i : Nat) (s : Machine) :
    (table_row_run p i s).mem =
      upd s.mem Buffer.table
        (table_row p (s.mem Buffer.permuted_table) (s.mem Buffer.a2) (s.mem Buffer.table) i) := by
  unfold table_row_run table_row
  simp only [wr_mem]
  rw [(table_row_loop_mem p i _ _).1, (table_row_loop_mem p i _ _).2]
  simp only [rd_mem, rd_fst, rd_carry, set_carry_mem, set_carry_carry, upd_same, upd_upd]

theorem xor_word_run_mem (pt q j : Nat) (s : Machine) :
    (xor_word_run pt q j s).mem =
      upd s.mem Buffer.res_16 (store64 (s.mem Buffer.res_16) (q + 4 * j)
        (load64 (s.mem Buffer.res_16) (q + 4 * j) ^^^ (s.mem Buffer.table).getD (pt + j) 0)) := by
  simp only [xor_word_run, wr_mem, rd_mem, rd_fst, load64, store64, upd_same, upd_upd]

theorem xor_word_run_trace (pt q j : Nat) (s : Machine) :
    (xor_word_run pt q j s).trace = s.trace ++
      [Event.read Buffer.res_16 (q + 4 * j), Event.read Buffer.res_16 (q + 4 * j + 1),
       Event.read Buffer.res_16 (q + 4 * j + 2), Event.read Buffer.res_16 (q + 4 * j + 3),
       Event.read Buffer.table (pt + j),
       Event.write Buffer.res_16 (q + 4 * j), Event.write Buffer.res_16 (q + 4 * j + 1),
       Event.write Buffer.res_16 (q + 4 * j + 2), Event.write Buffer.res_16 (q + 4 * j + 3)] := by
  simp only [xor_word_run, wr_trace, rd_trace, List.append_assoc, List.singleton_append,
    List.cons_append, List.nil_append]

theorem term_run_mem (p : Params) (i : Nat) (s : Machine) :
    (term_run p i s).mem =
      upd s.mem Buffer.res_16
        (xor_row p (s.mem Buffer.table)
          ((s.mem Buffer.permuted_table).getD
            ((s.mem Buffer.a1).getD ((s.mem Buffer.permuted_sparse_vect).getD i 0) 0 &&& 0xf) 0 *
              (VEC_N_SIZE_64 p + 1))
          (s.mem Buffer.res_16)
          ((s.mem Buffer.a1).getD ((s.mem Buffer.permuted_sparse_vect).getD i 0) 0 >>> 4)) := by
  have hne1 : Buffer.table ≠ Buffer.res_16 := by intro h; cases h
  simp only [term_run, xor_row, rd_fst, rd_mem, set_carry_mem]
  refine for_loop_rel (fun (s1 : Machine) (r : List Nat) => s1.mem = upd s.mem Buffer.res_16 r)
    _ _ _ _ _ (fun c s1 a h => h) ?_ (upd_self s.mem Buffer.res_16).symm
  intro j s1 r _ h
  rw [xor_word_run_mem, h, upd_same, upd_upd, upd_ne _ _ _ _ hne1]

theorem table_rows_run_mem (p : Params) (n : Nat) (s : Machine) :
    (for_loop n (fun k s1 => table_row_run p (1 + k) s1) s).mem =
      upd s.mem Buffer.table ((List.range n).foldl
        (fun t k => table_row p (s.mem Buffer.permuted_table) (s.mem Buffer.a2) t (1 + k))
        (s.mem Buffer.table)) := by
  have hne1 : Buffer.a2 ≠ Buffer.table := by intro h; cases h
  have hne2 : Buffer.permuted_table ≠ Buffer.table := by intro h; cases h
  refine for_loop_rel (fun (s1 : Machine) (t : List Nat) => s1.mem = upd s.mem Buffer.table t)
    _ _ _ _ _ (fun c s1 a h => h) ?_ (upd_self s.mem Buffer.table).symm
  intro k s1 a _ h
  show (table_row_run p (1 + k) s1).mem = _
  rw [table_row_run_mem, h, upd_same, upd_upd, upd_ne _ _ _ _ hne1, upd_ne _ _ _ _ hne2]

theorem accumulate_run_mem (p : Params) (n : Nat) (s : Machine) :
    (for_loop n (fun i s1 => term_run p i s1) s).mem =
      upd s.mem Buffer.res_16 (accumulate p (s.mem Buffer.table) (s.mem Buffer.permuted_table)
        (s.mem Buffer.permuted_sparse_vect) (s.mem Buffer.a1) n (s.mem Buffer.res_16)) := by
  have hne1 : Buffer.table ≠ Buffer.res_16 := by intro h; cases h
  have hne2 : Buffer.permuted_table ≠ Buffer.res_16 := by intro h; cases h
  have hne3 : Buffer.permuted_sparse_vect ≠ Buffer.res_16 := by intro h; cases h
  have hne4 : Buffer.a1 ≠ Buffer.res_16 := by intro h; cases h
  unfold accumulate
  refine for_loop_rel (fun (s1 : Machine) (r : List Nat) => s1.mem = upd s.mem Buffer.res_16 r)
    _ _ _ _ _ (fun c s1 a h => h) ?_ (upd_self s.mem Buffer.res_16).symm
  intro i s1 r _ h
  show (term_run p i s1).mem = _
  rw [term_run_mem, h, upd_same, upd_upd, upd_ne _ _ _ _ hne1, upd_ne _ _ _ _ hne2,
    upd_ne _ _ _ _ hne3, upd_ne _ _ _ _ hne4]

/-- The array that the seed expander fills reads back as the values drawn. -/
theorem getD_expander (data : List Nat) (cap : Nat) (h : data.length ≤ cap) (k : Nat) :
    ((List.range data.length).foldl (fun t k => t.set k (data.getD k 0))
      (List.replicate cap 0)).getD k 0 = data.getD k 0 := by
  rw [getD_foldl_set0, List.length_replicate, getD_replicate_zero]
  by_cases hk : k < data.length
  · rw [if_pos ⟨hk, by omega⟩]
  · rw [if_neg (by omega), getD_of_length_le _ _ (by omega)]

theorem length_cast_u16_seedexpander (ctx : seedexpander_state) (n : Nat) :
    (cast_u16 (seedexpander ctx (n <<< 1)).1).length = n := by
  simp [cast_u16, seedexpander, Nat.shiftLeft_eq]

/-- The arrays at the end of lines 81-120 of the instrumented run are those of the
model. -/
theorem setup_run_mem (p : Params) (o a1 a2 : List Nat) (weight : Nat)
    (ctx : seedexpander_state) (hw : weight ≤ p.PARAM_OMEGA_E) :
    (setup_run p weight ctx (initial_machine p o a1 a2)).mem Buffer.permuted_table =
      shuffle_table (cast_u16 (seedexpander ctx (TABLE <<< 1)).1) ∧
    (setup_run p weight ctx (initial_machine p o a1 a2)).mem Buffer.table =
      build_table p (shuffle_table (cast_u16 (seedexpander ctx (TABLE <<< 1)).1)) a2 ∧
    (setup_run p weight ctx (initial_machine p o a1 a2)).mem Buffer.permuted_sparse_vect =
      shuffle_sparse p weight
        (cast_u16 (seedexpander (seedexpander ctx (TABLE <<< 1)).2 (weight <<< 1)).1) ∧
    (setup_run p weight ctx (initial_machine p o a1 a2)).mem Buffer.a1 = a1 ∧
    (setup_run p weight ctx (initial_machine p o a1 a2)).mem Buffer.res_16 = as_u16 o := by
  have e1 : (fun (t : List Nat) (i : Nat) => swap t i 0
        (((List.range (cast_u16 (seedexpander ctx (TABLE <<< 1)).1).length).foldl
          (fun t k => t.set k ((cast_u16 (seedexpander ctx (TABLE <<< 1)).1).getD k 0))
          (List.replicate TABLE 0)).getD i 0 % (TABLE - i))) =
      (fun (t : List Nat) (i : Nat) => swap t i 0
        ((cast_u16 (seedexpander ctx (TABLE <<< 1)).1).getD i 0 % (TABLE - i))) := by
    funext t i
    rw [getD_expander _ _ (by rw [length_cast_u16_seedexpander])]
  have e2 : (fun (t : List Nat) (i : Nat) => swap t i 0
        (((List.range (cast_u16 (seedexpander (seedexpander ctx (TABLE <<< 1)).2
            (weight <<< 1)).1).length).foldl
          (fun t k => t.set k ((cast_u16 (seedexpander (seedexpander ctx (TABLE <<< 1)).2
            (weight <<< 1)).1).getD k 0))
          (List.replicate p.PARAM_OMEGA_E 0)).getD i 0 % (weight - i))) =
      (fun (t : List Nat) (i : Nat) => swap t i 0
        ((cast_u16 (seedexpander (seedexpander ctx (TABLE <<< 1)).2 (weight <<< 1)).1).getD i 0 %
          (weight - i))) := by
    funext t i
    rw [getD_expander _ _ (by rw [length_cast_u16_seedexpander]; exact hw)]
  have hn1 : Buffer.permutation_table ≠ Buffer.permuted_table := by intro h; cases h
  have hn2 : Buffer.permutation_sparse_vect ≠ Buffer.permuted_sparse_vect := by
    intro h; cases h
  simp only [setup_run]
  rw [shuffle_run_mem _ _ hn2, expander_run_mem, fill_run_mem, table_rows_run_mem,
    table_first_run_mem, shuffle_run_mem _ _ hn1, expander_run_mem, fill_run_mem]
  · simp only [upd, initial_machine, reduceCtorEq, if_true, if_false, e1, e2, shuffle_table,
      shuffle_sparse, build_table_eq]
    exact ⟨trivial, rfl, trivial, trivial, trivial⟩
  · rw [shuffle_run_mem _ _ hn1, expander_run_mem, fill_run_mem]
    simp [upd, initial_machine]

/-- The output buffer at the end of the instrumented run is the one the model of
`fast_convolution_mult` returns. -/
theorem fast_convolution_mult_run_mem (p : Params) (o a1 a2 : List Nat) (weight : Nat)
    (ctx : seedexpander_state) (hw : weight ≤ p.PARAM_OMEGA_E) :
    as_u64 ((fast_convolution_mult_run p weight ctx (initial_machine p o a1 a2)).mem
      Buffer.res_16) = (fast_convolution_mult p o a1 a2 weight ctx).1 := by
  obtain ⟨h1, h2, h3, h4, h5⟩ := setup_run_mem p o a1 a2 weight ctx hw
  unfold fast_convolution_mult_run fast_convolution_mult
  rw [accumulate_run_mem, upd_same, h1, h2, h3, h4, h5]

/-! ### The last events of a run -/

theorem suffix_split (T : List Event) (a b c d : Event) (l m : List Event) :
    ∃ pre, T ++ (a :: b :: c :: d :: l) ++ m = pre ++ (l ++ m) :=
  ⟨T ++ [a, b, c, d], by simp⟩

/-- The events of the term `i` end with the accesses of the last word of the table
slot: the table is read at `permuted_table[e & 0xf] * (VEC_N_SIZE_64 + 1) + VEC_N_SIZE_64`
and the output is written at the four offsets from `(e >> 4) + 4 * VEC_N_SIZE_64`,
where `e = a1[permuted_sparse_vect[i]]`. -/
theorem term_run_trace_suffix (p : Params) (i : Nat) (s : Machine) :
    ∃ pre, (term_run p i s).trace = pre ++
      [Event.read Buffer.table
        ((s.mem Buffer.permuted_table).getD
          ((s.mem Buffer.a1).getD ((s.mem Buffer.permuted_sparse_vect).getD i 0) 0 &&& 0xf) 0 *
            (VEC_N_SIZE_64 p + 1) + VEC_N_SIZE_64 p),
       Event.write Buffer.res_16
        (((s.mem Buffer.a1).getD ((s.mem Buffer.permuted_sparse_vect).getD i 0) 0 >>> 4) +
          4 * VEC_N_SIZE_64 p),
       Event.write Buffer.res_16
        (((s.mem Buffer.a1).getD ((s.mem Buffer.permuted_sparse_vect).getD i 0) 0 >>> 4) +
          4 * VEC_N_SIZE_64 p + 1),
       Event.write Buffer.res_16
        (((s.mem Buffer.a1).getD ((s.mem Buffer.permuted_sparse_vect).getD i 0) 0 >>> 4) +
          4 * VEC_N_SIZE_64 p + 2),
       Event.write Buffer.res_16
        (((s.mem Buffer.a1).getD ((s.mem Buffer.permuted_sparse_vect).getD i 0) 0 >>> 4) +
          4 * VEC_N_SIZE_64 p + 3),
       Event.branch false] := by
  unfold term_run
  simp only []
  rw [for_loop_succ, tick_trace, xor_word_run_trace]
  simp only [rd_fst, rd_mem, set_carry_mem]
  exact suffix_split _ _ _ _ _ _ _

/-- The events of a run with `w + 1` terms end with those of the term `w`. -/
theorem fast_convolution_mult_trace_suffix (p : Params) (o a1 a2 : List Nat) (w : Nat)
    (ctx : seedexpander_state) (hw : w + 1 ≤ p.PARAM_OMEGA_E) :
    ∃ pre, fast_convolution_mult_trace p o a1 a2 (w + 1) ctx = pre ++
      [Event.read Buffer.table
        ((shuffle_table (cast_u16 (seedexpander ctx (TABLE <<< 1)).1)).getD
          (a1.getD ((shuffle_sparse p (w + 1) (cast_u16 (seedexpander
            (seedexpander ctx (TABLE <<< 1)).2 ((w + 1) <<< 1)).1)).getD w 0) 0 &&& 0xf) 0 *
            (VEC_N_SIZE_64 p + 1) + VEC_N_SIZE_64 p),
       Event.write Buffer.res_16
        ((a1.getD ((shuffle_sparse p (w + 1) (cast_u16 (seedexpander
            (seedexpander ctx (TABLE <<< 1)).2 ((w + 1) <<< 1)).1)).getD w 0) 0 >>> 4) +
          4 * VEC_N_SIZE_64 p),
       Event.write Buffer.res_16
        ((a1.getD ((shuffle_sparse p (w + 1) (cast_u16 (seedexpander
            (seedexpander ctx (TABLE <<< 1)).2 ((w + 1) <<< 1)).1)).getD w 0) 0 >>> 4) +
          4 * VEC_N_SIZE_64 p + 1),
       Event.write Buffer.res_16
        ((a1.getD ((shuffle_sparse p (w + 1) (cast_u16 (seedexpander
            (seedexpander ctx (TABLE <<< 1)).2 ((w + 1) <<< 1)).1)).getD w 0) 0 >>> 4) +
          4 * VEC_N_SIZE_64 p + 2),
       Event.write Buffer.res_16
        ((a1.getD ((shuffle_sparse p (w + 1) (cast_u16 (seedexpander
            (seedexpander ctx (TABLE <<< 1)).2 ((w + 1) <<< 1)).1)).getD w 0) 0 >>> 4) +
          4 * VEC_N_SIZE_64 p + 3),
       Event.branch false, Event.branch false] := by
  obtain ⟨h1, _, h3, h4, _⟩ := setup_run_mem p o a1 a2 (w + 1) ctx hw
  have hne2 : Buffer.permuted_table ≠ Buffer.res_16 := by intro h; cases h
  have hne3 : Buffer.permuted_sparse_vect ≠ Buffer.res_16 := by intro h; cases h
  have hne4 : Buffer.a1 ≠ Buffer.res_16 := by intro h; cases h
  have hm := accumulate_run_mem p w (setup_run p (w + 1) ctx (initial_machine p o a1 a2))
  unfold for_loop at hm
  rw [tick_mem] at hm
  obtain ⟨pre, hpre⟩ := term_run_trace_suffix p w (tick true ((List.range w).foldl
    (fun s i => term_run p i (tick true s))
    (setup_run p (w + 1) ctx (initial_machine p o a1 a2))))
  rw [tick_mem, hm, upd_ne _ _ _ _ hne2, upd_ne _ _ _ _ hne3, upd_ne _ _ _ _ hne4, h1, h3,
    h4] at hpre
  refine ⟨pre, ?_⟩
  unfold fast_convolution_mult_trace fast_convolution_mult_run
  rw [for_loop_succ, tick_trace, hpre]
  simp only [List.append_assoc, List.cons_append, List.nil_append]

/-! ### The events of lines 81-120 open the run -/

theorem trace_extends_wr (s : Machine) (b : Buffer) (i v : Nat) :
    ∃ rest, (wr s b i v).trace = s.trace ++ rest := ⟨_, rfl⟩

/-- A loop whose iterations only append events only appends events. -/
theorem for_loop_extends (n : Nat) (body : Nat → Machine → Machine)
    (hbody : ∀ i s, ∃ rest, (body i s).trace = s.trace ++ rest) (s : Machine) :
    ∃ rest, (for_loop n body s).trace = s.trace ++ rest := by
  refine for_loop_rel (fun (s1 : Machine) (_ : Unit) => ∃ rest, s1.trace = s.trace ++ rest) n
    body (fun u _ => u) s () ?_ ?_ ⟨[], by simp⟩
  · intro c s1 _ h
    obtain ⟨r, hr⟩ := h
    exact ⟨r ++ [Event.branch c], by rw [tick_trace, hr, List.append_assoc]⟩
  · intro i s1 _ _ h
    obtain ⟨r, hr⟩ := h
    obtain ⟨r2, hr2⟩ := hbody i s1
    exact ⟨r ++ r2, by rw [hr2, hr, List.append_assoc]⟩

theorem xor_word_run_extends (pt q j : Nat) (s : Machine) :
    ∃ rest, (xor_word_run pt q j s).trace = s.trace ++ rest :=
  ⟨_, xor_word_run_trace pt q j s⟩

theorem extends_rd {s s0 : Machine} (h : ∃ r0, s0.trace = s.trace ++ r0) (b : Buffer)
    (i : Nat) : ∃ r, (rd s0 b i).2.trace = s.trace ++ r := by
  obtain ⟨r0, h0⟩ := h
  exact ⟨r0 ++ [Event.read b i], by rw [rd_trace, h0, List.append_assoc]⟩

theorem term_run_extends (p : Params) (i : Nat) (s : Machine) :
    ∃ rest, (term_run p i s).trace = s.trace ++ rest := by
  have key : ∀ (c q : Nat) (s0 : Machine), (∃ r0, s0.trace = s.trace ++ r0) →
      ∃ rest, (for_loop (VEC_N_SIZE_64 p + 1) (fun j s1 => xor_word_run c q j s1) s0).trace =
        s.trace ++ rest := by
    intro c q s0 h0
    obtain ⟨r0, hr0⟩ := h0
    obtain ⟨r, hr⟩ := for_loop_extends (VEC_N_SIZE_64 p + 1)
      (fun j s1 => xor_word_run c q j s1) (fun j s1 => xor_word_run_extends c q j s1) s0
    exact ⟨r0 ++ r, by rw [hr, hr0, List.append_assoc]⟩
  unfold term_run
  simp only []
  exact key _ _ _ (extends_rd (extends_rd (extends_rd (extends_rd (@extends_rd s
    (set_carry s 0) ⟨[], (List.append_nil s.trace).symm⟩ _ _) _ _) _ _) _ _) _ _)

/-- The events of lines 81-120 are the first events of the run. -/
theorem setup_trace_opens_run (p : Params) (o a1 a2 : List Nat) (weight : Nat)
    (ctx : seedexpander_state) :
    ∃ rest, fast_convolution_mult_trace p o a1 a2 weight ctx =
      setup_trace p o a1 a2 weight ctx ++ rest :=
  for_loop_extends weight (fun i s => term_run p i s) (fun i s => term_run_extends p i s) _

/-! ## Claims -/

/-- C1. Ring multiplication: when `PARAM_N mod 64 != 0`, `weight <= PARAM_OMEGA_E`,
every exponent `a1[i]` (`i < weight`) lies in `[0, PARAM_N)` (repetitions allowed) and
`a2` is canonical, then for every seed expander state `vect_mul` writes into `o` the
`VEC_N_SIZE_64`-word representation of the XOR over `i < weight` of `a2` cyclically
rotated left by `a1[i]` positions modulo `PARAM_N`. -/
theorem vect_mul_ring_multiplication (p : Params) (a1 a2 : List Nat) (weight : Nat)
    (ctx : seedexpander_state) (hn : p.PARAM_N % 64 ≠ 0) (ha1 : sparse_ok p a1 weight)
    (ha2 : is_canonical p a2) :
    (vect_mul p a1 a2 weight ctx).1 =
      to_words (VEC_N_SIZE_64 p) (sparse_mul_ref p.PARAM_N a1 weight (val64 a2)) :=
  vect_mul_ref_of_contract p a1 a2 weight ctx hn ha1 ha2

theorem vect_mul_ring_multiplication_witness :
    (vect_mul toy70 [69, 3, 64, 3] [0x8000000000000001, 0x21] 4 sample_ctx).1 =
      to_words 2 (sparse_mul_ref 70 [69, 3, 64, 3] 4 (val64 [0x8000000000000001, 0x21])) :=
  vect_mul_ring_multiplication toy70 [69, 3, 64, 3] [0x8000000000000001, 0x21] 4 sample_ctx
    (by decide) (by decide) (by decide)

/-- C2 (the code departs from the claim). For an odd `PARAM_OMEGA` the two shares of
`safe_mul` do not recombine to the product: in the ring of degree 70 with
`PARAM_OMEGA = 3`, for `a1 = {69, 3, 64}`, `a2 = {0x8000000000000001, 0x21}`, the
sampled mask `{7, 0}` and every seed expander state, `o XOR mask` differs from
`vect_mul(a1, a2)`; it is `vect_mul(a1, a2) XOR a2`, because each zero entry padding
`sparse_lo` and `sparse_hi` is multiplied as the term `X^0`. -/
theorem safe_mul_odd_weight_mismatch (ctx : seedexpander_state) :
    vect_add (safe_mul toy70 [7, 0] [69, 3, 64] [0x8000000000000001, 0x21] 3 ctx).1.o
        (safe_mul toy70 [7, 0] [69, 3, 64] [0x8000000000000001, 0x21] 3 ctx).1.mask 2 ≠
      (vect_mul toy70 [69, 3, 64] [0x8000000000000001, 0x21] 3 ctx).1 ∧
    vect_add (safe_mul toy70 [7, 0] [69, 3, 64] [0x8000000000000001, 0x21] 3 ctx).1.o
        (safe_mul toy70 [7, 0] [69, 3, 64] [0x8000000000000001, 0x21] 3 ctx).1.mask 2 =
      vect_add (vect_mul toy70 [69, 3, 64] [0x8000000000000001, 0x21] 3 ctx).1
        [0x8000000000000001, 0x21] 2 := by
  have hs := safe_mul_ctx_indep toy70 [7, 0] [69, 3, 64] [0x8000000000000001, 0x21] 3 ctx
    sample_ctx (by decide) (by decide)
    (getD_lt_of_forall_mem _ _ (by norm_num) (by decide))
  have hv := vect_mul_ctx_indep toy70 [69, 3, 64] [0x8000000000000001, 0x21] 3 ctx sample_ctx
    (by decide) (by decide) (by decide) (by decide)
    (getD_lt_of_forall_mem _ _ (by norm_num) (by decide)) (by decide)
  rw [hs, hv, safe_mul_toy70_eval.1, safe_mul_toy70_eval.2]
  decide

/-- C3. Reduction correctness: when `PARAM_N mod 64 != 0` and `a` is a buffer of
`2 * VEC_N_SIZE_64 + 1` words whose set bits all lie at positions `< 2 * PARAM_N`,
`reduce` returns the words of the bit-by-bit reference reduction of `a` modulo
`X^n - 1`, a polynomial of degree `< n`; bit `k < n` of the result is bit `k` of `a`
XOR bit `k + n` of `a`. -/
theorem reduce_correct (p : Params) (a : List Nat) (hn : p.PARAM_N % 64 ≠ 0)
    (hlen : a.length = 2 * VEC_N_SIZE_64 p + 1) (hb : ∀ w ∈ a, w < 2 ^ 64)
    (hdeg : val64 a < 2 ^ (2 * p.PARAM_N)) :
    reduce p a = to_words (VEC_N_SIZE_64 p) (reduce_ref p.PARAM_N (64 * a.length) (val64 a)) ∧
    reduce_ref p.PARAM_N (64 * a.length) (val64 a) < 2 ^ p.PARAM_N ∧
    ∀ k, k < p.PARAM_N → bit64 (reduce p a) k = (bit64 a k ^^ bit64 a (k + p.PARAM_N)) := by
  have hb' := getD_lt_of_forall_mem a _ (by norm_num) hb
  have hW : VEC_N_SIZE_64 p = (p.PARAM_N + 63) / 64 := rfl
  refine ⟨?_, ?_, ?_⟩
  · apply eq_to_words _ _ _ (length_reduce p a) (reduce_bounded p a hb')
    intro k _
    rw [reduce_bit p a k hn hb']
    by_cases hk : k < p.PARAM_N
    · rw [decide_eq_true hk, Bool.true_and, testBit_reduce_ref,
        reduce_ref_fold _ _ _ hk hdeg, decide_eq_true (show k < 64 * a.length by omega),
        decide_eq_true (show k + p.PARAM_N < 64 * a.length by omega), Bool.true_and,
        Bool.true_and, testBit_val64 _ _ hb', testBit_val64 _ _ hb']
    · rw [decide_eq_false hk, Bool.false_and, reduce_ref_high _ _ _ _ (by omega) (by omega)]
  · apply Nat.lt_pow_two_of_testBit
    intro k hk
    exact reduce_ref_high _ _ _ _ (by omega) hk
  · intro k hk
    rw [reduce_bit p a k hn hb', decide_eq_true hk, Bool.true_and]

theorem reduce_correct_witness :
    reduce toy70 [0x8000000000000001, 0x21, 0xF0, 0, 0] =
      to_words 2 (reduce_ref 70 (64 * 5) (val64 [0x8000000000000001, 0x21, 0xF0, 0, 0])) ∧
    reduce_ref 70 (64 * 5) (val64 [0x8000000000000001, 0x21, 0xF0, 0, 0]) < 2 ^ 70 ∧
    ∀ k, k < 70 → bit64 (reduce toy70 [0x8000000000000001, 0x21, 0xF0, 0, 0]) k =
      (bit64 [0x8000000000000001, 0x21, 0xF0, 0, 0] k ^^
        bit64 [0x8000000000000001, 0x21, 0xF0, 0, 0] (k + 70)) :=
  reduce_correct toy70 [0x8000000000000001, 0x21, 0xF0, 0, 0] (by decide) (by decide)
    (by decide) (by decide)

/-- C4. Single-term shift: for an exponent `e` in `[0, PARAM_N)`, a canonical `a2`
and every seed expander state, `vect_mul` with weight 1 and `a1 = {e}` returns
`VEC_N_SIZE_64` words of 64 bits whose bit `k` is bit `(k - e) mod n` of `a2` for
`k < n` and zero for `k >= n`: `a2` rotated left by `e` positions modulo `n`. -/
theorem vect_mul_single_term (p : Params) (e : Nat) (a2 : List Nat) (ctx : seedexpander_state)
    (hn : p.PARAM_N % 64 ≠ 0) (hE : 1 ≤ p.PARAM_OMEGA_E) (he : e < p.PARAM_N)
    (ha2 : is_canonical p a2) :
    (vect_mul p [e] a2 1 ctx).1 = to_words (VEC_N_SIZE_64 p) (rotl p.PARAM_N e (val64 a2)) ∧
    ∀ k, bit64 (vect_mul p [e] a2 1 ctx).1 k =
      (decide (k < p.PARAM_N) && bit64 a2 ((k + p.PARAM_N - e) % p.PARAM_N)) := by
  have hb := canonical_bounded p a2 ha2
  have hW : VEC_N_SIZE_64 p = (p.PARAM_N + 63) / 64 := rfl
  have hok : sparse_ok p [e] 1 := by
    refine ⟨hE, by norm_num, ?_⟩
    intro i hi
    have : i = 0 := by omega
    subst this
    exact he
  have hmul := vect_mul_ref_of_contract p [e] a2 1 ctx hn hok ha2
  have href : sparse_mul_ref p.PARAM_N [e] 1 (val64 a2) = rotl p.PARAM_N e (val64 a2) := by
    unfold sparse_mul_ref
    rw [show List.range 1 = [0] from rfl]
    simp
  rw [href] at hmul
  refine ⟨hmul, ?_⟩
  intro k
  rw [hmul, bit64_to_words, testBit_rotl, testBit_val64 _ _ hb, testBit_val64 _ _ hb]
  by_cases hk : k < p.PARAM_N
  · rw [decide_eq_true hk, decide_eq_true (show k < 64 * VEC_N_SIZE_64 p by omega),
      Bool.true_and, Bool.true_and, Bool.true_and]
    by_cases hek : e ≤ k
    · rw [add_sub_mod_of_le _ _ _ hk hek, decide_eq_true hek, Bool.true_and,
        bit64_of_val64_lt a2 _ (p.PARAM_N - e + k) hb ha2.2.2 (by omega), Bool.or_false]
    · rw [add_sub_mod_of_lt _ _ _ he (by omega), decide_eq_false hek, Bool.false_and,
        Bool.false_or]
  · rw [decide_eq_false hk, Bool.false_and, Bool.false_and, Bool.and_false]

theorem vect_mul_single_term_witness :
    (vect_mul toy70 [67] [0x8000000000000001, 0x21] 1 sample_ctx2).1 =
      to_words 2 (rotl 70 67 (val64 [0x8000000000000001, 0x21])) ∧
    ∀ k, bit64 (vect_mul toy70 [67] [0x8000000000000001, 0x21] 1 sample_ctx2).1 k =
      (decide (k < 70) && bit64 [0x8000000000000001, 0x21] ((k + 70 - 67) % 70)) :=
  vect_mul_single_term toy70 67 [0x8000000000000001, 0x21] sample_ctx2 (by decide) (by decide)
    (by decide) (by decide)

/-- C5. Distributivity over XOR: for a sparse `a` within the contract, dense `b` and
`c` of `VEC_N_SIZE_64` 64-bit words (canonical ones in particular) and any three seed
expander states, `vect_mul(a, b XOR c) = vect_mul(a, b) XOR vect_mul(a, c)`. -/
theorem vect_mul_distrib_xor (p : Params) (a b c : List Nat) (weight : Nat)
    (ctx1 ctx2 ctx3 : seedexpander_state) (hn : p.PARAM_N % 64 ≠ 0)
    (ha : sparse_ok p a weight) (hb : is_canonical p b) (hc : is_canonical p c) :
    (vect_mul p a (vect_add b c (VEC_N_SIZE_64 p)) weight ctx1).1 =
      vect_add (vect_mul p a b weight ctx2).1 (vect_mul p a c weight ctx3).1
        (VEC_N_SIZE_64 p) := by
  have bb := canonical_bounded p b hb
  have bc := canonical_bounded p c hc
  have hw2 : weight ≤ 65536 := by have := ha.2.1; omega
  obtain ⟨l1, b1, e1⟩ := vect_mul_bit p a (vect_add b c (VEC_N_SIZE_64 p)) weight ctx1 hn ha.1
    hw2 ha.2.2 (bounded_vect_add _ _ _ bb bc) (length_vect_add _ _ _)
  obtain ⟨l2, b2, e2⟩ := vect_mul_bit p a b weight ctx2 hn ha.1 hw2 ha.2.2 bb hb.1
  obtain ⟨l3, b3, e3⟩ := vect_mul_bit p a c weight ctx3 hn ha.1 hw2 ha.2.2 bc hc.1
  apply list_eq_of_bit64 _ _ (VEC_N_SIZE_64 p) l1 (length_vect_add _ _ _) b1
    (bounded_vect_add _ _ _ b2 b3)
  intro k
  rw [bit64_vect_add_of_length _ _ _ _ l2 l3, e1, e2, e3,
    conv_bit_vect_add _ _ _ _ _ _ hb.1 hc.1, conv_bit_vect_add _ _ _ _ _ _ hb.1 hc.1]
  cases decide (k < p.PARAM_N) <;> cases conv_bit a b weight k <;>
    cases conv_bit a c weight k <;> cases conv_bit a b weight (k + p.PARAM_N) <;>
    cases conv_bit a c weight (k + p.PARAM_N) <;> rfl

theorem vect_mul_distrib_xor_witness :
    (vect_mul toy70 [69, 3, 64] (vect_add [0x8000000000000001, 0x21] [0xFF00, 0x3F] 2) 3
        sample_ctx).1 =
      vect_add (vect_mul toy70 [69, 3, 64] [0x8000000000000001, 0x21] 3 sample_ctx2).1
        (vect_mul toy70 [69, 3, 64] [0xFF00, 0x3F] 3 sample_ctx).1 2 :=
  vect_mul_distrib_xor toy70 [69, 3, 64] [0x8000000000000001, 0x21] [0xFF00, 0x3F] 3
    sample_ctx sample_ctx2 sample_ctx (by decide) (by decide) (by decide) (by decide)

/-- C6. Canonical form: for every input buffer of 64-bit words (no assumption on
its degree), the output of `reduce` has `VEC_N_SIZE_64` words of 64 bits and every
bit at position `>= PARAM_N` zero; consequently every output of `vect_mul` is in
canonical form, whatever its arguments. -/
theorem reduce_output_canonical (p : Params) (a a1 a2 : List Nat) (weight : Nat)
    (ctx : seedexpander_state) (hb : ∀ w ∈ a, w < 2 ^ 64) :
    is_canonical p (reduce p a) ∧ (∀ k, p.PARAM_N ≤ k → bit64 (reduce p a) k = false) ∧
    is_canonical p (vect_mul p a1 a2 weight ctx).1 :=
  ⟨reduce_canonical p a (getD_lt_of_forall_mem a _ (by norm_num) hb),
    fun k hk => reduce_high_bits p a k hk, vect_mul_canonical p a1 a2 weight ctx⟩

theorem reduce_output_canonical_witness :
    is_canonical toy70 (reduce toy70 [0xFFFFFFFFFFFFFFFF, 0xFFFFFFFFFFFFFFFF,
      0xFFFFFFFFFFFFFFFF, 0xFFFFFFFFFFFFFFFF, 0xFFFFFFFFFFFFFFFF]) ∧
    (∀ k, toy70.PARAM_N ≤ k → bit64 (reduce toy70 [0xFFFFFFFFFFFFFFFF, 0xFFFFFFFFFFFFFFFF,
      0xFFFFFFFFFFFFFFFF, 0xFFFFFFFFFFFFFFFF, 0xFFFFFFFFFFFFFFFF]) k = false) ∧
    is_canonical toy70 (vect_mul toy70 [1, 2, 3] [7, 9] 3 sample_ctx).1 :=
  reduce_output_canonical toy70 [0xFFFFFFFFFFFFFFFF, 0xFFFFFFFFFFFFFFFF,
      0xFFFFFFFFFFFFFFFF, 0xFFFFFFFFFFFFFFFF, 0xFFFFFFFFFFFFFFFF] [1, 2, 3] [7, 9] 3 sample_ctx
    (by decide)

/-- C7 (refuted as stated). Two calls of `safe_mul` with the same `a1`, `a2`, `weight`
and the same seed expander state, but with different masks drawn by the fixed-weight
sampler (it is seeded by the global `shake_prng`, not by `ctx`), return different
shares. -/
theorem safe_mul_mask_not_from_ctx :
    (safe_mul toy17 [3] [0, 5] [1] 2 sample_ctx).1 ≠
      (safe_mul toy17 [5] [0, 5] [1] 2 sample_ctx).1 := by
  decide

/-- C7 (amended). Two calls of `safe_mul` with the same `a1`, `a2`, `weight` and the
same initial mask drawn by the fixed-weight sampler return bit-identical `o` and
bit-identical `mask`, whatever the states of the seed expander `ctx` in the two calls
(a replayed state in particular), for operands within the caller contract. -/
theorem safe_mul_deterministic_given_mask (p : Params) (mask0 a1 a2 : List Nat) (weight : Nat)
    (ctx ctx' : seedexpander_state) (hn : p.PARAM_N % 64 ≠ 0)
    (ha1 : sparse_ok p a1 p.PARAM_OMEGA) (ha2 : is_canonical p a2) :
    (safe_mul p mask0 a1 a2 weight ctx).1.o = (safe_mul p mask0 a1 a2 weight ctx').1.o ∧
    (safe_mul p mask0 a1 a2 weight ctx).1.mask = (safe_mul p mask0 a1 a2 weight ctx').1.mask := by
  have h := safe_mul_ctx_indep p mask0 a1 a2 weight ctx ctx' hn ha1 (canonical_bounded p a2 ha2)
  exact ⟨by rw [h], by rw [h]⟩

theorem safe_mul_deterministic_given_mask_witness :
    (safe_mul toy70 [7, 0] [69, 3, 64] [0x8000000000000001, 0x21] 3 sample_ctx).1.o =
      (safe_mul toy70 [7, 0] [69, 3, 64] [0x8000000000000001, 0x21] 3 sample_ctx2).1.o ∧
    (safe_mul toy70 [7, 0] [69, 3, 64] [0x8000000000000001, 0x21] 3 sample_ctx).1.mask =
      (safe_mul toy70 [7, 0] [69, 3, 64] [0x8000000000000001, 0x21] 3 sample_ctx2).1.mask :=
  safe_mul_deterministic_given_mask toy70 [7, 0] [69, 3, 64] [0x8000000000000001, 0x21] 3
    sample_ctx sample_ctx2 (by decide) (by decide) (by decide)

/-- C8. Fixed-vector scenario: in a ring of degree 17 (one word, `RED_MASK = 0x1FFFF`)
with room for two terms, for every seed expander state `vect_mul` of `a1 = {0, 5}`
(weight 2) and `a2 = 0x1FFFF` returns `a2` rotated by 0 XOR `a2` rotated by 5 modulo
`X^17 - 1`, which is the zero word. -/
theorem vect_mul_fixed_vector (p : Params) (ctx : seedexpander_state) (hN : p.PARAM_N = 17)
    (hE : 2 ≤ p.PARAM_OMEGA_E) :
    VEC_N_SIZE_64 p = 1 ∧ RED_MASK p = 0x1FFFF ∧
    (vect_mul p [0, 5] [0x1FFFF] 2 ctx).1 =
      to_words 1 (rotl 17 0 0x1FFFF ^^^ rotl 17 5 0x1FFFF) ∧
    (vect_mul p [0, 5] [0x1FFFF] 2 ctx).1 = [0] := by
  have hW : VEC_N_SIZE_64 p = 1 := by unfold VEC_N_SIZE_64; rw [hN]
  have hM : RED_MASK p = 0x1FFFF := by unfold RED_MASK; rw [hN]; rfl
  have hok : sparse_ok p [0, 5] 2 := by
    refine ⟨hE, by norm_num, ?_⟩
    intro i hi
    rw [hN]
    rcases i with _ | _ | i
    · decide
    · decide
    · omega
  have hcan : is_canonical p [0x1FFFF] := by
    refine ⟨by rw [hW]; rfl, by decide, ?_⟩
    rw [hN]
    decide
  have hmul := vect_mul_ref_of_contract p [0, 5] [0x1FFFF] 2 ctx (by rw [hN]; decide) hok hcan
  rw [hW, hN] at hmul
  refine ⟨hW, hM, ?_, ?_⟩
  · rw [hmul]
    decide
  · rw [hmul]
    decide

theorem vect_mul_fixed_vector_witness :
    VEC_N_SIZE_64 toy17 = 1 ∧ RED_MASK toy17 = 0x1FFFF ∧
    (vect_mul toy17 [0, 5] [0x1FFFF] 2 sample_ctx).1 =
      to_words 1 (rotl 17 0 0x1FFFF ^^^ rotl 17 5 0x1FFFF) ∧
    (vect_mul toy17 [0, 5] [0x1FFFF] 2 sample_ctx).1 = [0] :=
  vect_mul_fixed_vector toy17 sample_ctx (by decide) (by decide)

set_option maxRecDepth 1000000 in
/-- C9 (counterexample).  Two runs of `fast_convolution_mult` with the same
parameters (`n = 70`), the same weight 2, the same seed-expander stream and the same
zeroed output buffer, both within the caller contract, but with the exponents
`[3, 64]` against `[21, 40]` (and the dense operands `[1, 0]` against `[2, 0]`) do not
produce the same sequence of events.  The permuted term order is `[0, 1]`, so the last
term processed has the exponent `64` in the first run and `40` in the second: the
first run ends by reading the table at index `permuted_table[64 & 0xf] * 3 + 2 = 41`
and writing the output at the 16-bit offsets `(64 >> 4) + 8 + t = 12 .. 15`, the
second by reading it at `permuted_table[40 & 0xf] * 3 + 2 = 2` and writing at
`(40 >> 4) + 8 + t = 10 .. 13`. -/
theorem trace_depends_on_exponent :
    sparse_ok toy70 [3, 64] 2 ∧ sparse_ok toy70 [21, 40] 2 ∧
    fast_convolution_mult_trace toy70 [0, 0, 0, 0, 0] [3, 64] [1, 0] 2 sample_ctx ≠
      fast_convolution_mult_trace toy70 [0, 0, 0, 0, 0] [21, 40] [2, 0] 2 sample_ctx ∧
    (∃ pre, fast_convolution_mult_trace toy70 [0, 0, 0, 0, 0] [3, 64] [1, 0] 2 sample_ctx =
      pre ++ [Event.read Buffer.table 41, Event.write Buffer.res_16 12,
        Event.write Buffer.res_16 13, Event.write Buffer.res_16 14,
        Event.write Buffer.res_16 15, Event.branch false, Event.branch false]) ∧
    (∃ pre, fast_convolution_mult_trace toy70 [0, 0, 0, 0, 0] [21, 40] [2, 0] 2 sample_ctx =
      pre ++ [Event.read Buffer.table 2, Event.write Buffer.res_16 10,
        Event.write Buffer.res_16 11, Event.write Buffer.res_16 12,
        Event.write Buffer.res_16 13, Event.branch false, Event.branch false]) := by
  have hw : 1 + 1 ≤ toy70.PARAM_OMEGA_E := by decide
  have hpsv : (shuffle_sparse toy70 (1 + 1) (cast_u16 (seedexpander
      (seedexpander sample_ctx (TABLE <<< 1)).2 ((1 + 1) <<< 1)).1)).getD 1 0 = 1 := by decide
  have hA : (shuffle_table (cast_u16 (seedexpander sample_ctx (TABLE <<< 1)).1)).getD
      (64 &&& 0xf) 0 = 13 := by decide
  have hB : (shuffle_table (cast_u16 (seedexpander sample_ctx (TABLE <<< 1)).1)).getD
      (40 &&& 0xf) 0 = 0 := by decide
  obtain ⟨preA, hpA⟩ := fast_convolution_mult_trace_suffix toy70 [0, 0, 0, 0, 0] [3, 64] [1, 0] 1
    sample_ctx hw
  obtain ⟨preB, hpB⟩ := fast_convolution_mult_trace_suffix toy70 [0, 0, 0, 0, 0] [21, 40] [2, 0] 1
    sample_ctx hw
  rw [hpsv] at hpA hpB
  rw [show ([3, 64] : List Nat).getD 1 0 = 64 from rfl, hA] at hpA
  rw [show ([21, 40] : List Nat).getD 1 0 = 40 from rfl, hB] at hpB
  refine ⟨by decide, by decide, ?_, ⟨preA, hpA⟩, ⟨preB, hpB⟩⟩
  intro h
  rw [hpA, hpB] at h
  have h2 := List.append_inj_right' h rfl
  have h3 : Event.read Buffer.table 41 = Event.read Buffer.table 2 := (List.cons.inj h2).1
  cases h3

/-- C9 (amended).  In the instrumented run of `fast_convolution_mult`, whose memory
changes are those of the function (the output buffer it leaves is the one
`fast_convolution_mult` returns): (1) the sequence of loop-test outcomes, hence
every trip count, is the same for any two runs with the same parameters and weight,
whatever the exponents, the dense operand, the output buffer and the stream;
(2) the events of lines 81-120 (fills, seed-expander stores, both swap passes, table
construction), which open the run, are the same for any two runs with the same
parameters, weight and stream, whatever the exponents, the dense operand and the
output buffer; (3) the whole sequence of events, accumulation loop included, is the
same for two runs that differ in the dense operand and the output buffer only. -/
theorem trace_secret_independence (p : Params) (o a1 a2 o' a1' a2' : List Nat) (weight : Nat)
    (ctx ctx' : seedexpander_state) (hw : weight ≤ p.PARAM_OMEGA_E) :
    as_u64 ((fast_convolution_mult_run p weight ctx (initial_machine p o a1 a2)).mem
      Buffer.res_16) = (fast_convolution_mult p o a1 a2 weight ctx).1 ∧
    branches (fast_convolution_mult_trace p o a1 a2 weight ctx) =
      branches (fast_convolution_mult_trace p o' a1' a2' weight ctx') ∧
    (∃ rest, fast_convolution_mult_trace p o a1 a2 weight ctx =
      setup_trace p o a1 a2 weight ctx ++ rest) ∧
    setup_trace p o a1 a2 weight ctx = setup_trace p o' a1' a2' weight ctx ∧
    fast_convolution_mult_trace p o a1 a2 weight ctx =
      fast_convolution_mult_trace p o' a1 a2' weight ctx :=
  ⟨fast_convolution_mult_run_mem p o a1 a2 weight ctx hw,
    branches_trace_eq p o a1 a2 o' a1' a2' weight ctx ctx',
    setup_trace_opens_run p o a1 a2 weight ctx,
    setup_trace_eq p o a1 a2 o' a1' a2' weight ctx,
    trace_eq_of_sparse_eq p o a1 a2 o' a2' weight ctx⟩

/-- C9 (amended), witness: `n = 70`, weight 3, the exponents `[69, 3, 64]` against
`[1, 2, 5]`. -/
theorem trace_secret_independence_witness :
    3 ≤ toy70.PARAM_OMEGA_E ∧
    (as_u64 ((fast_convolution_mult_run toy70 3 sample_ctx
        (initial_machine toy70 [0, 0, 0, 0, 0] [69, 3, 64] [0x8000000000000001, 0x21])).mem
      Buffer.res_16) =
      (fast_convolution_mult toy70 [0, 0, 0, 0, 0] [69, 3, 64] [0x8000000000000001, 0x21] 3
        sample_ctx).1 ∧
    branches (fast_convolution_mult_trace toy70 [0, 0, 0, 0, 0] [69, 3, 64]
        [0x8000000000000001, 0x21] 3 sample_ctx) =
      branches (fast_convolution_mult_trace toy70 [5, 0, 9, 0, 1] [1, 2, 5] [7, 0] 3
        sample_ctx2) ∧
    (∃ rest, fast_convolution_mult_trace toy70 [0, 0, 0, 0, 0] [69, 3, 64]
        [0x8000000000000001, 0x21] 3 sample_ctx =
      setup_trace toy70 [0, 0, 0, 0, 0] [69, 3, 64] [0x8000000000000001, 0x21] 3 sample_ctx ++
        rest) ∧
    setup_trace toy70 [0, 0, 0, 0, 0] [69, 3, 64] [0x8000000000000001, 0x21] 3 sample_ctx =
      setup_trace toy70 [5, 0, 9, 0, 1] [1, 2, 5] [7, 0] 3 sample_ctx ∧
    fast_convolution_mult_trace toy70 [0, 0, 0, 0, 0] [69, 3, 64] [0x8000000000000001, 0x21] 3
        sample_ctx =
      fast_convolution_mult_trace toy70 [5, 0, 9, 0, 1] [69, 3, 64] [7, 0] 3 sample_ctx) :=
  ⟨by decide, trace_secret_independence toy70 [0, 0, 0, 0, 0] [69, 3, 64]
    [0x8000000000000001, 0x21] [5, 0, 9, 0, 1] [1, 2, 5] [7, 0] 3 sample_ctx sample_ctx2
    (by decide)⟩

/-- C10. Permutation well-formedness: for every seed expander state and every
`weight <= PARAM_OMEGA_E` (a `uint16_t`), after the two swap passes of
`fast_convolution_mult` the array `permuted_table` is a permutation of `0..15` and
the first `weight` entries of `permuted_sparse_vect` are a permutation of
`0..weight-1`; for `weight <= 1` the second pass performs no swap. -/
theorem permutations_well_formed (p : Params) (weight : Nat) (ctx : seedexpander_state)
    (hw : weight ≤ p.PARAM_OMEGA_E) (hw2 : weight < 65536) :
    (shuffle_table (cast_u16 (seedexpander ctx (TABLE <<< 1)).1)).Perm (List.range 16) ∧
    ((shuffle_sparse p weight
      (cast_u16 (seedexpander (seedexpander ctx (TABLE <<< 1)).2 (weight <<< 1)).1)).take
        weight).Perm (List.range weight) ∧
    (weight ≤ 1 → shuffle_sparse p weight
      (cast_u16 (seedexpander (seedexpander ctx (TABLE <<< 1)).2 (weight <<< 1)).1) =
        (List.range weight).foldl (fun t i => t.set i (i % 65536))
          (List.replicate p.PARAM_OMEGA_E 0)) := by
  refine ⟨shuffle_table_perm _, shuffle_sparse_perm _ _ _ hw (by omega), ?_⟩
  intro h1
  unfold shuffle_sparse
  have : ((weight : Int) - 1).toNat = 0 := by omega
  rw [this]
  rfl

theorem permutations_well_formed_witness :
    (shuffle_table (cast_u16 (seedexpander sample_ctx (TABLE <<< 1)).1)).Perm (List.range 16) ∧
    ((shuffle_sparse toy70 4
      (cast_u16 (seedexpander (seedexpander sample_ctx (TABLE <<< 1)).2 (4 <<< 1)).1)).take
        4).Perm (List.range 4) ∧
    (4 ≤ 1 → shuffle_sparse toy70 4
      (cast_u16 (seedexpander (seedexpander sample_ctx (TABLE <<< 1)).2 (4 <<< 1)).1) =
        (List.range 4).foldl (fun t i => t.set i (i % 65536))
          (List.replicate toy70.PARAM_OMEGA_E 0)) :=
  permutations_well_formed toy70 4 sample_ctx (by decide) (by decide)

set_option maxRecDepth 1000000 in
/-- C11 (refuted as stated). In the ring of degree 70 with `PARAM_OMEGA = 3`, for
`a1 = {69, 3, 64}`, `a2 = {0x8000000000000001, 0x21}` and the sampled mask `{7, 0}`,
the output `o` of `safe_mul` differs from
`m0 XOR vect_mul(sparse_hi, dense_lo) XOR vect_mul(sparse_lo, dense_lo)`: the product
`vect_mul(sparse_lo, dense_hi)`, non-zero here, is accumulated into `o` too. -/
theorem safe_mul_o_has_four_terms :
    (safe_mul toy70 [7, 0] [69, 3, 64] [0x8000000000000001, 0x21] 3 sample_ctx).1.o ≠
      vect_add (vect_add [7, 0]
        (vect_mul toy70 (sparse_hi toy70 [69, 3, 64]) (dense_lo toy70 [0x8000000000000001, 0x21])
          3 sample_ctx).1 2)
        (vect_mul toy70 (sparse_lo toy70 [69, 3, 64]) (dense_lo toy70 [0x8000000000000001, 0x21])
          3 sample_ctx).1 2 ∧
    (vect_mul toy70 (sparse_lo toy70 [69, 3, 64]) (dense_hi toy70 [0x8000000000000001, 0x21])
      3 sample_ctx).1 ≠ [0, 0] := by
  decide

/-- C11 (amended). Accumulation formula of the masked product: for operands within
the caller contract, every sampled mask `m0` and all seed expander states, the output
`o` of `safe_mul` is
`m0 XOR vect_mul(sparse_hi, dense_lo) XOR vect_mul(sparse_lo, dense_hi) XOR
vect_mul(sparse_lo, dense_lo)` and the output `mask` is
`m0 XOR vect_mul(sparse_hi, dense_hi)`, the products taken with weight `PARAM_OMEGA`. -/
theorem safe_mul_accumulation (p : Params) (mask0 a1 a2 : List Nat) (weight : Nat)
    (ctx c1 c2 c3 c4 : seedexpander_state) (hn : p.PARAM_N % 64 ≠ 0)
    (ha1 : sparse_ok p a1 p.PARAM_OMEGA) (ha2 : is_canonical p a2) :
    (safe_mul p mask0 a1 a2 weight ctx).1.o =
      vect_add (vect_add (vect_add mask0
        (vect_mul p (sparse_hi p a1) (dense_lo p a2) p.PARAM_OMEGA c1).1 (VEC_N_SIZE_64 p))
        (vect_mul p (sparse_lo p a1) (dense_hi p a2) p.PARAM_OMEGA c2).1 (VEC_N_SIZE_64 p))
        (vect_mul p (sparse_lo p a1) (dense_lo p a2) p.PARAM_OMEGA c4).1 (VEC_N_SIZE_64 p) ∧
    (safe_mul p mask0 a1 a2 weight ctx).1.mask =
      vect_add mask0 (vect_mul p (sparse_hi p a1) (dense_hi p a2) p.PARAM_OMEGA c3).1
        (VEC_N_SIZE_64 p) :=
  safe_mul_shares_eq p mask0 a1 a2 weight ctx c1 c2 c3 c4 hn ha1 (canonical_bounded p a2 ha2)

theorem safe_mul_accumulation_witness :
    (safe_mul toy70 [7, 0] [69, 3, 64] [0x8000000000000001, 0x21] 3 sample_ctx).1.o =
      vect_add (vect_add (vect_add [7, 0]
        (vect_mul toy70 (sparse_hi toy70 [69, 3, 64]) (dense_lo toy70 [0x8000000000000001, 0x21])
          toy70.PARAM_OMEGA sample_ctx2).1 (VEC_N_SIZE_64 toy70))
        (vect_mul toy70 (sparse_lo toy70 [69, 3, 64]) (dense_hi toy70 [0x8000000000000001, 0x21])
          toy70.PARAM_OMEGA sample_ctx).1 (VEC_N_SIZE_64 toy70))
        (vect_mul toy70 (sparse_lo toy70 [69, 3, 64]) (dense_lo toy70 [0x8000000000000001, 0x21])
          toy70.PARAM_OMEGA sample_ctx2).1 (VEC_N_SIZE_64 toy70) ∧
    (safe_mul toy70 [7, 0] [69, 3, 64] [0x8000000000000001, 0x21] 3 sample_ctx).1.mask =
      vect_add [7, 0]
        (vect_mul toy70 (sparse_hi toy70 [69, 3, 64]) (dense_hi toy70 [0x8000000000000001, 0x21])
          toy70.PARAM_OMEGA sample_ctx).1 (VEC_N_SIZE_64 toy70) :=
  safe_mul_accumulation toy70 [7, 0] [69, 3, 64] [0x8000000000000001, 0x21] 3 sample_ctx
    sample_ctx2 sample_ctx sample_ctx sample_ctx2 (by decide) (by decide) (by decide)

/-- C12 (refuted as stated). In the ring of degree 17 the buffer holding `X^34 = X^(2n)`
(only bit 34 set) is reduced to the zero polynomial, whereas `X^34 mod (X^17 - 1)`,
as the bit-by-bit reference computes it, is the polynomial 1. -/
theorem reduce_drops_bit_two_n :
    val64 [2 ^ 34, 0, 0] = 2 ^ (2 * toy17.PARAM_N) ∧
    reduce toy17 [2 ^ 34, 0, 0] = [0] ∧
    to_words 1 (reduce_ref 17 (64 * 3) (val64 [2 ^ 34, 0, 0])) = [1] := by
  decide

/-- C12 (amended). Reducer contract: for every buffer `a` of `2 * VEC_N_SIZE_64 + 1`
64-bit words (`PARAM_N mod 64 != 0`), `reduce` yields the canonical representative
modulo `X^n - 1` of the coefficients of `a` below `X^(2n)`, hence of `a` itself when
its degree is `< 2n`; coefficients at positions `>= 2n` are discarded, in particular
for `a = X^(2n)` the output is the zero polynomial. -/
theorem reduce_folds_below_two_n (p : Params) (a : List Nat) (hn : p.PARAM_N % 64 ≠ 0)
    (hlen : a.length = 2 * VEC_N_SIZE_64 p + 1) (hb : ∀ w ∈ a, w < 2 ^ 64) :
    reduce p a = to_words (VEC_N_SIZE_64 p) (reduce_ref p.PARAM_N (2 * p.PARAM_N) (val64 a)) ∧
    (val64 a < 2 ^ (2 * p.PARAM_N) →
      reduce p a =
        to_words (VEC_N_SIZE_64 p) (reduce_ref p.PARAM_N (64 * a.length) (val64 a))) ∧
    reduce p (to_words (2 * VEC_N_SIZE_64 p + 1) (2 ^ (2 * p.PARAM_N))) =
      List.replicate (VEC_N_SIZE_64 p) 0 := by
  have hb' := getD_lt_of_forall_mem a _ (by norm_num) hb
  have hW : VEC_N_SIZE_64 p = (p.PARAM_N + 63) / 64 := rfl
  refine ⟨reduce_eq_ref_below p a hn hb', ?_, reduce_two_pow p hn⟩
  intro hdeg
  rw [reduce_ref_len_irrelevant _ _ _ (by omega) hdeg (by omega)]
  exact reduce_eq_ref_below p a hn hb'

theorem reduce_folds_below_two_n_witness :
    reduce toy70 [1, 0, 0x1010, 0, 7] =
      to_words (VEC_N_SIZE_64 toy70)
        (reduce_ref toy70.PARAM_N (2 * toy70.PARAM_N) (val64 [1, 0, 0x1010, 0, 7])) ∧
    (val64 [1, 0, 0x1010, 0, 7] < 2 ^ (2 * toy70.PARAM_N) →
      reduce toy70 [1, 0, 0x1010, 0, 7] =
        to_words (VEC_N_SIZE_64 toy70)
          (reduce_ref toy70.PARAM_N (64 * [1, 0, 0x1010, 0, 7].length)
            (val64 [1, 0, 0x1010, 0, 7]))) ∧
    reduce toy70 (to_words (2 * VEC_N_SIZE_64 toy70 + 1) (2 ^ (2 * toy70.PARAM_N))) =
      List.replicate (VEC_N_SIZE_64 toy70) 0 :=
  reduce_folds_below_two_n toy70 [1, 0, 0x1010, 0, 7] (by decide) (by decide) (by decide)

/-- C13. Zero weight: for every dense `a2`, every content of `a1` and every seed
expander state, `vect_mul` with `weight = 0` returns the all-zero polynomial of
`VEC_N_SIZE_64` words; the bound `weight - 1` of the swap pass is the signed value
`-1`, so the pass performs no swap (the permutation buffer is left untouched), and
the accumulation loop leaves the output untouched. -/
theorem vect_mul_zero_weight (p : Params) (a1 a2 : List Nat) (ctx : seedexpander_state)
    (rnd table pt psv r : List Nat) :
    (vect_mul p a1 a2 0 ctx).1 = List.replicate (VEC_N_SIZE_64 p) 0 ∧
    (((0 : Nat) : Int) - 1 = -1 ∧ List.range (((0 : Nat) : Int) - 1).toNat = []) ∧
    shuffle_sparse p 0 rnd = List.replicate p.PARAM_OMEGA_E 0 ∧
    accumulate p table pt psv a1 0 r = r :=
  ⟨vect_mul_zero_weight_eq p a1 a2 ctx, ⟨by norm_num, rfl⟩, shuffle_sparse_zero_weight p rnd,
    accumulate_zero_weight p table pt psv a1 r⟩

/-- C14. Un-reduced convolution: for a sparse `a1` within the contract (exponents in
`[0, PARAM_N)`), a canonical `a2`, an output buffer of `2 * VEC_N_SIZE_64 + 1` 64-bit
words and every seed expander state, after `fast_convolution_mult` the buffer, read
as a little-endian bit vector, is its initial content XOR the XOR over `i < weight` of
`a2` shifted left by `a1[i]` bits, with no bit lost; on a zero-initialised buffer it
is that sum, whose degree is `< 2n`, the precondition of `reduce`. -/
theorem fast_convolution_mult_unreduced (p : Params) (o a1 a2 : List Nat) (weight : Nat)
    (ctx : seedexpander_state) (ha1 : sparse_ok p a1 weight) (ha2 : is_canonical p a2)
    (ho : o.length = 2 * VEC_N_SIZE_64 p + 1) (hob : ∀ w ∈ o, w < 2 ^ 64) :
    (fast_convolution_mult p o a1 a2 weight ctx).1.length = 2 * VEC_N_SIZE_64 p + 1 ∧
    (∀ w ∈ (fast_convolution_mult p o a1 a2 weight ctx).1, w < 2 ^ 64) ∧
    val64 (fast_convolution_mult p o a1 a2 weight ctx).1 =
      val64 o ^^^ conv_ref a1 weight (val64 a2) ∧
    val64 (fast_convolution_mult p (List.replicate (2 * VEC_N_SIZE_64 p + 1) 0) a1 a2 weight
      ctx).1 = conv_ref a1 weight (val64 a2) ∧
    conv_ref a1 weight (val64 a2) < 2 ^ (2 * p.PARAM_N) := by
  have hb := canonical_bounded p a2 ha2
  have hw2 : weight ≤ 65536 := by have := ha1.2.1; omega
  have hob' := getD_lt_of_forall_mem o _ (by norm_num) hob
  obtain ⟨h1, h2, _⟩ := fast_convolution_mult_spec p o a1 a2 weight ctx ha1.1 hw2 ha1.2.2 hb
    ha2.1 ho
  refine ⟨h1, forall_mem_of_getD_lt _ _ h2,
    fast_convolution_mult_val p o a1 a2 weight ctx ha1.1 hw2 ha1.2.2 hb ha2.1 ho hob', ?_,
    conv_ref_lt _ _ _ _ ha1.2.2 hb ha2.2.2⟩
  rw [fast_convolution_mult_val p _ a1 a2 weight ctx ha1.1 hw2 ha1.2.2 hb ha2.1
    (List.length_replicate _ _) (fun i => by rw [getD_replicate_zero]; norm_num),
    val64_replicate_zero, Nat.zero_xor]

theorem fast_convolution_mult_unreduced_witness :
    (fast_convolution_mult toy70 [5, 0, 9, 0, 1] [69, 3, 64] [0x8000000000000001, 0x21] 3
      sample_ctx).1.length = 2 * VEC_N_SIZE_64 toy70 + 1 ∧
    (∀ w ∈ (fast_convolution_mult toy70 [5, 0, 9, 0, 1] [69, 3, 64] [0x8000000000000001, 0x21] 3
      sample_ctx).1, w < 2 ^ 64) ∧
    val64 (fast_convolution_mult toy70 [5, 0, 9, 0, 1] [69, 3, 64] [0x8000000000000001, 0x21] 3
      sample_ctx).1 =
      val64 [5, 0, 9, 0, 1] ^^^ conv_ref [69, 3, 64] 3 (val64 [0x8000000000000001, 0x21]) ∧
    val64 (fast_convolution_mult toy70 (List.replicate (2 * VEC_N_SIZE_64 toy70 + 1) 0)
      [69, 3, 64] [0x8000000000000001, 0x21] 3 sample_ctx).1 =
      conv_ref [69, 3, 64] 3 (val64 [0x8000000000000001, 0x21]) ∧
    conv_ref [69, 3, 64] 3 (val64 [0x8000000000000001, 0x21]) < 2 ^ (2 * toy70.PARAM_N) :=
  fast_convolution_mult_unreduced toy70 [5, 0, 9, 0, 1] [69, 3, 64] [0x8000000000000001, 0x21] 3
    sample_ctx (by decide) (by decide) (by decide) (by decide)

/-- C15. Independence from the randomness: for a sparse `a1` within the contract
(exponents in `[0, PARAM_N)`), a canonical `a2` and any two seed expander states
`s` and `s'`, `vect_mul` run with `s` and `vect_mul` run with `s'` return the same
words, namely those of the reference product; the permutations never change the
numerical result. -/
theorem vect_mul_independent_of_randomness (p : Params) (a1 a2 : List Nat) (weight : Nat)
    (s s' : seedexpander_state) (hn : p.PARAM_N % 64 ≠ 0) (ha1 : sparse_ok p a1 weight)
    (ha2 : is_canonical p a2) :
    (vect_mul p a1 a2 weight s).1 = (vect_mul p a1 a2 weight s').1 ∧
    (vect_mul p a1 a2 weight s).1 =
      to_words (VEC_N_SIZE_64 p) (sparse_mul_ref p.PARAM_N a1 weight (val64 a2)) :=
  ⟨vect_mul_ctx_indep p a1 a2 weight s s' hn ha1.1 (by have := ha1.2.1; omega) ha1.2.2
      (canonical_bounded p a2 ha2) ha2.1,
    vect_mul_ref_of_contract p a1 a2 weight s hn ha1 ha2⟩

theorem vect_mul_independent_of_randomness_witness :
    (vect_mul toy70 [5, 69, 5, 0] [0x123456789ABCDEF0, 0x3F] 4 sample_ctx).1 =
      (vect_mul toy70 [5, 69, 5, 0] [0x123456789ABCDEF0, 0x3F] 4 sample_ctx2).1 ∧
    (vect_mul toy70 [5, 69, 5, 0] [0x123456789ABCDEF0, 0x3F] 4 sample_ctx).1 =
      to_words 2 (sparse_mul_ref 70 [5, 69, 5, 0] 4 (val64 [0x123456789ABCDEF0, 0x3F])) :=
  vect_mul_independent_of_randomness toy70 [5, 69, 5, 0] [0x123456789ABCDEF0, 0x3F] 4
    sample_ctx sample_ctx2 (by decide) (by decide) (by decide)

/-- C16. Index safety under the caller contract: for `weight <= PARAM_OMEGA_E`,
exponents in `[0, PARAM_N)` and every seed expander state, every array index used by
`fast_convolution_mult` and by `reduce` is below the size of its array; the divisors
of the two swap passes are non-zero, the swaps of the first pass stay at indices
`<= 15` and those of the second at indices `<= weight - 1`, and `reduce` reads only
`a[0 .. 2 * VEC_N_SIZE_64 - 1]`. -/
theorem index_safety (p : Params) (a1 : List Nat) (weight : Nat) (ctx : seedexpander_state)
    (hn : p.PARAM_N % 64 ≠ 0) (ha1 : sparse_ok p a1 weight) :
    (∀ e ∈ fast_convolution_mult_indices p a1 weight ctx, e.2 < capacity p weight e.1) ∧
    (∀ m ∈ shuffle_moduli weight, m ≠ 0) ∧
    (∀ e ∈ table_shuffle_indices (cast_u16 (seedexpander ctx (TABLE <<< 1)).1), e.2 ≤ 15) ∧
    (∀ e ∈ sparse_shuffle_indices weight
      (cast_u16 (seedexpander (seedexpander ctx (TABLE <<< 1)).2 (weight <<< 1)).1),
        e.2 ≤ weight - 1) ∧
    (∀ e ∈ reduce_indices p, e.2 < capacity p weight e.1 ∧
      (e.1 = Buffer.reduce_a → e.2 ≤ 2 * VEC_N_SIZE_64 p - 1)) := by
  have hpt := shuffle_table_perm (cast_u16 (seedexpander ctx (TABLE <<< 1)).1)
  have hpsvp := shuffle_sparse_perm p weight
    (cast_u16 (seedexpander (seedexpander ctx (TABLE <<< 1)).2 (weight <<< 1)).1) ha1.1
    (by have := ha1.2.1; omega)
  have hidx : ∀ i, i < weight → (shuffle_sparse p weight
      (cast_u16 (seedexpander (seedexpander ctx (TABLE <<< 1)).2 (weight <<< 1)).1)).getD i 0 <
        weight := by
    intro i hi
    rw [← getD_take_of_lt _ weight i hi]
    exact perm_range_getD_lt _ _ _ hpsvp hi
  refine ⟨?_, shuffle_moduli_ne_zero weight,
    fun e he => (table_shuffle_indices_safe p weight _ e he).2,
    fun e he => (sparse_shuffle_indices_safe p weight _ ha1.1 e he).2,
    reduce_indices_safe p weight hn⟩
  intro e he
  unfold fast_convolution_mult_indices at he
  simp only [List.mem_append] at he
  rcases he with (((((((h | h) | h) | h) | h) | h) | h) | h) | h
  · exact fill_indices_safe p weight Buffer.permuted_table _ (le_refl _) e h
  · exact expander_indices_safe p weight Buffer.permutation_table _
      (show TABLE <<< 1 ≤ 2 * TABLE by decide) e h
  · exact (table_shuffle_indices_safe p weight _ e h).1
  · exact table_first_indices_safe p weight _ hpt e h
  · exact table_rows_indices_safe p weight _ hpt e h
  · exact fill_indices_safe p weight Buffer.permuted_sparse_vect _ ha1.1 e h
  · refine expander_indices_safe p weight Buffer.permutation_sparse_vect _ ?_ e h
    show weight <<< 1 ≤ 2 * p.PARAM_OMEGA_E
    rw [Nat.shiftLeft_eq]
    have := ha1.1
    omega
  · exact (sparse_shuffle_indices_safe p weight _ ha1.1 e h).1
  · exact accumulate_indices_safe p weight _ _ a1 hpt ha1.1 hidx ha1.2.2 e h

theorem index_safety_witness :
    (∀ e ∈ fast_convolution_mult_indices toy70 [69, 3, 64] 3 sample_ctx,
      e.2 < capacity toy70 3 e.1) ∧
    (∀ m ∈ shuffle_moduli 3, m ≠ 0) ∧
    (∀ e ∈ table_shuffle_indices (cast_u16 (seedexpander sample_ctx (TABLE <<< 1)).1),
      e.2 ≤ 15) ∧
    (∀ e ∈ sparse_shuffle_indices 3
      (cast_u16 (seedexpander (seedexpander sample_ctx (TABLE <<< 1)).2 (3 <<< 1)).1),
        e.2 ≤ 3 - 1) ∧
    (∀ e ∈ reduce_indices toy70, e.2 < capacity toy70 3 e.1 ∧
      (e.1 = Buffer.reduce_a → e.2 ≤ 2 * VEC_N_SIZE_64 toy70 - 1)) :=
  index_safety toy70 [69, 3, 64] 3 sample_ctx (by decide) (by decide)

/-- C17. Effect of zero padding in the operand split: `sparse_lo` and `sparse_hi` are
`PARAM_OMEGA`-entry arrays whose entries outside the copied half are 0, all four
sub-products are taken with weight `PARAM_OMEGA` (the `weight` argument of `safe_mul`
is not used), so each padding entry is multiplied as the term `X^0`. Hence for `a1`
of `PARAM_OMEGA` exponents in `[0, PARAM_N)`, a canonical `a2`, every sampled mask and
all seed expander states, `o XOR mask` is the representation of
`((sum_i X^(a1[i])) + (PARAM_OMEGA mod 2)) * a2 mod (X^n - 1)`: it is `vect_mul(a1, a2)`
when `PARAM_OMEGA` is even and `vect_mul(a1, a2) XOR a2` when it is odd. -/
theorem safe_mul_zero_padding (p : Params) (mask0 a1 a2 : List Nat) (weight weight' : Nat)
    (ctx ctx' : seedexpander_state) (hn : p.PARAM_N % 64 ≠ 0)
    (ha1 : sparse_ok p a1 p.PARAM_OMEGA) (ha2 : is_canonical p a2)
    (hml : mask0.length = VEC_N_SIZE_64 p) (hm : ∀ w ∈ mask0, w < 2 ^ 64) :
    ((sparse_lo p a1).length = p.PARAM_OMEGA ∧ (sparse_hi p a1).length = p.PARAM_OMEGA ∧
      ∀ i, (sparse_lo p a1).getD i 0 = (if i < p.PARAM_OMEGA / 2 then a1.getD i 0 else 0) ∧
        (sparse_hi p a1).getD i 0 =
          (if p.PARAM_OMEGA / 2 ≤ i ∧ i < p.PARAM_OMEGA then a1.getD i 0 else 0)) ∧
    (safe_mul p mask0 a1 a2 weight ctx).1 = (safe_mul p mask0 a1 a2 weight' ctx).1 ∧
    vect_add (safe_mul p mask0 a1 a2 weight ctx).1.o (safe_mul p mask0 a1 a2 weight ctx).1.mask
        (VEC_N_SIZE_64 p) =
      to_words (VEC_N_SIZE_64 p) (sparse_mul_ref p.PARAM_N a1 p.PARAM_OMEGA (val64 a2) ^^^
        (if p.PARAM_OMEGA % 2 = 1 then val64 a2 else 0)) ∧
    (p.PARAM_OMEGA % 2 = 0 →
      vect_add (safe_mul p mask0 a1 a2 weight ctx).1.o
          (safe_mul p mask0 a1 a2 weight ctx).1.mask (VEC_N_SIZE_64 p) =
        (vect_mul p a1 a2 p.PARAM_OMEGA ctx').1) ∧
    (p.PARAM_OMEGA % 2 = 1 →
      vect_add (safe_mul p mask0 a1 a2 weight ctx).1.o
          (safe_mul p mask0 a1 a2 weight ctx).1.mask (VEC_N_SIZE_64 p) =
        vect_add (vect_mul p a1 a2 p.PARAM_OMEGA ctx').1 a2 (VEC_N_SIZE_64 p)) := by
  have hb := canonical_bounded p a2 ha2
  have hm' := getD_lt_of_forall_mem mask0 _ (by norm_num) hm
  have hw2 : p.PARAM_OMEGA ≤ 65536 := by have := ha1.2.1; omega
  obtain ⟨hl, hbd, hbit⟩ := safe_mul_recombine_bit p mask0 a1 a2 weight ctx ctx' hn ha1 ha2 hml hm'
  obtain ⟨lv, bv, _⟩ := vect_mul_bit p a1 a2 p.PARAM_OMEGA ctx' hn ha1.1 hw2 ha1.2.2 hb ha2.1
  have href := vect_mul_ref_of_contract p a1 a2 p.PARAM_OMEGA ctx' hn ha1 ha2
  refine ⟨⟨length_sparse_lo p a1, length_sparse_hi p a1,
    fun i => ⟨getD_sparse_lo p a1 i, getD_sparse_hi p a1 i⟩⟩, rfl, ?_, ?_, ?_⟩
  · apply eq_to_words _ _ _ hl hbd
    intro k hk
    rw [hbit, href, bit64_to_words, decide_eq_true hk, Bool.true_and, Nat.testBit_xor]
    by_cases hodd : p.PARAM_OMEGA % 2 = 1
    · rw [if_pos hodd, decide_eq_true hodd, Bool.true_and, testBit_val64 _ _ hb]
    · rw [if_neg hodd, decide_eq_false hodd, Bool.false_and, Nat.zero_testBit]
  · intro heven
    apply list_eq_of_bit64 _ _ _ hl lv hbd bv
    intro k
    rw [hbit, decide_eq_false (show ¬ p.PARAM_OMEGA % 2 = 1 by omega), Bool.false_and,
      Bool.xor_false]
  · intro hodd
    apply list_eq_of_bit64 _ _ _ hl (length_vect_add _ _ _) hbd (bounded_vect_add _ _ _ bv hb)
    intro k
    rw [hbit, decide_eq_true hodd, Bool.true_and, bit64_vect_add_of_length _ _ _ _ lv ha2.1]

theorem safe_mul_zero_padding_witness :
    ((sparse_lo toy70 [69, 3, 64]).length = toy70.PARAM_OMEGA ∧
      (sparse_hi toy70 [69, 3, 64]).length = toy70.PARAM_OMEGA ∧
      ∀ i, (sparse_lo toy70 [69, 3, 64]).getD i 0 =
          (if i < toy70.PARAM_OMEGA / 2 then [69, 3, 64].getD i 0 else 0) ∧
        (sparse_hi toy70 [69, 3, 64]).getD i 0 =
          (if toy70.PARAM_OMEGA / 2 ≤ i ∧ i < toy70.PARAM_OMEGA then [69, 3, 64].getD i 0
            else 0)) ∧
    (safe_mul toy70 [7, 0] [69, 3, 64] [0x8000000000000001, 0x21] 3 sample_ctx).1 =
      (safe_mul toy70 [7, 0] [69, 3, 64] [0x8000000000000001, 0x21] 0 sample_ctx).1 ∧
    vect_add (safe_mul toy70 [7, 0] [69, 3, 64] [0x8000000000000001, 0x21] 3 sample_ctx).1.o
        (safe_mul toy70 [7, 0] [69, 3, 64] [0x8000000000000001, 0x21] 3 sample_ctx).1.mask
        (VEC_N_SIZE_64 toy70) =
      to_words (VEC_N_SIZE_64 toy70)
        (sparse_mul_ref toy70.PARAM_N [69, 3, 64] toy70.PARAM_OMEGA
          (val64 [0x8000000000000001, 0x21]) ^^^
        (if toy70.PARAM_OMEGA % 2 = 1 then val64 [0x8000000000000001, 0x21] else 0)) ∧
    (toy70.PARAM_OMEGA % 2 = 0 →
      vect_add (safe_mul toy70 [7, 0] [69, 3, 64] [0x8000000000000001, 0x21] 3 sample_ctx).1.o
          (safe_mul toy70 [7, 0] [69, 3, 64] [0x8000000000000001, 0x21] 3 sample_ctx).1.mask
          (VEC_N_SIZE_64 toy70) =
        (vect_mul toy70 [69, 3, 64] [0x8000000000000001, 0x21] toy70.PARAM_OMEGA
          sample_ctx2).1) ∧
    (toy70.PARAM_OMEGA % 2 = 1 →
      vect_add (safe_mul toy70 [7, 0] [69, 3, 64] [0x8000000000000001, 0x21] 3 sample_ctx).1.o
          (safe_mul toy70 [7, 0] [69, 3, 64] [0x8000000000000001, 0x21] 3 sample_ctx).1.mask
          (VEC_N_SIZE_64 toy70) =
        vect_add (vect_mul toy70 [69, 3, 64] [0x8000000000000001, 0x21] toy70.PARAM_OMEGA
          sample_ctx2).1 [0x8000000000000001, 0x21] (VEC_N_SIZE_64 toy70)) :=
  safe_mul_zero_padding toy70 [7, 0] [69, 3, 64] [0x8000000000000001, 0x21] 3 0 sample_ctx
    sample_ctx2 (by decide) (by decide) (by decide) (by decide) (by decide)

/-- C18. Shift table content: for every dense `a2` of `VEC_N_SIZE_64` 64-bit words
(canonical or not) and every seed expander state, after the table is populated it has
`TABLE * (VEC_N_SIZE_64 + 1)` words and, for each shift `i < 16`, the slot
`permuted_table[i] < 16`, read as a little-endian integer of `VEC_N_SIZE_64 + 1`
words, equals `a2 * 2^i` exactly; distinct shifts occupy disjoint slots. -/
theorem shift_table_content (p : Params) (a2 : List Nat) (ctx : seedexpander_state)
    (hl : a2.length = VEC_N_SIZE_64 p) (hb : ∀ w ∈ a2, w < 2 ^ 64) :
    (build_table p (shuffle_table (cast_u16 (seedexpander ctx (TABLE <<< 1)).1)) a2).length =
      TABLE * (VEC_N_SIZE_64 p + 1) ∧
    (∀ i, i < 16 →
      (shuffle_table (cast_u16 (seedexpander ctx (TABLE <<< 1)).1)).getD i 0 < 16 ∧
      val64 (table_slot p
        (build_table p (shuffle_table (cast_u16 (seedexpander ctx (TABLE <<< 1)).1)) a2)
        ((shuffle_table (cast_u16 (seedexpander ctx (TABLE <<< 1)).1)).getD i 0)) =
          val64 a2 * 2 ^ i) ∧
    (∀ i i', i < 16 → i' < 16 → i ≠ i' → ∀ j j', j ≤ VEC_N_SIZE_64 p → j' ≤ VEC_N_SIZE_64 p →
      (shuffle_table (cast_u16 (seedexpander ctx (TABLE <<< 1)).1)).getD i 0 *
          (VEC_N_SIZE_64 p + 1) + j ≠
        (shuffle_table (cast_u16 (seedexpander ctx (TABLE <<< 1)).1)).getD i' 0 *
          (VEC_N_SIZE_64 p + 1) + j') := by
  have hpt := shuffle_table_perm (cast_u16 (seedexpander ctx (TABLE <<< 1)).1)
  have hb' := getD_lt_of_forall_mem a2 _ (by norm_num) hb
  refine ⟨(build_table_spec p _ a2 hpt hb' hl).1, ?_, ?_⟩
  · intro i hi
    exact ⟨perm_range_getD_lt _ 16 i hpt hi, table_slot_val p _ a2 i hpt hb' hl hi⟩
  · intro i i' hi hi' hne j j' hj hj'
    exact slot_disjoint _ _ _ j j' (fun he => hne (perm_range_getD_inj _ 16 i i' hpt hi hi' he))
      hj hj'

theorem shift_table_content_witness :
    (build_table toy70 (shuffle_table (cast_u16 (seedexpander sample_ctx (TABLE <<< 1)).1))
      [0xFFFFFFFFFFFFFFFF, 0xFFFFFFFFFFFFFFFF]).length = TABLE * (VEC_N_SIZE_64 toy70 + 1) ∧
    (∀ i, i < 16 →
      (shuffle_table (cast_u16 (seedexpander sample_ctx (TABLE <<< 1)).1)).getD i 0 < 16 ∧
      val64 (table_slot toy70
        (build_table toy70 (shuffle_table (cast_u16 (seedexpander sample_ctx (TABLE <<< 1)).1))
          [0xFFFFFFFFFFFFFFFF, 0xFFFFFFFFFFFFFFFF])
        ((shuffle_table (cast_u16 (seedexpander sample_ctx (TABLE <<< 1)).1)).getD i 0)) =
          val64 [0xFFFFFFFFFFFFFFFF, 0xFFFFFFFFFFFFFFFF] * 2 ^ i) ∧
    (∀ i i', i < 16 → i' < 16 → i ≠ i' → ∀ j j', j ≤ VEC_N_SIZE_64 toy70 →
      j' ≤ VEC_N_SIZE_64 toy70 →
      (shuffle_table (cast_u16 (seedexpander sample_ctx (TABLE <<< 1)).1)).getD i 0 *
          (VEC_N_SIZE_64 toy70 + 1) + j ≠
        (shuffle_table (cast_u16 (seedexpander sample_ctx (TABLE <<< 1)).1)).getD i' 0 *
          (VEC_N_SIZE_64 toy70 + 1) + j') :=
  shift_table_content toy70 [0xFFFFFFFFFFFFFFFF, 0xFFFFFFFFFFFFFFFF] sample_ctx (by decide)
    (by decide)

end HQC
